import Mathlib

/-!
The program rotateout: quantity parser, rotation policy and rotated-file naming.

A shallow embedding of `rotateout.go` and a verification of its specification.

Conventions of the embedding

* A Go `string` is a `List Char` (`Str`): the list of its runes.  Only valid UTF-8
  strings are covered; on those the byte-wise order of Go strings is the
  lexicographic order of the code points, and `len([]rune(s))` is the length of the list.
* `int64` and `time.Duration` values are `Int`; `wrap64` is applied where the program
  adds or subtracts `int64` values, so that a wrap-around is visible.
* `float64` values are modelled exactly (`F64`): a finite value is `m * 2 ^ e`, every
  operation rounds the exact result to the nearest double, ties to even.
* A method that may panic returns a `Res`: its value and the state it leaves, or the
  panic and the state at that point.  The clock and the file system are explicit
  (`World`); standard input is the list of the results of the successive reads.
-/

namespace RotateOut

/-- A Go string, as the list of its runes. -/
abbrev Str := List Char

deriving instance DecidableEq for Except

/-! ## 64-bit integers -/

/-- The constant `math.MaxInt64`, also written `1<<63 - 1` in the source. -/
def MaxInt64 : Int := 2 ^ 63 - 1

/-- Two's complement wrap-around of an `int64` result. -/
def wrap64 (x : Int) : Int := (x + 2 ^ 63) % 2 ^ 64 - 2 ^ 63

/-! ## float64 -/

/-- An IEEE-754 binary64 value.  `fin m e` is the finite number `m * 2 ^ e`
(the sign of a zero is not tracked: the program never observes it). -/
inductive F64 where
  | fin (m : Int) (e : Int)
  | inf (neg : Bool)
  | nan
  deriving DecidableEq, Repr

/-- Binary logarithm by repeated halving, at most `fuel` times. -/
def log2Aux : Nat → Nat → Nat
  | 0, _ => 0
  | fuel + 1, n => if n < 2 then 0 else log2Aux fuel (n / 2) + 1

/-- The number `k` with `2 ^ k ≤ n < 2 ^ (k + 1)`, for `n > 0`. -/
def log2 (n : Nat) : Nat := log2Aux n n

/-- The integer `E` with `2 ^ E ≤ num / den < 2 ^ (E + 1)`, for `num, den > 0`. -/
def ilog2 (num den : Nat) : Int :=
  let l : Int := (log2 num : Int) - (log2 den : Int)
  if 0 ≤ l then
    if den * 2 ^ l.toNat ≤ num then l else l - 1
  else
    if den ≤ num * 2 ^ (-l).toNat then l else l - 1

/-- Exponent of the unit in the last place of the double nearest to `num / den`:
52 below the binary exponent, and never below the subnormal exponent `-1074`. -/
def ulpExp (num den : Nat) : Int := max (ilog2 num den - 52) (-1074)

/-- Round-half-to-even of the quotient `n / d` to an integer. -/
def roundHalfEven (n d : Nat) : Nat :=
  let q := n / d
  let r := n % d
  if 2 * r < d then q
  else if d < 2 * r then q + 1
  else if q % 2 = 0 then q else q + 1

/-- The mantissa of the double nearest to `num / den`, in units of `2 ^ ulpExp`. -/
def roundMant (num den : Nat) : Nat :=
  let q := ulpExp num den
  if 0 ≤ q then roundHalfEven num (den * 2 ^ q.toNat)
  else roundHalfEven (num * 2 ^ (-q).toNat) den

/-- The double nearest to `± num / den` (ties to even); an infinity when the rounded
magnitude reaches `2 ^ 1024`. -/
def roundNE (neg : Bool) (num den : Nat) : F64 :=
  if num = 0 then .fin 0 0
  else
    let q := ulpExp num den
    let m := roundMant num den
    if 0 ≤ q ∧ 2 ^ 1024 ≤ m * 2 ^ q.toNat then .inf neg
    else .fin (if neg then -(m : Int) else m) q

namespace F64

/-- Conversion `float64(i)` of an integer (also of an integer constant). -/
def ofInt (i : Int) : F64 := roundNE (decide (i < 0)) i.natAbs 1

/-- Float division `a / b`. -/
def div : F64 → F64 → F64
  | .fin m1 e1, .fin m2 e2 =>
    if m2 = 0 then (if m1 = 0 then .nan else .inf (decide (m1 < 0)))
    else
      roundNE (xor (decide (m1 < 0)) (decide (m2 < 0)))
        (m1.natAbs * 2 ^ (e1 - e2).toNat) (m2.natAbs * 2 ^ (e2 - e1).toNat)
  | .fin _ _, .inf _ => .fin 0 0
  | .inf n1, .fin m2 _ => .inf (xor n1 (decide (m2 < 0)))
  | _, _ => .nan

/-- Float multiplication `a * b`. -/
def mul : F64 → F64 → F64
  | .fin m1 e1, .fin m2 e2 =>
    roundNE (xor (decide (m1 < 0)) (decide (m2 < 0)))
      ((m1 * m2).natAbs * 2 ^ (e1 + e2).toNat) (2 ^ (-(e1 + e2)).toNat)
  | .fin m1 _, .inf n2 => if m1 = 0 then .nan else .inf (xor (decide (m1 < 0)) n2)
  | .inf n1, .fin m2 _ => if m2 = 0 then .nan else .inf (xor n1 (decide (m2 < 0)))
  | .inf n1, .inf n2 => .inf (xor n1 n2)
  | _, _ => .nan

/-- Float comparison `a >= b` (false when an operand is a NaN). -/
def ge : F64 → F64 → Bool
  | .fin m1 e1, .fin m2 e2 =>
    decide (m2 * 2 ^ (e2 - min e1 e2).toNat ≤ m1 * 2 ^ (e1 - min e1 e2).toNat)
  | .fin _ _, .inf n2 => n2
  | .inf n1, .fin _ _ => !n1
  | .inf n1, .inf n2 => !n1 || n2
  | _, _ => false

/-- Conversion `int64(f)`: truncation toward zero.  When the truncated value is not
an `int64` the Go specification leaves the result to the implementation; the value
used here is the one amd64 produces, `-2 ^ 63`. -/
def toInt64 : F64 → Int
  | .fin m e =>
    let t : Int := if 0 ≤ e then m * 2 ^ e.toNat else Int.tdiv m (2 ^ (-e).toNat)
    if -2 ^ 63 ≤ t ∧ t < 2 ^ 63 then t else -2 ^ 63
  | _ => -2 ^ 63

end F64

/-! ## The quantity parser -/

/-- Character class `[0-9]`. -/
def isDigit (c : Char) : Bool := decide (48 ≤ c.toNat ∧ c.toNat ≤ 57)

/-- Character class `[a-zA-Z]`. -/
def isLetter (c : Char) : Bool :=
  decide (97 ≤ c.toNat ∧ c.toNat ≤ 122) || decide (65 ≤ c.toNat ∧ c.toNat ≤ 90)

/-- The Go slice expression `s[i:j]`. -/
def slice (s : Str) (i j : Nat) : Str := (s.take j).drop i

/-- The index pairs returned by `FindStringSubmatchIndex` for `numWithUnitRegExp`:
`res[0], res[1]` the whole match, `res[2], res[3]` the group `n`, `res[4], res[5]`
the group `u`. -/
structure Submatch where
  r0 : Nat
  r1 : Nat
  r2 : Nat
  r3 : Nat
  r4 : Nat
  r5 : Nat
  deriving DecidableEq, Repr

/-- Length matched by the optional group `(?:\.[0-9]+)?` at the front of `s`: a dot
and the longest run of digits after it when there is at least one, else nothing. -/
def fracLen : Str → Nat
  | '.' :: t => if (t.takeWhile isDigit).length = 0 then 0 else (t.takeWhile isDigit).length + 1
  | _ => 0

/-- Go `numWithUnitRegExp.FindStringSubmatchIndex(val)` for the regular expression
`(?P<n>(?:[0-9]*)(?:\.[0-9]+)?)(?P<u>[a-zA-Z]*)`.  Every part of the expression may
match the empty string, so the leftmost match starts at index 0 of every input;
each part is greedy and what follows it never fails, so each part takes the longest
run it can. -/
def FindStringSubmatchIndex (val : Str) : Option Submatch :=
  let d := (val.takeWhile isDigit).length
  let nEnd := d + fracLen (val.drop d)
  let uEnd := nEnd + ((val.drop nEnd).takeWhile isLetter).length
  some { r0 := 0, r1 := uEnd, r2 := 0, r3 := nEnd, r4 := nEnd, r5 := uEnd }

/-- Value of a run of decimal digits, most significant first, on top of `acc`. -/
def digitsVal (acc : Nat) : Str → Nat
  | [] => acc
  | c :: t => digitsVal (acc * 10 + (c.toNat - 48)) t

/-- The decimal `digits[.digits]` as a mantissa and a power-of-ten scale:
the value is `mantissa / 10 ^ scale`.  No result when `n` is not of that form. -/
def decimalOf (n : Str) : Option (Nat × Nat) :=
  let ip := n.takeWhile isDigit
  match n.drop ip.length with
  | [] => if ip = [] then none else some (digitsVal 0 ip, 0)
  | '.' :: fp =>
    if fp ≠ [] ∧ fp.all isDigit then some (digitsVal 0 (ip ++ fp), fp.length) else none
  | _ => none

/-- Go `strconv.ParseFloat(n, 64)` on the strings the regular expression can hand to it
(decimal digits with an optional fraction): the nearest double, and an error when the
value is out of range, that is when it rounds to an infinity. -/
def ParseFloat (n : Str) : Option F64 :=
  match decimalOf n with
  | none => none
  | some (m, k) =>
    match roundNE false m (10 ^ k) with
    | .fin a e => some (.fin a e)
    | _ => none

/-- Go `NumWithUnit`: the matched token, its number as a double, its unit and the
offset of the unit in `val`; or the message of the error. -/
def NumWithUnit (val : Str) : Except Str (Str × F64 × Str × Nat) :=
  match FindStringSubmatchIndex val with
  | none => .error "Unexpected character".toList
  | some res =>
    if res.r0 ≠ 0 then .error "Unexpected character".toList
    else
      let mtch := slice val res.r0 res.r1
      let n := slice val res.r2 res.r3
      let u := slice val res.r4 res.r5
      if n.length = 0 then .error "Number expected".toList
      else
        match ParseFloat n with
        | none => .error "Cannot convert number".toList
        | some nf => .ok (mtch, nf, u, res.r4)

/-- Go `UnitNumParserError`: the message, the original input, and a caret line with
`len(origrunes) - len(srunes) + offset` leading spaces. -/
def UnitNumParserError (s orig message : Str) (offset : Nat) : Str :=
  message ++ "\n".toList ++ orig ++ "\n".toList
    ++ List.replicate ((orig.length : Int) - (s.length : Int) + (offset : Int)).toNat ' '
    ++ "^\n".toList

/-- A Go `map[string]int64`, as the list of its entries in the order in which this
run of the program iterates over it. -/
abbrev UnitMap := List (Str × Int)

/-- The text `fmt.Sprintf("Bad unit: only %v allowed", units)`, `units` being the keys. -/
def badUnitMessage (unitMap : UnitMap) : Str :=
  "Bad unit: only [".toList ++ List.intercalate " ".toList (unitMap.map Prod.fst)
    ++ "] allowed".toList

/-- The `for s != ""` loop of `ParseUnitNum`; `fuel` bounds the number of iterations
and `none` reports that it ran out. -/
def parseLoop (orig : Str) (unitMap : UnitMap) (defaultUnit : Str) :
    Nat → Str → Int → Option (Except Str Int)
  | 0, _, _ => none
  | fuel + 1, s, result =>
    if s = [] then some (.ok result)
    else
      match NumWithUnit s with
      | .error msg => some (.error (UnitNumParserError s orig msg 0))
      | .ok (mtch, n, u, unitOffset) =>
        let u := if u = [] then defaultUnit else u
        match unitMap.lookup u with
        | none => some (.error (UnitNumParserError s orig (badUnitMessage unitMap) unitOffset))
        | some unit =>
          if F64.ge n (F64.div (F64.ofInt MaxInt64) (F64.ofInt unit)) then
            some (.error (UnitNumParserError s orig "Number is too big".toList 0))
          else
            let add := F64.toInt64 (F64.mul n (F64.ofInt unit))
            if wrap64 (MaxInt64 - result) < add then
              some (.error (UnitNumParserError s orig "Numeric overflow".toList 0))
            else
              parseLoop orig unitMap defaultUnit fuel (s.drop mtch.length) (wrap64 (result + add))

/-- Go `ParseUnitNum`.  One iteration per remaining character is enough fuel for
the loop, every iteration that continues consuming at least one. -/
def ParseUnitNum (s : Str) (unitMap : UnitMap) (defaultUnit : Str) :
    Option (Except Str Int) :=
  if s = "0".toList then some (.ok 0)
  else parseLoop s unitMap defaultUnit (s.length + 1) s 0

/-- Go `sizeMap`. -/
def sizeMap : UnitMap :=
  [("b".toList, 1), ("B".toList, 1), ("k".toList, 1024), ("K".toList, 1024),
   ("m".toList, 1024 * 1024), ("M".toList, 1024 * 1024),
   ("g".toList, 1024 * 1024 * 1024), ("G".toList, 1024 * 1024 * 1024)]

/-- Go `durationMap`: nanoseconds of a second, minute, hour, day and week. -/
def durationMap : UnitMap :=
  [("s".toList, 1000000000), ("S".toList, 1000000000),
   ("m".toList, 60 * 1000000000), ("M".toList, 60 * 1000000000),
   ("h".toList, 3600 * 1000000000), ("H".toList, 3600 * 1000000000),
   ("d".toList, 24 * (3600 * 1000000000)), ("D".toList, 24 * (3600 * 1000000000)),
   ("w".toList, 7 * 24 * (3600 * 1000000000)), ("W".toList, 7 * 24 * (3600 * 1000000000))]

/-! ## The environment: clock, file system, standard input -/

/-- A `time.Time`: the wall clock reading, the monotonic reading (both in
nanoseconds) and whether its location is UTC. -/
structure Time where
  wall : Int
  mono : Int
  utc : Bool
  deriving DecidableEq, Repr

/-- What the program distinguishes in the result of `os.Stat`. -/
inductive StatResult where
  | found
  | notExist
  | failed
  deriving DecidableEq, Repr

/-- A system call on the output files, as recorded in the log of the world. -/
inductive Effect where
  | opened (path : Str)
  | closed (path : Str)
  | renamed (src dst : Str)
  | wrote (path : Str) (bytes : List UInt8) (ok : Bool)
  deriving DecidableEq, Repr

/-- Everything outside the process.  `clock k` is the result of the `k`-th call of
`time.Now()`; `files` gives the content of every existing path; the `...Fails`
fields say which system calls report an error (`writeFails k` for the `k`-th write);
`log` lists the calls made so far, latest first. -/
structure World where
  clock : Nat → Time
  ticks : Nat
  files : Str → Option (List UInt8)
  statFails : Str → Bool
  openFails : Str → Bool
  renameFails : Str → Str → Bool
  writeFails : Nat → Bool
  writes : Nat
  log : List Effect

/-- One result of `os.Stdin.Read(buf)` before the end of the stream: a chunk of
data, or an error other than `io.EOF`. -/
inductive ReadResult where
  | data (bytes : List UInt8)
  | fail
  deriving DecidableEq, Repr

/-- The reasons for which the program panics. -/
inductive Panic where
  | openFailed
  | statFailed
  | renameFailed
  | readFailed
  | nilRotation
  deriving DecidableEq, Repr

namespace World

/-- Go `time.Now()`: the next reading of the clock. -/
def now (w : World) : Time × World := (w.clock w.ticks, { w with ticks := w.ticks + 1 })

/-- Go `os.Stat(path)`, as far as `NextRotateFilename` looks at the result. -/
def stat (w : World) (path : Str) : StatResult :=
  if w.statFails path then .failed
  else if (w.files path).isSome then .found
  else .notExist

/-- Go `os.OpenFile(path, O_CREATE|O_APPEND|O_WRONLY, 0644)`: the file is created
empty when it does not exist. -/
def openAppend (w : World) (path : Str) : Option World :=
  if w.openFails path then none
  else some { w with
    files := fun p => if p = path then some ((w.files path).getD []) else w.files p
    log := .opened path :: w.log }

/-- Go `os.Rename(src, dst)`: fails when `src` does not exist, replaces `dst`. -/
def rename (w : World) (src dst : Str) : Option World :=
  if w.renameFails src dst then none
  else
    match w.files src with
    | none => none
    | some content => some { w with
        files := fun p => if p = dst then some content else if p = src then none else w.files p
        log := .renamed src dst :: w.log }

/-- Go `f.Write(bytes)` on the handle opened at `path` with `O_APPEND`. -/
def write (w : World) (path : Str) (bytes : List UInt8) : World :=
  if w.writeFails w.writes then
    { w with writes := w.writes + 1, log := .wrote path bytes false :: w.log }
  else { w with
    files := fun p => if p = path then some ((w.files path).getD [] ++ bytes) else w.files p
    writes := w.writes + 1
    log := .wrote path bytes true :: w.log }

/-- Go `f.Close()` on the handle opened at `path`. -/
def close (w : World) (path : Str) : World := { w with log := .closed path :: w.log }

end World

/-! ## The rotation engine -/

/-- Go `rotation`. -/
structure rotation where
  startTime : Time
  bytesWritten : Int
  deriving DecidableEq, Repr

/-- Go `rotateOut`.  `timeFormat` is the `FormatString` method of the compiled
strftime pattern, when there is one; `outFile` is the path at which the open handle
was opened, when there is one. -/
structure rotateOut where
  baseName : Str
  suffix : Str
  timeFormat : Option (Time → Str)
  maxSize : Int
  maxTime : Int
  useUTC : Bool
  rotation : Option rotation
  outFile : Option Str

/-- The result of a method that may panic, with the state it leaves. -/
inductive Res (α : Type) where
  | ok (a : α) (ro : rotateOut) (w : World)
  | panic (p : Panic) (ro : rotateOut) (w : World)

/-- Go `time.Since(t)`: the monotonic time elapsed between `t` and `now`. -/
def Since (now t : Time) : Int := now.mono - t.mono

/-- The digit character of `d < 10`. -/
def digitChar (d : Nat) : Char := Char.ofNat (48 + d)

/-- The verb `%04d` of `fmt.Sprintf` on a non-negative integer: decimal, padded
with zeros to four digits, in full when it needs more. -/
def fmt04d (i : Nat) : Str :=
  if i < 10000 then
    [digitChar (i / 1000), digitChar (i / 100 % 10), digitChar (i / 10 % 10), digitChar (i % 10)]
  else Nat.toDigits 10 i

namespace rotateOut

/-- Go `LogFileName`. -/
def LogFileName (ro : rotateOut) : Str := ro.baseName ++ ro.suffix

/-- Go `OpenLogFile`. -/
def OpenLogFile (ro : rotateOut) (w : World) : Res Unit :=
  let fileName := ro.LogFileName
  match w.openAppend fileName with
  | none => .panic .openFailed ro w
  | some w1 => .ok () { ro with outFile := some fileName } w1

/-- Go `Close`. -/
def Close (ro : rotateOut) (w : World) : rotateOut × World :=
  match ro.outFile with
  | some f => ({ ro with outFile := none }, w.close f)
  | none => (ro, w)

/-- Go `UpdateRotation`. -/
def UpdateRotation (ro : rotateOut) (w : World) : rotateOut × World :=
  let (t, w1) := w.now
  let r : RotateOut.rotation := { startTime := t, bytesWritten := 0 }
  ({ ro with rotation := some r }, w1)

/-- Go `NeedRotate`. -/
def NeedRotate (ro : rotateOut) (w : World) : Bool × rotateOut × World :=
  match ro.rotation with
  | none =>
    let (ro1, w1) := ro.UpdateRotation w
    (false, ro1, w1)
  | some r =>
    if 0 < ro.maxTime then
      let (t, w1) := w.now
      let rotDuration := Since t r.startTime
      if ro.maxTime < rotDuration then (true, ro, w1)
      else if 0 < ro.maxSize ∧ ro.maxSize < r.bytesWritten then (true, ro, w1)
      else (false, ro, w1)
    else if 0 < ro.maxSize ∧ ro.maxSize < r.bytesWritten then (true, ro, w)
    else (false, ro, w)

/-- The candidate with counter `i` built in the loop of `NextRotateFilename`:
`ro.baseName + timePart + fmt.Sprintf(sep + "%04d", i) + ro.suffix`. -/
def numbered (ro : rotateOut) (timePart sep : Str) (i : Nat) : Str :=
  ro.baseName ++ timePart ++ (sep ++ fmt04d i) ++ ro.suffix

/-- The loop `for i := 1; i < 10000; i++` of `NextRotateFilename`, entered with
counter `i` and `fuel = 10000 - i` iterations left. -/
def nextLoop (ro : rotateOut) (w : World) (timePart sep : Str) :
    Nat → Nat → Str → Except Panic Str
  | 0, _, filename => .ok filename
  | fuel + 1, i, filename =>
    match w.stat filename with
    | .notExist => .ok filename
    | .failed => .error .statFailed
    | .found => nextLoop ro w timePart sep fuel (i + 1) (ro.numbered timePart sep i)

/-- The time part and the separator of the counter that `NextRotateFilename` sets up
before its loop, from the formatted time (if a format is configured). -/
def nameParts (formatted : Option Str) : Str × Str :=
  match formatted with
  | none => ([], ['.'])
  | some tp => if 0 < tp.length then ('.' :: tp, ['_']) else (tp, ['.'])

/-- The first lines of `NextRotateFilename`: the time of the call, formatted when
a time format is configured, after `t.UTC()` when `useUTC` is set. -/
def formattedNow (ro : rotateOut) (w : World) : Option Str × World :=
  match ro.timeFormat with
  | none => (none, w)
  | some f =>
    let (t, w1) := w.now
    let t := if ro.useUTC then { t with utc := true } else t
    (some (f t), w1)

/-- Go `NextRotateFilename`. -/
def NextRotateFilename (ro : rotateOut) (w : World) : Res Str :=
  let (formatted, w1) := ro.formattedNow w
  let (timePart, sep) := nameParts formatted
  let filename := ro.baseName ++ timePart ++ ro.suffix
  match nextLoop ro w1 timePart sep 9999 1 filename with
  | .ok name => .ok name ro w1
  | .error p => .panic p ro w1

/-- Go `Rotate`. -/
def Rotate (ro : rotateOut) (w : World) : Res Unit :=
  let (ro1, w1) := ro.Close w
  match ro1.NextRotateFilename w1 with
  | .panic p ro2 w2 => .panic p ro2 w2
  | .ok dst ro2 w2 =>
    match w2.rename ro2.LogFileName dst with
    | none => .panic .renameFailed ro2 w2
    | some w3 =>
      let (ro4, w4) := ro2.UpdateRotation w3
      ro4.OpenLogFile w4

/-- The statement `if (ro.NeedRotate()) { ro.Rotate() }` at the head of the loop of `Run`. -/
def checkRotate (ro : rotateOut) (w : World) : Res Unit :=
  match ro.NeedRotate w with
  | (true, ro1, w1) => ro1.Rotate w1
  | (false, ro1, w1) => .ok () ro1 w1

/-- The end of an iteration of the loop of `Run` that has read the chunk `bytes`:
the write, whose result the program drops, and the count of the bytes. -/
def pump (ro : rotateOut) (w : World) (bytes : List UInt8) : Res Unit :=
  let w1 := match ro.outFile with
    | some f => w.write f bytes
    | none => w
  match ro.rotation with
  | none => .panic .nilRotation ro w1
  | some r =>
    .ok () { ro with
      rotation := some { r with bytesWritten := wrap64 (r.bytesWritten + bytes.length) } } w1

/-- The `for` loop of `Run` over the results of the successive reads of standard
input; the end of the list is the end of the stream (`io.EOF`).  Every iteration
starts with the check, then looks at the result of the read. -/
def runLoop : List ReadResult → rotateOut → World → Res Unit
  | [], ro, w =>
    match ro.checkRotate w with
    | .panic p ro1 w1 => .panic p ro1 w1
    | .ok _ ro1 w1 => .ok () ro1 w1
  | .fail :: _, ro, w =>
    match ro.checkRotate w with
    | .panic p ro1 w1 => .panic p ro1 w1
    | .ok _ ro1 w1 => .panic .readFailed ro1 w1
  | .data bytes :: rest, ro, w =>
    match ro.checkRotate w with
    | .panic p ro1 w1 => .panic p ro1 w1
    | .ok _ ro1 w1 =>
      match ro1.pump w1 bytes with
      | .panic p ro2 w2 => .panic p ro2 w2
      | .ok _ ro2 w2 => runLoop rest ro2 w2

/-- Go `Run`; the deferred `Close` runs on return and on panic, once it has been
registered. -/
def Run (ro : rotateOut) (w : World) (stdin : List ReadResult) : Res Unit :=
  match ro.OpenLogFile w with
  | .panic p ro1 w1 => .panic p ro1 w1
  | .ok _ ro1 w1 =>
    let (ro2, w2) := ro1.UpdateRotation w1
    match runLoop stdin ro2 w2 with
    | .ok _ ro3 w3 => let (ro4, w4) := ro3.Close w3; .ok () ro4 w4
    | .panic p ro3 w3 => let (ro4, w4) := ro3.Close w3; .panic p ro4 w4

/-- The states in which `Run`, started on `ro0`, `w0` and the read results `stdin`,
arrives at the head of its loop, with the read results still to come. -/
inductive Reaches (ro0 : rotateOut) (w0 : World) (stdin : List ReadResult) :
    List ReadResult → rotateOut → World → Prop where
  | start {ro1 : rotateOut} {w1 : World} :
      ro0.OpenLogFile w0 = .ok () ro1 w1 →
      Reaches ro0 w0 stdin stdin (ro1.UpdateRotation w1).1 (ro1.UpdateRotation w1).2
  | next {bytes : List UInt8} {rest : List ReadResult} {ro ro1 ro2 : rotateOut}
      {w w1 w2 : World} :
      Reaches ro0 w0 stdin (.data bytes :: rest) ro w →
      ro.checkRotate w = .ok () ro1 w1 →
      ro1.pump w1 bytes = .ok () ro2 w2 →
      Reaches ro0 w0 stdin rest ro2 w2

end rotateOut

namespace Res

/-- The world a method leaves. -/
def world {α : Type} : Res α → World
  | .ok _ _ w => w
  | .panic _ _ w => w

/-- The engine state a method leaves. -/
def engine {α : Type} : Res α → rotateOut
  | .ok _ ro _ => ro
  | .panic _ ro _ => ro

end Res

/-- The log entry is a rename. -/
def Effect.isRename : Effect → Bool
  | .renamed _ _ => true
  | _ => false

/-- A world for examples: nothing exists, no call fails, the clock advances by one
nanosecond at every reading. -/
def quietWorld : World where
  clock := fun k => { wall := k, mono := k, utc := false }
  ticks := 0
  files := fun _ => none
  statFails := fun _ => false
  openFails := fun _ => false
  renameFails := fun _ _ => false
  writeFails := fun _ => false
  writes := 0
  log := []

/-- An engine for examples: `base.log`, no time format, rotation at more than
`maxSize` bytes and, when `maxTime > 0`, after more than `maxTime` nanoseconds. -/
def baseEngine (maxSize maxTime : Int) (rot : Option rotation) : rotateOut where
  baseName := "base".toList
  suffix := ".log".toList
  timeFormat := none
  maxSize := maxSize
  maxTime := maxTime
  useUTC := false
  rotation := rot
  outFile := some "base.log".toList

/-- The value a method returns, when it does not panic. -/
def Res.value? {α : Type} : Res α → Option α
  | .ok a _ _ => some a
  | .panic _ _ _ => none

/-- The candidates of `NextRotateFilename` in the order in which it tries them:
the unnumbered name first, then the names with counter 1, 2, ... -/
def rotateOut.candidate (ro : rotateOut) (timePart sep : Str) (k : Nat) : Str :=
  if k = 0 then ro.baseName ++ timePart ++ ro.suffix else ro.numbered timePart sep k

/-- The order `<` of Go strings: lexicographic, character by character (on valid
UTF-8 the order of the bytes and the order of the code points agree). -/
def strLt : Str → Str → Bool
  | [], [] => false
  | [], _ :: _ => true
  | _ :: _, [] => false
  | a :: s, b :: t => decide (a.toNat < b.toNat) || (decide (a = b) && strLt s t)

/-- The world after the file `path` has been created (empty, if it did not exist). -/
def World.touch (w : World) (path : Str) : World :=
  { w with files := fun p => if p = path then some ((w.files path).getD []) else w.files p }

/-- The name returned by the call of `NextRotateFilename` that follows `k` earlier
calls, the path returned by each call being created before the next call. -/
def rotateOut.nthName (ro : rotateOut) : Nat → World → Option Str
  | 0, w => (ro.NextRotateFilename w).value?
  | k + 1, w =>
    match ro.NextRotateFilename w with
    | .ok name _ w1 => rotateOut.nthName ro k (w1.touch name)
    | .panic _ _ _ => none

/-- A world in which every path exists. -/
def fullWorld : World := { quietWorld with files := fun _ => some [] }

/-- A world in which only `base.log` exists. -/
def oneFileWorld : World :=
  { quietWorld with files := fun p => if p = "base.log".toList then some [] else none }

/-- An engine with the time format that always prints `2024` and the suffix `log`. -/
def datedEngine : rotateOut :=
  { baseEngine 0 0 none with suffix := "log".toList, timeFormat := some (fun _ => "2024".toList) }

/-- A world in which only `base.2024log` exists. -/
def datedWorld : World :=
  { quietWorld with files := fun p => if p = "base.2024log".toList then some [] else none }

/-! ## Tokens of a quantity string (specification side) -/

/-- A token `<number><unit>`: the digits before the dot, the digits after the dot
when there is a fraction, and the letters of the unit. -/
structure Token where
  intPart : Str
  fracPart : Option Str
  unit : Str
  deriving DecidableEq, Repr

namespace Token

/-- The text of the fraction, with its dot. -/
def fracText (t : Token) : Str :=
  match t.fracPart with
  | none => []
  | some f => '.' :: f

/-- The text of the number of the token. -/
def number (t : Token) : Str := t.intPart ++ t.fracText

/-- The text of the token. -/
def text (t : Token) : Str := t.number ++ t.unit

/-- The parts of the token are what they should be: digits, a fraction with at
least one digit, letters. -/
def shaped (t : Token) : Bool :=
  t.intPart.all isDigit
    && (match t.fracPart with
        | none => true
        | some f => !f.isEmpty && f.all isDigit)
    && t.unit.all isLetter

/-- A well-formed token: shaped, with a number that is not empty. -/
def wf (t : Token) : Bool := t.shaped && !t.number.isEmpty

/-- The token is maximal in front of `rest`: the text that follows extends neither
its unit nor, when it has no unit, its number. -/
def sepOK (t : Token) (rest : Str) : Bool :=
  match rest with
  | [] => true
  | c :: r =>
    !isLetter c
      && (!t.unit.isEmpty
          || (!isDigit c && (t.fracPart.isSome || !(c == '.' && r.head?.any isDigit))))

/-- The digits of the number without the dot, as an integer. -/
def mantissa (t : Token) : Nat := digitsVal 0 (t.intPart ++ (t.fracPart.getD []))

/-- The number of digits after the dot: the number is `mantissa / 10 ^ scale`. -/
def scale (t : Token) : Nat := (t.fracPart.getD []).length

/-- The unit that applies: the default unit when the token has none. -/
def effUnit (t : Token) (defaultUnit : Str) : Str :=
  if t.unit = [] then defaultUnit else t.unit

/-- The claimed value of the token: `number x multiplier`, exactly, truncated. -/
def exactValue (t : Token) (mult : Int) : Int :=
  Int.tdiv ((t.mantissa : Int) * mult) (10 ^ t.scale)

/-- The double nearest to the number of the token. -/
def nearest (t : Token) : F64 := roundNE false t.mantissa (10 ^ t.scale)

end Token

/-- The exact truncation toward zero of a finite double. -/
def F64.trunc? : F64 → Option Int
  | .fin m e => some (if 0 ≤ e then m * 2 ^ e.toNat else Int.tdiv m (2 ^ (-e).toNat))
  | _ => none

/-- The double is finite and not negative. -/
def F64.finiteNonneg : F64 → Bool
  | .fin m _ => decide (0 ≤ m)
  | _ => false

/-- The guard of `ParseUnitNum` against a number that is too big for its unit:
`n >= math.MaxInt64/float64(unit)`, evaluated in float64. -/
def tooBig (n : F64) (unit : Int) : Bool :=
  F64.ge n (F64.div (F64.ofInt MaxInt64) (F64.ofInt unit))

/-- The value of a token as computed in float64: the truncation of the double
product of the double nearest to the number and the double of the multiplier.
No value when that product is not finite. -/
def Token.f64Value (t : Token) (mult : Int) : Option Int :=
  (F64.mul t.nearest (F64.ofInt mult)).trunc?

/-- The text of a sequence of tokens. -/
def tokensText : List Token → Str
  | [] => []
  | t :: ts => t.text ++ tokensText ts

/-- Every token of the sequence is maximal in front of what follows it, `rest`
following the last one. -/
def separated : List Token → Str → Bool
  | [], _ => true
  | t :: ts, rest => t.sepOK (tokensText ts ++ rest) && separated ts rest

/-- Every token of the sequence is accepted by `ParseUnitNum`: its unit (or the
default unit) is a key of the table, the double nearest to its number is finite
and passes the guard `tooBig`. -/
def accepted (unitMap : UnitMap) (defaultUnit : Str) : List Token → Bool
  | [] => true
  | t :: ts =>
    (match unitMap.lookup (t.effUnit defaultUnit) with
      | none => false
      | some mult => t.nearest.finiteNonneg && !tooBig t.nearest mult)
    && accepted unitMap defaultUnit ts

/-- Every token of the sequence gets as far as the guard of `ParseUnitNum`: its unit
(or the default unit) is a key of the table and the double nearest to its number is
finite. -/
def recognized (unitMap : UnitMap) (defaultUnit : Str) : List Token → Bool
  | [] => true
  | t :: ts =>
    (match unitMap.lookup (t.effUnit defaultUnit) with
      | none => false
      | some _ => t.nearest.finiteNonneg)
    && recognized unitMap defaultUnit ts

/-- The sum of the float64 values of the tokens (a token without a value counts 0). -/
def f64Sum (unitMap : UnitMap) (defaultUnit : Str) : List Token → Int
  | [] => 0
  | t :: ts =>
    ((unitMap.lookup (t.effUnit defaultUnit)).bind t.f64Value).getD 0
      + f64Sum unitMap defaultUnit ts

/-- The sum of the exact values of the tokens (a token without a multiplier counts 0). -/
def exactSum (unitMap : UnitMap) (defaultUnit : Str) : List Token → Int
  | [] => 0
  | t :: ts =>
    ((unitMap.lookup (t.effUnit defaultUnit)).map t.exactValue).getD 0
      + exactSum unitMap defaultUnit ts

/-- Every multiplier of the table is an `int64`. -/
def UnitMap.int64 (unitMap : UnitMap) : Prop :=
  ∀ e ∈ unitMap, -2 ^ 63 ≤ e.2 ∧ e.2 < 2 ^ 63

/-- The tokens of `2m512.15k100b`. -/
def sizeTokens : List Token :=
  [⟨"2".toList, none, "m".toList⟩, ⟨"512".toList, some "15".toList, "k".toList⟩,
   ⟨"100".toList, none, "b".toList⟩]

/-- The token of `9007199254740993b`, whose number `2 ^ 53 + 1` is not a double. -/
def oddToken : List Token := [⟨"9007199254740993".toList, none, "b".toList⟩]

/-- The tokens of `9223372036854775295b1000b`. -/
def nearMaxTokens : List Token :=
  [⟨"9223372036854775295".toList, none, "b".toList⟩, ⟨"1000".toList, none, "b".toList⟩]

/-- The tokens of `9223372036854775000b2000b`. -/
def overMaxTokens : List Token :=
  [⟨"9223372036854775000".toList, none, "b".toList⟩, ⟨"2000".toList, none, "b".toList⟩]

/-- The text of a number with 310 digits followed by the unknown unit `x`. -/
def hugeInput : Str := '1' :: List.replicate 309 '0' ++ ['x']

/-- A table with a zero and a negative multiplier. -/
def mixedMap : UnitMap := [("z".toList, 0), ("n".toList, -5), ("b".toList, 1)]

/-- A world in which every write fails, and nothing else. -/
def fullDiskWorld : World := { quietWorld with writeFails := fun _ => true }

/-- The quiet world at its `n`-th reading of the clock, which shows `n` nanoseconds. -/
def laterWorld (n : Nat) : World := { quietWorld with ticks := n }

/-- An engine with the size threshold disabled and an age threshold of 5 nanoseconds,
whose epoch started at time 0 and has counted no byte. -/
def agedEngine : rotateOut :=
  baseEngine 0 5 (some { startTime := { wall := 0, mono := 0, utc := false }, bytesWritten := 0 })

/-- A world whose clock stands still, in which only `base.log` exists. -/
def frozenWorld : World :=
  { oneFileWorld with clock := fun _ => { wall := 0, mono := 0, utc := false } }

/-- An engine with thresholds 10 bytes and 5 nanoseconds whose epoch, started at
time 0, has counted 11 bytes. -/
def overfullEngine : rotateOut :=
  baseEngine 10 5 (some { startTime := { wall := 0, mono := 0, utc := false }, bytesWritten := 11 })

/-- A read that fills the buffer of `Run`: 4096 bytes. -/
def fullChunk : ReadResult := .data (List.replicate 4096 0)

/-- An input of `2 ^ 51` full buffers, that is `2 ^ 63` bytes. -/
def longInput : List ReadResult := List.replicate (2 ^ 51) fullChunk

/-! ## Files and input stream (specification side) -/

/-- Three reads, of two, two and one bytes. -/
def fiveBytes : List ReadResult := [.data [1, 2], .data [3, 4], .data [5]]

/-- The token of `9223372036854775807b`, whose number is `2 ^ 63 - 1`. -/
def maxToken : Token := ⟨"9223372036854775807".toList, none, "b".toList⟩

/-- The token of `9223372036854771712b`, whose number is `2 ^ 63 - 4096`. -/
def marginToken : Token := ⟨"9223372036854771712".toList, none, "b".toList⟩

/-! ## The names chosen along a run (specification side) -/

open rotateOut

/-! ## Rotation policy -/

/-- C7: in a state that has an epoch, `NeedRotate` answers true exactly when the age
threshold is enabled and strictly exceeded by the time elapsed, `now - startTime`
(the monotonic reading of the clock taken by the call minus the monotonic reading
at the start of the epoch), or the size threshold is enabled and strictly exceeded;
with the size threshold enabled and the age threshold not exceeded,
`bytesWritten = maxSize` gives false and `bytesWritten = maxSize + 1` true. -/
theorem NeedRotate_iff_strict (ro : rotateOut) (w : World) (r : rotation)
    (h : ro.rotation = some r) :
    ((ro.NeedRotate w).1 = true ↔
        (0 < ro.maxTime ∧ ro.maxTime < (w.clock w.ticks).mono - r.startTime.mono)
        ∨ (0 < ro.maxSize ∧ ro.maxSize < r.bytesWritten))
    ∧ (0 < ro.maxSize →
        ¬ (0 < ro.maxTime ∧ ro.maxTime < (w.clock w.ticks).mono - r.startTime.mono) →
        (r.bytesWritten = ro.maxSize → (ro.NeedRotate w).1 = false)
        ∧ (r.bytesWritten = ro.maxSize + 1 → (ro.NeedRotate w).1 = true)) := by
  have key : (ro.NeedRotate w).1 = true ↔
      (0 < ro.maxTime ∧ ro.maxTime < (w.clock w.ticks).mono - r.startTime.mono)
      ∨ (0 < ro.maxSize ∧ ro.maxSize < r.bytesWritten) := by
    unfold NeedRotate
    rw [h]
    simp only [World.now, Since]
    by_cases hT : 0 < ro.maxTime
    · by_cases hA : ro.maxTime < (w.clock w.ticks).mono - r.startTime.mono
      · simp [hT, hA]
      · by_cases hS : 0 < ro.maxSize ∧ ro.maxSize < r.bytesWritten
        · simp [hT, hA, hS]
        · simp [hT, hA, hS]
    · by_cases hS : 0 < ro.maxSize ∧ ro.maxSize < r.bytesWritten
      · simp [hT, hS]
      · simp [hT, hS]
  refine ⟨key, fun hS hA => ⟨fun hb => ?_, fun hb => ?_⟩⟩
  · have : ¬ (ro.NeedRotate w).1 = true := by
      rw [key]
      rintro (h1 | h1)
      · exact hA h1
      · omega
    simpa using this
  · rw [key]
    right
    exact ⟨hS, by omega⟩

/-- C7, at concrete states.  Age: with the size threshold disabled, an age threshold
of 5 nanoseconds and an epoch started at time 0, `NeedRotate` answers true when the
clock shows 6 and false when it shows 5.  Size: with the age threshold disabled and
a size threshold of 10, eleven bytes written give true. -/
theorem NeedRotate_iff_strict_witness :
    agedEngine.rotation = some ⟨⟨0, 0, false⟩, 0⟩
    ∧ agedEngine.maxSize = 0
    ∧ (0 < agedEngine.maxTime
        ∧ agedEngine.maxTime
            < ((laterWorld 6).clock (laterWorld 6).ticks).mono - (0 : Int))
    ∧ (agedEngine.NeedRotate (laterWorld 6)).1 = true
    ∧ ((laterWorld 5).clock (laterWorld 5).ticks).mono - (0 : Int) = agedEngine.maxTime
    ∧ (agedEngine.NeedRotate (laterWorld 5)).1 = false
    ∧ (baseEngine 10 0 (some ⟨⟨0, 0, false⟩, 11⟩)).rotation = some ⟨⟨0, 0, false⟩, 11⟩
    ∧ ((baseEngine 10 0 (some ⟨⟨0, 0, false⟩, 11⟩)).NeedRotate quietWorld).1 = true :=
  ⟨rfl, rfl, by decide,
    (NeedRotate_iff_strict agedEngine (laterWorld 6) ⟨⟨0, 0, false⟩, 0⟩ rfl).1.mpr
      (Or.inl (by decide)),
    by decide,
    Bool.eq_false_iff.mpr (fun hne =>
      absurd ((NeedRotate_iff_strict agedEngine (laterWorld 5) ⟨⟨0, 0, false⟩, 0⟩ rfl).1.mp hne)
        (by decide)),
    rfl,
    ((NeedRotate_iff_strict (baseEngine 10 0 (some ⟨⟨0, 0, false⟩, 11⟩)) quietWorld
      ⟨⟨0, 0, false⟩, 11⟩ rfl).2 (by decide) (by decide)).2 (by decide)⟩

/-- With both thresholds at zero and an epoch in place, `NeedRotate` answers false
and changes nothing. -/
theorem NeedRotate_disabled (ro : rotateOut) (w : World) (hT : ro.maxTime = 0)
    (hS : ro.maxSize = 0) (hr : ro.rotation.isSome = true) :
    ro.NeedRotate w = (false, ro, w) := by
  unfold NeedRotate
  cases hrot : ro.rotation with
  | none => simp [hrot] at hr
  | some r => simp [hT, hS]

/-- With both thresholds at zero, `NeedRotate` answers false in every state. -/
theorem NeedRotate_disabled_false (ro : rotateOut) (w : World) (hT : ro.maxTime = 0)
    (hS : ro.maxSize = 0) : (ro.NeedRotate w).1 = false := by
  unfold NeedRotate
  cases hrot : ro.rotation with
  | none => simp [UpdateRotation, World.now]
  | some r => simp [hT, hS]

/-- With both thresholds at zero and an epoch in place, the check at the head of the
loop does not call `Rotate`. -/
theorem checkRotate_disabled (ro : rotateOut) (w : World) (hT : ro.maxTime = 0)
    (hS : ro.maxSize = 0) (hr : ro.rotation.isSome = true) :
    ro.checkRotate w = .ok () ro w := by
  unfold checkRotate
  rw [NeedRotate_disabled ro w hT hS hr]

/-- What `pump` does when there is an epoch: thresholds kept, epoch kept, and the
log only grows by writes. -/
theorem pump_ok (ro : rotateOut) (w : World) (bytes : List UInt8)
    (hr : ro.rotation.isSome = true) :
    ∃ ro2 w2, ro.pump w bytes = .ok () ro2 w2 ∧ ro2.maxTime = ro.maxTime
      ∧ ro2.maxSize = ro.maxSize ∧ ro2.rotation.isSome = true
      ∧ w2.log.filter Effect.isRename = w.log.filter Effect.isRename := by
  unfold pump
  cases hrot : ro.rotation with
  | none => simp [hrot] at hr
  | some r =>
    refine ⟨_, _, rfl, rfl, rfl, rfl, ?_⟩
    cases ro.outFile with
    | none => rfl
    | some f =>
      simp only [World.write]
      split <;> simp [Effect.isRename]

/-- What a successful `OpenLogFile` leaves. -/
theorem OpenLogFile_ok {ro ro1 : rotateOut} {w w1 : World}
    (h : ro.OpenLogFile w = .ok () ro1 w1) :
    w.openAppend ro.LogFileName = some w1
      ∧ ro1 = { ro with outFile := some ro.LogFileName } := by
  simp only [OpenLogFile] at h
  cases hopen : w.openAppend ro.LogFileName with
  | none => rw [hopen] at h; cases h
  | some w2 =>
    rw [hopen] at h
    cases h
    exact ⟨rfl, rfl⟩

/-- A successful `openAppend` adds no rename to the log. -/
theorem openAppend_log {w w1 : World} {path : Str} (h : w.openAppend path = some w1) :
    w1.log.filter Effect.isRename = w.log.filter Effect.isRename := by
  unfold World.openAppend at h
  split at h
  · cases h
  · cases h
    simp [Effect.isRename]

/-- The method `Close` adds no rename to the log. -/
theorem Close_log (ro : rotateOut) (w : World) :
    (ro.Close w).2.log.filter Effect.isRename = w.log.filter Effect.isRename := by
  unfold Close
  cases ro.outFile <;> simp [World.close, Effect.isRename]

/-- With both thresholds at zero the loop of `Run` adds no rename to the log. -/
theorem runLoop_disabled (reads : List ReadResult) :
    ∀ (ro : rotateOut) (w : World), ro.maxTime = 0 → ro.maxSize = 0 →
      ro.rotation.isSome = true →
      (runLoop reads ro w).world.log.filter Effect.isRename
        = w.log.filter Effect.isRename := by
  induction reads with
  | nil =>
    intro ro w hT hS hr
    rw [runLoop, checkRotate_disabled ro w hT hS hr]
    rfl
  | cons rd rest ih =>
    intro ro w hT hS hr
    cases rd with
    | fail =>
      rw [runLoop, checkRotate_disabled ro w hT hS hr]
      rfl
    | data bytes =>
      rw [runLoop, checkRotate_disabled ro w hT hS hr]
      obtain ⟨ro2, w2, hp, h1, h2, h3, h4⟩ := pump_ok ro w bytes hr
      simp only [hp]
      rw [ih ro2 w2 (h1.trans hT) (h2.trans hS) h3, h4]

/-- With both thresholds at zero, every state at the head of the loop of `Run` keeps
them at zero and has an epoch. -/
theorem Reaches_disabled {ro0 : rotateOut} {w0 : World} {stdin rest : List ReadResult}
    {ro : rotateOut} {w : World} (hT : ro0.maxTime = 0) (hS : ro0.maxSize = 0)
    (h : Reaches ro0 w0 stdin rest ro w) :
    ro.maxTime = 0 ∧ ro.maxSize = 0 ∧ ro.rotation.isSome = true := by
  induction h with
  | start hopen =>
    obtain ⟨_, rfl⟩ := OpenLogFile_ok hopen
    exact ⟨hT, hS, rfl⟩
  | next _ hc hp ih =>
    obtain ⟨h1, h2, h3⟩ := ih
    rw [checkRotate_disabled _ _ h1 h2 h3] at hc
    cases hc
    obtain ⟨ro2, w2, hp2, e1, e2, e3, _⟩ := pump_ok _ _ _ h3
    rw [hp2] at hp
    cases hp
    exact ⟨e1.trans h1, e2.trans h2, e3⟩

/-- C8: with `maxTime = 0` and `maxSize = 0`, `NeedRotate` answers false in every
state in which `Run` arrives at the head of its loop, the check there does not call
`Rotate`, and a whole run adds no rename to the log of the world. -/
theorem Run_never_rotates_when_disabled (ro0 : rotateOut) (w0 : World)
    (stdin : List ReadResult) (hT : ro0.maxTime = 0) (hS : ro0.maxSize = 0) :
    (∀ rest ro w, Reaches ro0 w0 stdin rest ro w →
        (ro.NeedRotate w).1 = false ∧ ro.checkRotate w = .ok () ro w)
    ∧ (ro0.Run w0 stdin).world.log.filter Effect.isRename
        = w0.log.filter Effect.isRename := by
  constructor
  · intro rest ro w h
    obtain ⟨h1, h2, h3⟩ := Reaches_disabled hT hS h
    exact ⟨NeedRotate_disabled_false ro w h1 h2, checkRotate_disabled ro w h1 h2 h3⟩
  · unfold Run
    cases hopen : ro0.OpenLogFile w0 with
    | panic p ro1 w1 =>
      simp only [OpenLogFile] at hopen
      cases ho : w0.openAppend ro0.LogFileName with
      | none => rw [ho] at hopen; cases hopen; rfl
      | some w2 => rw [ho] at hopen; cases hopen
    | ok a ro1 w1 =>
      obtain ⟨ho, rfl⟩ := OpenLogFile_ok hopen
      have hloop := runLoop_disabled stdin
        (UpdateRotation { ro0 with outFile := some ro0.LogFileName } w1).1
        (UpdateRotation { ro0 with outFile := some ro0.LogFileName } w1).2 hT hS rfl
      have hw : (UpdateRotation { ro0 with outFile := some ro0.LogFileName } w1).2.log
          = w1.log := rfl
      rw [hw, openAppend_log ho] at hloop
      simp only []
      cases hrun : runLoop stdin
          (UpdateRotation { ro0 with outFile := some ro0.LogFileName } w1).1
          (UpdateRotation { ro0 with outFile := some ro0.LogFileName } w1).2 with
      | ok a ro3 w3 =>
        rw [hrun] at hloop
        simp only [Res.world] at hloop ⊢
        rw [Close_log, hloop]
      | panic p ro3 w3 =>
        rw [hrun] at hloop
        simp only [Res.world] at hloop ⊢
        rw [Close_log, hloop]

/-- C8, on a run that reads two chunks with both thresholds at zero. -/
theorem Run_never_rotates_when_disabled_witness :
    (baseEngine 0 0 none).maxTime = 0 ∧ (baseEngine 0 0 none).maxSize = 0
    ∧ ((baseEngine 0 0 none).Run quietWorld [.data [1, 2, 3], .data [4]]).world.log.filter
        Effect.isRename = quietWorld.log.filter Effect.isRename :=
  ⟨rfl, rfl, (Run_never_rotates_when_disabled (baseEngine 0 0 none) quietWorld
      [.data [1, 2, 3], .data [4]] rfl rfl).2⟩

/-! ## Names of rotated files -/

/-- The candidate tried after candidate `k` is the numbered name `k + 1`. -/
theorem candidate_succ (ro : rotateOut) (tp sep : Str) (k : Nat) :
    ro.candidate tp sep (k + 1) = ro.numbered tp sep (k + 1) := by
  simp [candidate]

/-- The loop of `NextRotateFilename` returns the first candidate that does not
exist, when it meets one among those it checks. -/
theorem nextLoop_first_free (ro : rotateOut) (w : World) (tp sep : Str) :
    ∀ (fuel i0 j : Nat), i0 ≤ j → j < i0 + fuel →
      (∀ k, i0 ≤ k → k < j → w.stat (ro.candidate tp sep k) = .found) →
      w.stat (ro.candidate tp sep j) = .notExist →
      nextLoop ro w tp sep fuel (i0 + 1) (ro.candidate tp sep i0)
        = .ok (ro.candidate tp sep j) := by
  intro fuel
  induction fuel with
  | zero => intro i0 j h1 h2; omega
  | succ fuel ih =>
    intro i0 j h1 h2 hfound hfree
    rw [nextLoop]
    rcases Nat.eq_or_lt_of_le h1 with heq | hlt
    · subst heq
      rw [hfree]
    · rw [hfound i0 (Nat.le_refl _) hlt]
      simp only []
      rw [← candidate_succ]
      exact ih (i0 + 1) j hlt (by omega) (fun k hk1 hk2 => hfound k (by omega) hk2) hfree

/-- When every candidate it checks exists, the loop of `NextRotateFilename` runs to
its bound and returns the candidate built last, which it has not checked. -/
theorem nextLoop_exhausted (ro : rotateOut) (w : World) (tp sep : Str) :
    ∀ (fuel i0 : Nat),
      (∀ k, i0 ≤ k → k < i0 + fuel → w.stat (ro.candidate tp sep k) = .found) →
      nextLoop ro w tp sep fuel (i0 + 1) (ro.candidate tp sep i0)
        = .ok (ro.candidate tp sep (i0 + fuel)) := by
  intro fuel
  induction fuel with
  | zero => intro i0 _; rfl
  | succ fuel ih =>
    intro i0 hfound
    rw [nextLoop, hfound i0 (Nat.le_refl _) (by omega)]
    simp only []
    rw [← candidate_succ, ih (i0 + 1) (fun k hk1 hk2 => hfound k (by omega) (by omega))]
    congr 2
    omega

/-- Reading the clock does not change what `os.Stat` reports. -/
theorem formattedNow_stat (ro : rotateOut) (w : World) (path : Str) :
    (ro.formattedNow w).2.stat path = w.stat path := by
  unfold formattedNow
  cases ro.timeFormat <;> rfl

/-- The method `NextRotateFilename` in terms of its loop over the candidates. -/
theorem NextRotateFilename_eq (ro : rotateOut) (w : World) :
    ro.NextRotateFilename w =
      match nextLoop ro (ro.formattedNow w).2 (nameParts (ro.formattedNow w).1).1
          (nameParts (ro.formattedNow w).1).2 9999 1
          (ro.candidate (nameParts (ro.formattedNow w).1).1
            (nameParts (ro.formattedNow w).1).2 0) with
      | .ok name => .ok name ro (ro.formattedNow w).2
      | .error p => .panic p ro (ro.formattedNow w).2 := rfl

/-- C3 (the code at a failing input): when `base.log` and `base.0001.log` to
`base.9999.log` all exist, `NextRotateFilename` returns `base.9999.log`, a path that
exists at the time of the call. -/
theorem NextRotateFilename_returns_existing_path :
    ((baseEngine 0 0 none).NextRotateFilename fullWorld).value?
        = some "base.9999.log".toList
    ∧ fullWorld.stat "base.9999.log".toList = .found := by
  decide!

/-- C4 (the code on exhaustion): when the unnumbered candidate and the candidates
with the counters 1 to 9999 all exist, `NextRotateFilename` does not panic: it
returns the candidate with counter 9999. -/
theorem NextRotateFilename_exhausted_returns (ro : rotateOut) (w : World)
    (h : ∀ k, k ≤ 9999 → w.stat (ro.candidate (nameParts (ro.formattedNow w).1).1
        (nameParts (ro.formattedNow w).1).2 k) = .found) :
    ro.NextRotateFilename w
      = .ok (ro.candidate (nameParts (ro.formattedNow w).1).1
          (nameParts (ro.formattedNow w).1).2 9999) ro (ro.formattedNow w).2 := by
  rw [NextRotateFilename_eq]
  rw [nextLoop_exhausted ro _ _ _ 9999 0 (fun k _ hk => by
    rw [formattedNow_stat]
    exact h k (by omega))]

/-- C4, in the world in which every path exists. -/
theorem NextRotateFilename_exhausted_returns_witness :
    (∀ k, k ≤ 9999 → fullWorld.stat ((baseEngine 0 0 none).candidate
        (nameParts ((baseEngine 0 0 none).formattedNow fullWorld).1).1
        (nameParts ((baseEngine 0 0 none).formattedNow fullWorld).1).2 k) = .found)
    ∧ (baseEngine 0 0 none).NextRotateFilename fullWorld
      = .ok ((baseEngine 0 0 none).candidate
          (nameParts ((baseEngine 0 0 none).formattedNow fullWorld).1).1
          (nameParts ((baseEngine 0 0 none).formattedNow fullWorld).1).2 9999)
          (baseEngine 0 0 none) ((baseEngine 0 0 none).formattedNow fullWorld).2 :=
  ⟨fun _ _ => rfl, NextRotateFilename_exhausted_returns (baseEngine 0 0 none) fullWorld
    (fun _ _ => rfl)⟩

/-- The code point of a digit character. -/
theorem digitChar_toNat (d : Nat) (h : d < 10) : (digitChar d).toNat = 48 + d := by
  interval_cases d <;> rfl

/-- Distinct digits have distinct characters. -/
theorem digitChar_inj {d e : Nat} (hd : d < 10) (he : e < 10)
    (h : digitChar d = digitChar e) : d = e := by
  have := congrArg Char.toNat h
  rw [digitChar_toNat d hd, digitChar_toNat e he] at this
  omega

/-- The four digits printed by `%04d` for a counter below 10000. -/
theorem fmt04d_eq (i : Nat) (h : i < 10000) :
    fmt04d i = [digitChar (i / 1000), digitChar (i / 100 % 10), digitChar (i / 10 % 10),
      digitChar (i % 10)] := by
  simp [fmt04d, h]

/-- Counters below 10000 are printed differently. -/
theorem fmt04d_inj {i j : Nat} (hi : i < 10000) (hj : j < 10000)
    (h : fmt04d i = fmt04d j) : i = j := by
  rw [fmt04d_eq i hi, fmt04d_eq j hj] at h
  simp only [List.cons.injEq, and_true] at h
  obtain ⟨h1, h2, h3, h4⟩ := h
  have e1 := digitChar_inj (by omega) (by omega) h1
  have e2 := digitChar_inj (by omega) (by omega) h2
  have e3 := digitChar_inj (by omega) (by omega) h3
  have e4 := digitChar_inj (by omega) (by omega) h4
  omega

/-- The candidates with counters up to 9999 are pairwise distinct. -/
theorem candidate_inj (ro : rotateOut) (tp sep : Str) {i j : Nat} (hi : i ≤ 9999)
    (hj : j ≤ 9999) (h : ro.candidate tp sep i = ro.candidate tp sep j) : i = j := by
  unfold candidate numbered at h
  by_cases hi0 : i = 0
  · by_cases hj0 : j = 0
    · omega
    · exfalso
      simp only [hi0, hj0, if_true, if_false] at h
      have := congrArg List.length h
      simp only [List.length_append] at this
      rw [fmt04d_eq j (by omega)] at this
      simp only [List.length_cons, List.length_nil] at this
      omega
  · by_cases hj0 : j = 0
    · exfalso
      simp only [hi0, hj0, if_true, if_false] at h
      have := congrArg List.length h
      simp only [List.length_append] at this
      rw [fmt04d_eq i (by omega)] at this
      simp only [List.length_cons, List.length_nil] at this
      omega
    · simp only [hi0, hj0, if_false] at h
      have h1 := List.append_cancel_right h
      have h2 := List.append_cancel_left h1
      have h3 := List.append_cancel_left h2
      exact fmt04d_inj (by omega) (by omega) h3

/-- C5 as stated fails: with no time pattern, `base` and `.log`, when `base.log`
exists the next name is `base.0001.log`: the counter follows a dot, not `_`. -/
theorem NextRotateFilename_no_time_uses_dot :
    ((baseEngine 0 0 none).NextRotateFilename oneFileWorld).value?
        = some "base.0001.log".toList
    ∧ ((baseEngine 0 0 none).NextRotateFilename oneFileWorld).value?
        ≠ some "base_0001.log".toList := by
  decide!

/-- With no time format the call of `NextRotateFilename` that finds the candidates
`0` to `k - 1` and no other candidate returns candidate `k`. -/
theorem NextRotateFilename_no_time (ro : rotateOut) (w : World) (k : Nat)
    (hfmt : ro.timeFormat = none) (hk : k ≤ 9999)
    (hstat : ∀ p, w.statFails p = false)
    (hold : ∀ j, j < k → (w.files (ro.candidate [] ['.'] j)).isSome = true)
    (hnew : ∀ j, k ≤ j → j ≤ 9999 → w.files (ro.candidate [] ['.'] j) = none) :
    ro.NextRotateFilename w = .ok (ro.candidate [] ['.'] k) ro w := by
  have hf : ro.formattedNow w = (none, w) := by
    unfold formattedNow
    rw [hfmt]
  have hfound : ∀ j, j < k → w.stat (ro.candidate [] ['.'] j) = .found := by
    intro j hj
    unfold World.stat
    rw [hstat, hold j hj]
    rfl
  rw [NextRotateFilename_eq, hf]
  simp only [nameParts]
  rcases Nat.lt_or_ge k 9999 with hlt | hge
  · rw [nextLoop_first_free ro w [] ['.'] 9999 0 k (Nat.zero_le _) (by omega)
      (fun j _ hj => hfound j hj) (by
        unfold World.stat
        rw [hstat, hnew k (Nat.le_refl _) hk]
        rfl)]
  · have hk9 : k = 9999 := by omega
    subst hk9
    rw [nextLoop_exhausted ro w [] ['.'] 9999 0 (fun j _ hj => hfound j (by omega))]

/-- C5, amended: with no time pattern, repeated calls of `NextRotateFilename`, each
returned path being created before the next call, return the unnumbered name and
then the names with the counters 1, 2, ... in that order, up to 9999; the counter
is preceded by a dot.  For `base` and `.log`: `base.log`, `base.0001.log`,
`base.0002.log`. -/
theorem nthName_no_time (ro : rotateOut) (w : World) (n : Nat)
    (hfmt : ro.timeFormat = none) (hn : n ≤ 9999)
    (hstat : ∀ p, w.statFails p = false)
    (hnew : ∀ j, j ≤ 9999 → w.files (ro.candidate [] ['.'] j) = none) :
    ro.nthName n w = some (ro.baseName ++ (if n = 0 then [] else '.' :: fmt04d n) ++ ro.suffix) := by
  have key : ∀ (m k : Nat) (w : World), k + m ≤ 9999 → (∀ p, w.statFails p = false) →
      (∀ j, j < k → (w.files (ro.candidate [] ['.'] j)).isSome = true) →
      (∀ j, k ≤ j → j ≤ 9999 → w.files (ro.candidate [] ['.'] j) = none) →
      ro.nthName m w = some (ro.candidate [] ['.'] (k + m)) := by
    intro m
    induction m with
    | zero =>
      intro k w hk hs ho hn
      rw [nthName, NextRotateFilename_no_time ro w k hfmt (by omega) hs ho hn]
      rfl
    | succ m ih =>
      intro k w hk hs ho hn
      rw [nthName, NextRotateFilename_no_time ro w k hfmt (by omega) hs ho hn]
      simp only []
      rw [ih (k + 1) (w.touch (ro.candidate [] ['.'] k)) (by omega) hs]
      · congr 2
        omega
      · intro j hj
        simp only [World.touch]
        by_cases hjk : ro.candidate [] ['.'] j = ro.candidate [] ['.'] k
        · simp [hjk]
        · simp only [hjk, if_false]
          have : j ≠ k := fun h => hjk (by rw [h])
          exact ho j (by omega)
      · intro j hj1 hj2
        simp only [World.touch]
        have hne : ro.candidate [] ['.'] j ≠ ro.candidate [] ['.'] k := by
          intro h
          have := candidate_inj ro [] ['.'] hj2 (by omega) h
          omega
        simp only [hne, if_false]
        exact hn j (by omega) hj2
  rw [key n 0 w (by omega) hstat (fun j hj => by omega) (fun j _ hj => hnew j hj)]
  simp only [candidate, numbered, Nat.zero_add]
  by_cases h0 : n = 0
  · simp [h0]
  · simp [h0]

/-- C5 amended, for `base` and `.log`: the third name is `base.0002.log`. -/
theorem nthName_no_time_witness :
    (baseEngine 0 0 none).timeFormat = none ∧ 2 ≤ 9999
    ∧ (baseEngine 0 0 none).nthName 2 quietWorld = some "base.0002.log".toList :=
  ⟨rfl, by decide,
    nthName_no_time (baseEngine 0 0 none) quietWorld 2 rfl (by decide) (fun _ => rfl)
      (fun _ _ => rfl)⟩

/-- A common prefix does not change the order of two strings. -/
theorem strLt_append_left (p a b : Str) : strLt (p ++ a) (p ++ b) = strLt a b := by
  induction p with
  | nil => rfl
  | cons c p ih => simp [strLt, ih]

/-- The printed counters below 10000, followed by the same text, are ordered as the
counters. -/
theorem strLt_fmt04d (s : Str) {i j : Nat} (hij : i < j) (hj : j < 10000) :
    strLt (fmt04d i ++ s) (fmt04d j ++ s) = true := by
  rw [fmt04d_eq i (by omega), fmt04d_eq j hj]
  simp only [List.cons_append, List.nil_append, strLt, Bool.or_eq_true, Bool.and_eq_true,
    decide_eq_true_eq]
  rw [digitChar_toNat (i / 1000) (by omega), digitChar_toNat (j / 1000) (by omega),
    digitChar_toNat (i / 100 % 10) (by omega), digitChar_toNat (j / 100 % 10) (by omega),
    digitChar_toNat (i / 10 % 10) (by omega), digitChar_toNat (j / 10 % 10) (by omega),
    digitChar_toNat (i % 10) (by omega), digitChar_toNat (j % 10) (by omega)]
  by_cases h1 : i / 1000 = j / 1000
  · right
    refine ⟨by rw [h1], ?_⟩
    by_cases h2 : i / 100 % 10 = j / 100 % 10
    · right
      refine ⟨by rw [h2], ?_⟩
      by_cases h3 : i / 10 % 10 = j / 10 % 10
      · right
        refine ⟨by rw [h3], ?_⟩
        left
        omega
      · left
        omega
    · left
      omega
  · left
    omega

/-- C6 as stated fails: with the suffix `log` the numbered name `base.2024_0001log`,
which `NextRotateFilename` returns when `base.2024log` exists, sorts before
`base.2024log`, not after it. -/
theorem numbered_name_sorts_before_bare :
    (datedEngine.NextRotateFilename datedWorld).value? = some "base.2024_0001log".toList
    ∧ strLt "base.2024log".toList "base.2024_0001log".toList = false
    ∧ strLt "base.2024_0001log".toList "base.2024log".toList = true := by
  decide!

/-- C6, amended: for every base name and non-empty time part, the unnumbered name
compares with a numbered name as the suffix compares with `_`, the counter and the
suffix; it sorts before every numbered name when the suffix is empty or begins with
a character below `_`; and for every suffix the numbered names with the counters 1
to 9999 sort in the order of their counters. -/
theorem rotated_names_order (ro : rotateOut) (tp : Str) (htp : tp ≠ []) :
    (∀ i, 1 ≤ i → i ≤ 9999 →
        strLt (ro.candidate (nameParts (some tp)).1 (nameParts (some tp)).2 0)
            (ro.candidate (nameParts (some tp)).1 (nameParts (some tp)).2 i)
          = strLt ro.suffix ('_' :: fmt04d i ++ ro.suffix))
    ∧ ((∀ c ∈ ro.suffix.head?, c.toNat < '_'.toNat) →
        ∀ i, 1 ≤ i → i ≤ 9999 →
          strLt (ro.candidate (nameParts (some tp)).1 (nameParts (some tp)).2 0)
            (ro.candidate (nameParts (some tp)).1 (nameParts (some tp)).2 i) = true)
    ∧ (∀ i j, 1 ≤ i → i < j → j ≤ 9999 →
        strLt (ro.candidate (nameParts (some tp)).1 (nameParts (some tp)).2 i)
          (ro.candidate (nameParts (some tp)).1 (nameParts (some tp)).2 j) = true) := by
  have hparts : nameParts (some tp) = ('.' :: tp, ['_']) := by
    have : 0 < tp.length := List.length_pos.mpr htp
    simp [nameParts, this]
  rw [hparts]
  have hbare : ∀ i, 1 ≤ i →
      strLt (ro.candidate ('.' :: tp) ['_'] 0) (ro.candidate ('.' :: tp) ['_'] i)
        = strLt ro.suffix ('_' :: fmt04d i ++ ro.suffix) := by
    intro i hi
    have hi0 : i ≠ 0 := by omega
    simp only [candidate, numbered, hi0, if_true, if_false]
    rw [List.append_assoc (ro.baseName ++ '.' :: tp), strLt_append_left]
    rfl
  refine ⟨fun i hi _ => hbare i hi, fun hsuf i hi _ => ?_, fun i j hi hij hj => ?_⟩
  · rw [hbare i hi]
    cases hs : ro.suffix with
    | nil => rfl
    | cons c t =>
      have hc : c.toNat < 95 := hsuf c (by simp [hs])
      simp [strLt, hc]
  · have hi0 : i ≠ 0 := by omega
    have hj0 : j ≠ 0 := by omega
    simp only [candidate, numbered, hi0, hj0, if_false]
    rw [List.append_assoc (ro.baseName ++ '.' :: tp), List.append_assoc (ro.baseName ++ '.' :: tp),
      strLt_append_left, List.append_assoc, List.append_assoc, strLt_append_left]
    exact strLt_fmt04d ro.suffix hij (by omega)

/-- C6 amended, for `base`, the time part `2024` and the suffix `.log`. -/
theorem rotated_names_order_witness :
    "2024".toList ≠ []
    ∧ strLt "base.2024.log".toList "base.2024_0001.log".toList = true
    ∧ strLt "base.2024_0001.log".toList "base.2024_0002.log".toList = true :=
  ⟨by decide,
    (rotated_names_order (baseEngine 0 0 none) "2024".toList (by decide)).2.1
      (by decide) 1 (by decide) (by decide),
    (rotated_names_order (baseEngine 0 0 none) "2024".toList (by decide)).2.2 1 2
      (by decide) (by decide) (by decide)⟩

/-! ## The scanner of the quantity parser -/

/-- A letter is not a digit. -/
theorem isDigit_of_isLetter {c : Char} (h : isLetter c = true) : isDigit c = false := by
  simp only [isLetter, Bool.or_eq_true, decide_eq_true_eq] at h
  simp only [isDigit, decide_eq_false_iff_not]
  omega

/-- The run of characters satisfying `p` at the front of `l` is empty when `l` is
empty or starts with a character that does not satisfy `p`. -/
theorem takeWhile_nil_of_head {p : Char → Bool} {l : Str}
    (h : ∀ c ∈ l.head?, p c = false) : l.takeWhile p = [] := by
  cases l with
  | nil => rfl
  | cons c r =>
    have hc : p c = false := h c (by simp)
    simp [List.takeWhile_cons, hc]

/-- The run of characters satisfying `p` at the front of `l1 ++ l2` is `l1` when all
of `l1` satisfies `p` and `l2` does not go on with it. -/
theorem takeWhile_append_stop {p : Char → Bool} {l1 l2 : Str}
    (h1 : ∀ a ∈ l1, p a = true) (h2 : ∀ c ∈ l2.head?, p c = false) :
    (l1 ++ l2).takeWhile p = l1 := by
  rw [List.takeWhile_append_of_pos h1, takeWhile_nil_of_head h2, List.append_nil]

/-- The optional fraction matches nothing in front of a text that does not start
with a dot. -/
theorem fracLen_of_head_ne {l : Str} (h : ∀ c ∈ l.head?, c ≠ '.') : fracLen l = 0 := by
  cases l with
  | nil => rfl
  | cons c r =>
    have hc : c ≠ '.' := h c (by simp)
    unfold fracLen
    split
    · rename_i heq
      cases heq
      exact absurd rfl hc
    · rfl

/-- The parts of a shaped token, as statements. -/
theorem Token.shaped_iff (t : Token) :
    t.shaped = true ↔
      (∀ a ∈ t.intPart, isDigit a = true)
      ∧ (∀ f, t.fracPart = some f → f ≠ [] ∧ ∀ a ∈ f, isDigit a = true)
      ∧ (∀ a ∈ t.unit, isLetter a = true) := by
  unfold Token.shaped
  cases hf : t.fracPart with
  | none => simp [List.all_eq_true]
  | some f => simp [List.all_eq_true, List.isEmpty_iff, and_assoc]

/-- What follows the number of a maximal token does not go on with a digit. -/
theorem Token.after_number_no_digit (t : Token) (rest : Str) (hs : t.shaped = true)
    (hsep : t.sepOK rest = true) :
    ∀ c ∈ (t.unit ++ rest).head?, isDigit c = false := by
  obtain ⟨_, _, hu⟩ := (t.shaped_iff).mp hs
  cases hunit : t.unit with
  | cons a u =>
    intro c hc
    simp only [List.cons_append, List.head?_cons, Option.mem_def, Option.some.injEq] at hc
    subst hc
    exact isDigit_of_isLetter (hu a (by simp [hunit]))
  | nil =>
    cases rest with
    | nil => intro c hc; simp at hc
    | cons a r =>
      intro c hc
      simp only [List.nil_append, List.head?_cons, Option.mem_def, Option.some.injEq] at hc
      subst hc
      simp only [Token.sepOK, hunit, List.isEmpty_nil, Bool.not_true, Bool.false_or,
        Bool.and_eq_true, Bool.not_eq_true'] at hsep
      exact hsep.2.1

/-- What follows the unit of a maximal token does not go on with a letter. -/
theorem Token.after_unit_no_letter (t : Token) (rest : Str) (hsep : t.sepOK rest = true) :
    ∀ c ∈ rest.head?, isLetter c = false := by
  cases rest with
  | nil => intro c hc; simp at hc
  | cons a r =>
    intro c hc
    simp only [List.head?_cons, Option.mem_def, Option.some.injEq] at hc
    subst hc
    simp only [Token.sepOK, Bool.and_eq_true, Bool.not_eq_true'] at hsep
    exact hsep.1

/-- What `FindStringSubmatchIndex` finds at the front of a shaped token that is
maximal in front of the rest: the token, its number and its unit. -/
theorem FindStringSubmatchIndex_token (t : Token) (rest : Str) (hs : t.shaped = true)
    (hsep : t.sepOK rest = true) :
    FindStringSubmatchIndex (t.text ++ rest)
      = some { r0 := 0, r1 := t.text.length, r2 := 0, r3 := t.number.length,
               r4 := t.number.length, r5 := t.text.length } := by
  obtain ⟨hi, hf, hu⟩ := (t.shaped_iff).mp hs
  have hnodigit := t.after_number_no_digit rest hs hsep
  have hnoletter := t.after_unit_no_letter rest hsep
  -- the digits before the dot
  have hd : (t.text ++ rest).takeWhile isDigit = t.intPart := by
    have : t.text ++ rest = t.intPart ++ (t.fracText ++ (t.unit ++ rest)) := by
      simp [Token.text, Token.number, List.append_assoc]
    rw [this]
    apply takeWhile_append_stop hi
    cases hfp : t.fracPart with
    | some f =>
      intro c hc
      simp only [Token.fracText, hfp, List.cons_append, List.head?_cons, Option.mem_def,
        Option.some.injEq] at hc
      subst hc
      rfl
    | none =>
      simp only [Token.fracText, hfp, List.nil_append]
      exact hnodigit
  have hdrop : (t.text ++ rest).drop t.intPart.length = t.fracText ++ (t.unit ++ rest) := by
    have : t.text ++ rest = t.intPart ++ (t.fracText ++ (t.unit ++ rest)) := by
      simp [Token.text, Token.number, List.append_assoc]
    rw [this, List.drop_left]
  -- the fraction
  have hfl : fracLen (t.fracText ++ (t.unit ++ rest)) = t.fracText.length := by
    cases hfp : t.fracPart with
    | some f =>
      obtain ⟨hne, hfd⟩ := hf f hfp
      have htw : (f ++ (t.unit ++ rest)).takeWhile isDigit = f :=
        takeWhile_append_stop hfd hnodigit
      have hlen : f.length ≠ 0 := fun h => hne (List.length_eq_zero.mp h)
      simp only [Token.fracText, hfp, List.cons_append, fracLen, htw, hlen, if_false,
        List.length_cons]
    | none =>
      simp only [Token.fracText, hfp, List.nil_append, List.length_nil]
      cases hunit : t.unit with
      | cons a u =>
        apply fracLen_of_head_ne
        intro c hc
        simp only [List.cons_append, List.head?_cons, Option.mem_def, Option.some.injEq] at hc
        subst hc
        intro hdot
        have := hu a (by simp [hunit])
        rw [hdot] at this
        exact absurd this (by decide)
      | nil =>
        cases rest with
        | nil => rfl
        | cons a r =>
          simp only [List.nil_append]
          by_cases hdot : a = '.'
          · subst hdot
            simp only [Token.sepOK, hunit, hfp, List.isEmpty_nil, Bool.not_true,
              Bool.false_or, Option.isSome_none, beq_self_eq_true, Bool.true_and,
              Bool.and_eq_true, Bool.not_eq_true'] at hsep
            have hr : r.takeWhile isDigit = [] := by
              apply takeWhile_nil_of_head
              intro c hc
              have h3 := hsep.2.2
              cases r with
              | nil => simp at hc
              | cons b r2 =>
                simp only [List.head?_cons, Option.mem_def, Option.some.injEq] at hc
                subst hc
                simpa using h3
            simp [fracLen, hr]
          · apply fracLen_of_head_ne
            intro c hc
            simp only [List.head?_cons, Option.mem_def, Option.some.injEq] at hc
            subst hc
            exact hdot
  have hnlen : t.number.length = t.intPart.length + t.fracText.length := by
    simp [Token.number]
  have hdrop2 : (t.text ++ rest).drop t.number.length = t.unit ++ rest := by
    have : t.text ++ rest = t.number ++ (t.unit ++ rest) := by
      simp [Token.text, List.append_assoc]
    rw [this, List.drop_left]
  have hul : ((t.unit ++ rest).takeWhile isLetter).length = t.unit.length := by
    rw [takeWhile_append_stop hu hnoletter]
  have htlen : t.text.length = t.number.length + t.unit.length := by
    simp [Token.text]
  unfold FindStringSubmatchIndex
  simp only [hd, hdrop, hfl, ← hnlen, hdrop2, hul, ← htlen]

/-- The decimal read by `ParseFloat` in the number of a well-formed token. -/
theorem decimalOf_number (t : Token) (hwf : t.wf = true) :
    decimalOf t.number = some (t.mantissa, t.scale) := by
  simp only [Token.wf, Bool.and_eq_true, Bool.not_eq_true', List.isEmpty_eq_false] at hwf
  obtain ⟨hs, hne⟩ := hwf
  obtain ⟨hi, hf, _⟩ := (t.shaped_iff).mp hs
  have htw : t.number.takeWhile isDigit = t.intPart := by
    unfold Token.number
    apply takeWhile_append_stop hi
    cases hfp : t.fracPart with
    | some f =>
      intro c hc
      simp only [Token.fracText, hfp, List.head?_cons, Option.mem_def, Option.some.injEq] at hc
      subst hc
      rfl
    | none => intro c hc; simp [Token.fracText, hfp] at hc
  have hdrop : t.number.drop t.intPart.length = t.fracText := by
    unfold Token.number
    rw [List.drop_left]
  unfold decimalOf
  simp only [htw, hdrop]
  cases hfp : t.fracPart with
  | some f =>
    obtain ⟨hfne, hfd⟩ := hf f hfp
    have hall : f.all isDigit = true := List.all_eq_true.mpr hfd
    simp [Token.fracText, hfp, hfne, hall, Token.mantissa, Token.scale]
  | none =>
    have hip : t.intPart ≠ [] := by
      intro h
      apply hne
      simp [Token.number, Token.fracText, hfp, h]
    simp [Token.fracText, hfp, hip, Token.mantissa, Token.scale]

/-- Rounding a non-negative quotient gives a non-negative double or `+Inf`. -/
theorem roundNE_false_cases (n d : Nat) :
    (∃ m e, roundNE false n d = .fin m e ∧ 0 ≤ m) ∨ roundNE false n d = .inf false := by
  unfold roundNE
  by_cases h0 : n = 0
  · left
    exact ⟨0, 0, by simp [h0], le_refl _⟩
  · by_cases hbig : 0 ≤ ulpExp n d ∧ 2 ^ 1024 ≤ roundMant n d * 2 ^ (ulpExp n d).toNat
    · right
      rw [if_neg h0]
      exact if_pos hbig
    · left
      refine ⟨roundMant n d, ulpExp n d, ?_, Int.natCast_nonneg _⟩
      rw [if_neg h0]
      simp only []
      rw [if_neg hbig]
      rfl

/-- The result of `ParseFloat` on the number of a well-formed token: the nearest double, when it
is finite. -/
theorem ParseFloat_number (t : Token) (hwf : t.wf = true) :
    ParseFloat t.number = if t.nearest.finiteNonneg then some t.nearest else none := by
  unfold ParseFloat
  rw [decimalOf_number t hwf]
  simp only [Token.nearest]
  rcases roundNE_false_cases t.mantissa (10 ^ t.scale) with ⟨m, e, h, hm⟩ | h
  · rw [h]
    simp [F64.finiteNonneg, hm]
  · rw [h]
    simp [F64.finiteNonneg]

/-- The result of `NumWithUnit` at the front of a well-formed token that is maximal in front of
the rest and whose number is in the range of the doubles. -/
theorem NumWithUnit_token (t : Token) (rest : Str) (hwf : t.wf = true)
    (hsep : t.sepOK rest = true) (hfin : t.nearest.finiteNonneg = true) :
    NumWithUnit (t.text ++ rest) = .ok (t.text, t.nearest, t.unit, t.number.length) := by
  have hwf2 := hwf
  simp only [Token.wf, Bool.and_eq_true, Bool.not_eq_true', List.isEmpty_eq_false] at hwf2
  obtain ⟨hs, hne⟩ := hwf2
  have hlen : t.number.length ≠ 0 := fun h => hne (List.length_eq_zero.mp h)
  have htext : t.text = t.number ++ t.unit := rfl
  have h1 : slice (t.text ++ rest) 0 t.text.length = t.text := by
    simp [slice]
  have h2 : slice (t.text ++ rest) 0 t.number.length = t.number := by
    simp [slice, htext, List.append_assoc]
  have h3 : slice (t.text ++ rest) t.number.length t.text.length = t.unit := by
    unfold slice
    rw [List.take_left, htext, List.drop_left]
  unfold NumWithUnit
  rw [FindStringSubmatchIndex_token t rest hs hsep]
  simp only [h1, h2, h3, ne_eq, not_true_eq_false, if_false, hlen]
  rw [ParseFloat_number t hwf, hfin]
  rfl

/-- The result of `NumWithUnit` at the front of a well-formed maximal token whose number is out
of the range of the doubles. -/
theorem NumWithUnit_token_range (t : Token) (rest : Str) (hwf : t.wf = true)
    (hsep : t.sepOK rest = true) (hfin : t.nearest.finiteNonneg = false) :
    NumWithUnit (t.text ++ rest) = .error "Cannot convert number".toList := by
  have hwf2 := hwf
  simp only [Token.wf, Bool.and_eq_true, Bool.not_eq_true', List.isEmpty_eq_false] at hwf2
  obtain ⟨hs, hne⟩ := hwf2
  have hlen : t.number.length ≠ 0 := fun h => hne (List.length_eq_zero.mp h)
  have htext : t.text = t.number ++ t.unit := rfl
  have h2 : slice (t.text ++ rest) 0 t.number.length = t.number := by
    simp [slice, htext, List.append_assoc]
  unfold NumWithUnit
  rw [FindStringSubmatchIndex_token t rest hs hsep]
  simp only [h2, ne_eq, not_true_eq_false, if_false, hlen]
  rw [ParseFloat_number t hwf, hfin]
  rfl

/-! ## float64 rounding -/

/-- Repeated halving computes the binary logarithm when the fuel is enough. -/
theorem log2Aux_spec : ∀ (fuel n : Nat), n ≤ fuel → 0 < n →
    2 ^ log2Aux fuel n ≤ n ∧ n < 2 ^ (log2Aux fuel n + 1) := by
  intro fuel
  induction fuel with
  | zero => intro n h1 h2; omega
  | succ fuel ih =>
    intro n h1 h2
    rw [log2Aux]
    by_cases hn : n < 2
    · rw [if_pos hn]
      simp
      omega
    · rw [if_neg hn]
      obtain ⟨ha, hb⟩ := ih (n / 2) (by omega) (by omega)
      generalize log2Aux fuel (n / 2) = k at ha hb
      rw [pow_succ] at hb ⊢
      rw [pow_succ]
      constructor <;> omega

/-- The number `log2 n` is the position of the leading bit of `n`. -/
theorem log2_spec (n : Nat) (h : 0 < n) : 2 ^ log2 n ≤ n ∧ n < 2 ^ (log2 n + 1) :=
  log2Aux_spec n n le_rfl h

/-- Cast of a natural power of two with a non-negative integer exponent. -/
theorem two_pow_toNat (k : Int) (hk : 0 ≤ k) : ((2 ^ k.toNat : Nat) : ℚ) = (2 : ℚ) ^ k := by
  have : (k.toNat : Int) = k := Int.toNat_of_nonneg hk
  rw [Nat.cast_pow, Nat.cast_ofNat, ← zpow_natCast, this]

/-- The function `ilog2` gives the binary exponent of the quotient. -/
theorem ilog2_spec (num den : Nat) (hn : 0 < num) (hd : 0 < den) :
    (2 : ℚ) ^ (ilog2 num den) ≤ (num : ℚ) / den
      ∧ (num : ℚ) / den < (2 : ℚ) ^ (ilog2 num den + 1) := by
  obtain ⟨ha1, ha2⟩ := log2_spec num hn
  obtain ⟨hb1, hb2⟩ := log2_spec den hd
  have hdq : (0 : ℚ) < den := by exact_mod_cast hd
  have qa1 : (2 : ℚ) ^ (log2 num : Int) ≤ num := by
    rw [zpow_natCast]; exact_mod_cast ha1
  have qa2 : (num : ℚ) < 2 ^ ((log2 num : Int) + 1) := by
    have : (num : ℚ) < 2 ^ (log2 num + 1) := by exact_mod_cast ha2
    rwa [← zpow_natCast, Nat.cast_add, Nat.cast_one] at this
  have qb1 : (2 : ℚ) ^ (log2 den : Int) ≤ den := by
    rw [zpow_natCast]; exact_mod_cast hb1
  have qb2 : (den : ℚ) < 2 ^ ((log2 den : Int) + 1) := by
    have : (den : ℚ) < 2 ^ (log2 den + 1) := by exact_mod_cast hb2
    rwa [← zpow_natCast, Nat.cast_add, Nat.cast_one] at this
  have h2 : (0 : ℚ) < 2 := by norm_num
  -- bounds of the quotient around `2 ^ l`
  have hup : (num : ℚ) / den < 2 ^ ((log2 num : Int) - (log2 den : Int) + 1) := by
    rw [div_lt_iff₀ hdq]
    calc (num : ℚ) < 2 ^ ((log2 num : Int) + 1) := qa2
      _ = 2 ^ ((log2 num : Int) - (log2 den : Int) + 1) * 2 ^ (log2 den : Int) := by
          rw [← zpow_add₀ (by norm_num : (2 : ℚ) ≠ 0)]; congr 1; ring
      _ ≤ 2 ^ ((log2 num : Int) - (log2 den : Int) + 1) * den :=
          mul_le_mul_of_nonneg_left qb1 (le_of_lt (zpow_pos h2 _))
  have hlo : (2 : ℚ) ^ ((log2 num : Int) - (log2 den : Int) - 1) ≤ (num : ℚ) / den := by
    rw [le_div_iff₀ hdq]
    calc (2 : ℚ) ^ ((log2 num : Int) - (log2 den : Int) - 1) * den
        ≤ 2 ^ ((log2 num : Int) - (log2 den : Int) - 1) * 2 ^ ((log2 den : Int) + 1) :=
          mul_le_mul_of_nonneg_left (le_of_lt qb2) (le_of_lt (zpow_pos h2 _))
      _ = 2 ^ (log2 num : Int) := by
          rw [← zpow_add₀ (by norm_num : (2 : ℚ) ≠ 0)]; congr 1; ring
      _ ≤ num := qa1
  unfold ilog2
  simp only []
  generalize (log2 num : Int) - (log2 den : Int) = l at hup hlo
  have test : (2 : ℚ) ^ l ≤ (num : ℚ) / den ↔
      (if 0 ≤ l then den * 2 ^ l.toNat ≤ num else den ≤ num * 2 ^ (-l).toNat) := by
    rw [le_div_iff₀ hdq]
    by_cases hl : 0 ≤ l
    · rw [if_pos hl, ← two_pow_toNat l hl]
      constructor
      · intro h; have : ((2 ^ l.toNat * den : Nat) : ℚ) ≤ num := by push_cast; exact_mod_cast h
        have := Nat.cast_le.mp this
        rw [Nat.mul_comm]; exact this
      · intro h
        have : ((den * 2 ^ l.toNat : Nat) : ℚ) ≤ num := Nat.cast_le.mpr h
        push_cast at this ⊢
        linarith
    · rw [if_neg hl]
      have hl' : 0 ≤ -l := by omega
      have hp : (2 : ℚ) ^ l = (((2 ^ (-l).toNat : Nat) : ℚ))⁻¹ := by
        rw [two_pow_toNat (-l) hl', zpow_neg, inv_inv]
      have hpos : (0 : ℚ) < ((2 ^ (-l).toNat : Nat) : ℚ) := by positivity
      rw [hp, inv_mul_le_iff₀ hpos]
      constructor
      · intro h
        have : ((den : Nat) : ℚ) ≤ ((num * 2 ^ (-l).toNat : Nat) : ℚ) := by
          push_cast at h ⊢; linarith
        exact Nat.cast_le.mp this
      · intro h
        have : ((den : Nat) : ℚ) ≤ ((num * 2 ^ (-l).toNat : Nat) : ℚ) := Nat.cast_le.mpr h
        push_cast at this ⊢; linarith
  by_cases hl : 0 ≤ l
  · rw [if_pos hl]
    rw [if_pos hl] at test
    by_cases hc : den * 2 ^ l.toNat ≤ num
    · rw [if_pos hc]
      exact ⟨test.mpr hc, hup⟩
    · rw [if_neg hc]
      refine ⟨hlo, ?_⟩
      rw [sub_add_cancel]
      exact lt_of_not_le (fun h => hc (test.mp h))
  · rw [if_neg hl]
    rw [if_neg hl] at test
    by_cases hc : den ≤ num * 2 ^ (-l).toNat
    · rw [if_pos hc]
      exact ⟨test.mpr hc, hup⟩
    · rw [if_neg hc]
      refine ⟨hlo, ?_⟩
      rw [sub_add_cancel]
      exact lt_of_not_le (fun h => hc (test.mp h))

/-- Rounding to the nearest integer is off by at most one half. -/
theorem roundHalfEven_spec (n d : Nat) (hd : 0 < d) :
    2 * (roundHalfEven n d * d) ≤ 2 * n + d ∧ 2 * n ≤ 2 * (roundHalfEven n d * d) + d := by
  have h := Nat.div_add_mod n d
  have hr := Nat.mod_lt n hd
  unfold roundHalfEven
  simp only []
  have e1 : (n / d + 1) * d = d * (n / d) + d := by ring
  have e2 : (n / d) * d = d * (n / d) := by ring
  split_ifs <;> (try rw [e1]) <;> (try rw [e2]) <;> omega

/-- Rounding to the nearest integer, over the rationals. -/
theorem roundHalfEven_rat (n d : Nat) (hd : 0 < d) :
    (roundHalfEven n d : ℚ) ≤ (n : ℚ) / d + 1 / 2
      ∧ (n : ℚ) / d ≤ (roundHalfEven n d : ℚ) + 1 / 2 := by
  obtain ⟨h1, h2⟩ := roundHalfEven_spec n d hd
  have hdq : (0 : ℚ) < d := by exact_mod_cast hd
  have q1 : (2 : ℚ) * ((roundHalfEven n d : ℚ) * d) ≤ 2 * n + d := by exact_mod_cast h1
  have q2 : (2 : ℚ) * n ≤ 2 * ((roundHalfEven n d : ℚ) * d) + d := by exact_mod_cast h2
  constructor
  · rw [← sub_le_iff_le_add, le_div_iff₀ hdq]
    linarith
  · rw [div_le_iff₀ hdq]
    linarith

/-- The mantissa chosen by `roundMant` is the quotient scaled by the unit in the last
place, rounded to the nearest integer. -/
theorem roundMant_spec (num den : Nat) (hd : 0 < den) :
    (roundMant num den : ℚ) ≤ (num : ℚ) / den / 2 ^ (ulpExp num den) + 1 / 2
      ∧ (num : ℚ) / den / 2 ^ (ulpExp num den) ≤ (roundMant num den : ℚ) + 1 / 2 := by
  unfold roundMant
  simp only []
  generalize ulpExp num den = q
  have hdq : (0 : ℚ) < den := by exact_mod_cast hd
  by_cases hq : 0 ≤ q
  · rw [if_pos hq]
    have hpos : 0 < den * 2 ^ q.toNat := Nat.mul_pos hd (by positivity)
    obtain ⟨h1, h2⟩ := roundHalfEven_rat num (den * 2 ^ q.toNat) hpos
    have e : ((num : ℚ)) / ((den * 2 ^ q.toNat : Nat) : ℚ) = (num : ℚ) / den / 2 ^ q := by
      rw [Nat.cast_mul, two_pow_toNat q hq, div_div]
    rw [e] at h1 h2
    exact ⟨h1, h2⟩
  · rw [if_neg hq]
    have hq' : 0 ≤ -q := by omega
    obtain ⟨h1, h2⟩ := roundHalfEven_rat (num * 2 ^ (-q).toNat) den hd
    have e : (((num * 2 ^ (-q).toNat : Nat)) : ℚ) / (den : ℚ) = (num : ℚ) / den / 2 ^ q := by
      rw [Nat.cast_mul, two_pow_toNat (-q) hq', zpow_neg]
      field_simp
      left
      ring
    rw [e] at h1 h2
    exact ⟨h1, h2⟩

/-- The scaled quotient is below `2 ^ 53`, and at least `2 ^ 52` unless the exponent
is the subnormal one. -/
theorem ulpExp_spec (num den : Nat) (hn : 0 < num) (hd : 0 < den) :
    (num : ℚ) / den / 2 ^ (ulpExp num den) < 2 ^ 53
      ∧ (ulpExp num den ≠ -1074 → (2 : ℚ) ^ 52 ≤ (num : ℚ) / den / 2 ^ (ulpExp num den))
      ∧ -1074 ≤ ulpExp num den ∧ ilog2 num den - 52 ≤ ulpExp num den := by
  obtain ⟨h1, h2⟩ := ilog2_spec num den hn hd
  have h2pos : (0 : ℚ) < 2 := by norm_num
  have h2ne : (2 : ℚ) ≠ 0 := by norm_num
  unfold ulpExp
  generalize ilog2 num den = E at h1 h2
  have hq1 : E - 52 ≤ max (E - 52) (-1074) := le_max_left _ _
  have hq2 : (-1074 : Int) ≤ max (E - 52) (-1074) := le_max_right _ _
  refine ⟨?_, ?_, hq2, hq1⟩
  · rw [div_lt_iff₀ (zpow_pos h2pos _)]
    calc (num : ℚ) / den < 2 ^ (E + 1) := h2
      _ ≤ 2 ^ (max (E - 52) (-1074) + 53) := by
          apply zpow_le_zpow_right₀ (by norm_num) (by omega)
      _ = 2 ^ 53 * 2 ^ (max (E - 52) (-1074)) := by
          rw [zpow_add₀ h2ne, mul_comm]; norm_num
  · intro hne
    have hq : max (E - 52) (-1074) = E - 52 := by
      rcases max_choice (E - 52) (-1074) with h | h
      · exact h
      · exact absurd h hne
    rw [hq, le_div_iff₀ (zpow_pos h2pos _)]
    calc (2 : ℚ) ^ 52 * 2 ^ (E - 52) = 2 ^ E := by
          rw [show (2:ℚ) ^ 52 = 2 ^ (52 : Int) by norm_num, ← zpow_add₀ h2ne]; congr 1; ring
      _ ≤ (num : ℚ) / den := h1

/-- The mantissa of a rounded quotient is at most `2 ^ 53`. -/
theorem roundMant_le (num den : Nat) (hn : 0 < num) (hd : 0 < den) :
    roundMant num den ≤ 2 ^ 53 := by
  obtain ⟨h1, _⟩ := roundMant_spec num den hd
  obtain ⟨h2, _⟩ := ulpExp_spec num den hn hd
  by_contra hc
  have hc' : 2 ^ 53 + 1 ≤ roundMant num den := by omega
  have : ((2 ^ 53 + 1 : Nat) : ℚ) ≤ (roundMant num den : ℚ) := Nat.cast_le.mpr hc'
  push_cast at this
  linarith

/-- The mantissa of a rounded quotient is at least `2 ^ 52` in the normal range. -/
theorem roundMant_ge (num den : Nat) (hn : 0 < num) (hd : 0 < den)
    (hq : ulpExp num den ≠ -1074) : 2 ^ 52 ≤ roundMant num den := by
  obtain ⟨_, h1⟩ := roundMant_spec num den hd
  obtain ⟨_, h2, _⟩ := ulpExp_spec num den hn hd
  have h3 := h2 hq
  by_contra hc
  have hc' : roundMant num den + 1 ≤ 2 ^ 52 := by omega
  have : ((roundMant num den + 1 : Nat) : ℚ) ≤ ((2 ^ 52 : Nat) : ℚ) := Nat.cast_le.mpr hc'
  push_cast at this
  linarith

/-- The binary exponent of a quotient below `2 ^ k`. -/
theorem ilog2_lt (num den : Nat) (hn : 0 < num) (hd : 0 < den) (k : Int)
    (hx : (num : ℚ) / den < 2 ^ k) : ilog2 num den < k := by
  obtain ⟨h1, _⟩ := ilog2_spec num den hn hd
  by_contra hc
  have : (2 : ℚ) ^ k ≤ 2 ^ ilog2 num den :=
    zpow_le_zpow_right₀ (by norm_num) (by omega)
  linarith

/-- The binary exponent of a quotient that is at least `2 ^ k`. -/
theorem ilog2_ge (num den : Nat) (hn : 0 < num) (hd : 0 < den) (k : Int)
    (hx : (2 : ℚ) ^ k ≤ (num : ℚ) / den) : k ≤ ilog2 num den := by
  obtain ⟨_, h1⟩ := ilog2_spec num den hn hd
  by_contra hc
  have : (2 : ℚ) ^ (ilog2 num den + 1) ≤ 2 ^ k :=
    zpow_le_zpow_right₀ (by norm_num) (by omega)
  linarith

/-- The rounding of a positive quotient below `2 ^ 64`: no overflow. -/
theorem roundNE_small (neg : Bool) (num den : Nat) (hn : 0 < num) (hd : 0 < den)
    (hx : (num : ℚ) / den < 2 ^ (64 : Int)) :
    roundNE neg num den
      = .fin (if neg then -(roundMant num den : Int) else roundMant num den) (ulpExp num den)
    ∧ ulpExp num den ≤ 11 := by
  have hE := ilog2_lt num den hn hd 64 hx
  have hq : ulpExp num den ≤ 11 := by
    unfold ulpExp
    omega
  have hM := roundMant_le num den hn hd
  refine ⟨?_, hq⟩
  unfold roundNE
  rw [if_neg (by omega)]
  simp only []
  rw [if_neg]
  rintro ⟨h0, hbig⟩
  have h1 : 2 ^ (ulpExp num den).toNat ≤ 2 ^ 11 :=
    Nat.pow_le_pow_right (by norm_num) (by omega)
  have h2 : roundMant num den * 2 ^ (ulpExp num den).toNat ≤ 2 ^ 53 * 2 ^ 11 :=
    Nat.mul_le_mul hM h1
  have h3 : ∀ k : Nat, 64 < k → (2 : Nat) ^ 53 * 2 ^ 11 < 2 ^ k := fun k hk =>
    calc (2 : Nat) ^ 53 * 2 ^ 11 = 2 ^ 64 := by norm_num
      _ < 2 ^ k := Nat.pow_lt_pow_right (by norm_num) hk
  exact absurd (le_trans hbig h2) (not_le.mpr (h3 1024 (by norm_num)))

/-- The double of a non-zero `int64`: a normal number of magnitude between `1` and
`2 ^ 63`, with the sign of the integer. -/
theorem ofInt_cases (u : Int) (hlo : -2 ^ 63 ≤ u) (hhi : u < 2 ^ 63) (hne : u ≠ 0) :
    ∃ (Mu : Nat) (qu : Int),
      F64.ofInt u = .fin (if u < 0 then -(Mu : Int) else Mu) qu
      ∧ 2 ^ 52 ≤ Mu ∧ Mu ≤ 2 ^ 53 ∧ -52 ≤ qu ∧ qu ≤ 11 ∧ (0 < u → qu ≤ 10) := by
  have hn : 0 < u.natAbs := Int.natAbs_pos.mpr hne
  have hcast : ((u.natAbs : Nat) : ℚ) / ((1 : Nat) : ℚ) = (u.natAbs : ℚ) := by simp
  have hle : u.natAbs ≤ 2 ^ 63 := by omega
  have hleq : (u.natAbs : ℚ) ≤ 2 ^ (63 : Int) := by
    have : ((u.natAbs : Nat) : ℚ) ≤ ((2 ^ 63 : Nat) : ℚ) := Nat.cast_le.mpr hle
    push_cast at this
    rw [show (63 : Int) = ((63 : Nat) : Int) by norm_num, zpow_natCast]
    exact this
  have hx : ((u.natAbs : Nat) : ℚ) / ((1 : Nat) : ℚ) < 2 ^ (64 : Int) := by
    rw [hcast]
    have : (2 : ℚ) ^ (63 : Int) < 2 ^ (64 : Int) :=
      zpow_lt_zpow_right₀ (by norm_num) (by norm_num)
    linarith
  obtain ⟨hr, hq11⟩ := roundNE_small (decide (u < 0)) u.natAbs 1 hn (by norm_num) hx
  have hE0 : 0 ≤ ilog2 u.natAbs 1 := by
    apply ilog2_ge u.natAbs 1 hn (by norm_num) 0
    rw [hcast, zpow_zero]
    exact_mod_cast hn
  obtain ⟨_, _, _, hqE⟩ := ulpExp_spec u.natAbs 1 hn (by norm_num)
  have hq52 : -52 ≤ ulpExp u.natAbs 1 := by omega
  have hMge := roundMant_ge u.natAbs 1 hn (by norm_num) (by omega)
  have hMle := roundMant_le u.natAbs 1 hn (by norm_num)
  refine ⟨roundMant u.natAbs 1, ulpExp u.natAbs 1, ?_, hMge, hMle, hq52, hq11, ?_⟩
  · unfold F64.ofInt
    rw [hr]
    by_cases hneg : u < 0
    · simp [hneg]
    · simp [hneg]
  · intro hpos
    have hlt : ((u.natAbs : Nat) : ℚ) / ((1 : Nat) : ℚ) < 2 ^ (63 : Int) := by
      rw [hcast]
      have h1 : u.natAbs < 2 ^ 63 := by omega
      have : ((u.natAbs : Nat) : ℚ) < ((2 ^ 63 : Nat) : ℚ) := Nat.cast_lt.mpr h1
      push_cast at this
      rw [show (63 : Int) = ((63 : Nat) : Int) by norm_num, zpow_natCast]
      exact this
    have hE := ilog2_lt u.natAbs 1 hn (by norm_num) 63 hlt
    unfold ulpExp
    omega

/-- The double of the constant `math.MaxInt64` is `2 ^ 63`. -/
theorem ofInt_MaxInt64 : F64.ofInt MaxInt64 = .fin 9007199254740992 10 := by
  decide!

/-- The bound `math.MaxInt64/float64(unit)` of the guard for a positive unit whose
double is `Mu * 2 ^ qu`: a normal double `Mt * 2 ^ qt` nearest to `2 ^ 63 / (Mu * 2 ^ qu)`. -/
theorem bound_pos (Mu : Nat) (qu : Int) (h52 : 2 ^ 52 ≤ Mu) (h53 : Mu ≤ 2 ^ 53)
    (hq1 : -52 ≤ qu) (hq2 : qu ≤ 10) :
    ∃ (Mt : Nat) (qt : Int),
      F64.div (F64.ofInt MaxInt64) (.fin Mu qu) = .fin Mt qt
      ∧ (Mt : ℚ) ≤ 2 ^ (63 : Int) / (Mu * 2 ^ qu) / 2 ^ qt + 1 / 2
      ∧ (2 : ℚ) ^ 52 ≤ 2 ^ (63 : Int) / (Mu * 2 ^ qu) / 2 ^ qt
      ∧ 2 ^ (63 : Int) / (Mu * 2 ^ qu) / 2 ^ qt < (2 : ℚ) ^ 53 := by
  have hMu0 : 0 < Mu := lt_of_lt_of_le (by norm_num) h52
  have hMuq : (0 : ℚ) < Mu := by exact_mod_cast hMu0
  have h2pos : (0 : ℚ) < 2 := by norm_num
  have h2ne : (2 : ℚ) ≠ 0 := by norm_num
  have hnum : 0 < 9007199254740992 * 2 ^ (10 - qu).toNat := by positivity
  -- the exact quotient
  have hquot : (((9007199254740992 * 2 ^ (10 - qu).toNat : Nat)) : ℚ) / (Mu : ℚ)
      = 2 ^ (63 : Int) / (Mu * 2 ^ qu) := by
    rw [Nat.cast_mul, two_pow_toNat (10 - qu) (by omega)]
    have e1 : (2 : ℚ) ^ (63 : Int) = 9007199254740992 * 2 ^ (10 - qu) * 2 ^ qu := by
      rw [mul_assoc, ← zpow_add₀ h2ne]
      have : (10 - qu + qu) = 10 := by ring
      rw [this]
      norm_num
    rw [e1]
    have hq0 : (2 : ℚ) ^ qu ≠ 0 := ne_of_gt (zpow_pos h2pos _)
    field_simp
    ring
  have hM52 : (2 : ℚ) ^ 52 ≤ Mu := by exact_mod_cast h52
  have hM53 : (Mu : ℚ) ≤ 2 ^ 53 := by exact_mod_cast h53
  have hUpos : (0 : ℚ) < Mu * 2 ^ qu := mul_pos hMuq (zpow_pos h2pos _)
  -- the quotient is between 1 and 2 ^ 63
  have hU1 : (1 : ℚ) ≤ Mu * 2 ^ qu := by
    calc (1 : ℚ) = 2 ^ (52 : Int) * 2 ^ (-52 : Int) := by
          rw [← zpow_add₀ h2ne]; norm_num
      _ ≤ Mu * 2 ^ qu := by
          apply mul_le_mul _ (zpow_le_zpow_right₀ (by norm_num) hq1)
            (le_of_lt (zpow_pos h2pos _)) (le_of_lt hMuq)
          rw [show (52 : Int) = ((52 : Nat) : Int) by norm_num, zpow_natCast]
          exact hM52
  have hU63 : (Mu : ℚ) * 2 ^ qu ≤ 2 ^ (63 : Int) := by
    calc (Mu : ℚ) * 2 ^ qu ≤ 2 ^ (53 : Int) * 2 ^ (10 : Int) := by
          apply mul_le_mul _ (zpow_le_zpow_right₀ (by norm_num) hq2)
            (le_of_lt (zpow_pos h2pos _)) (le_of_lt (zpow_pos h2pos _))
          rw [show (53 : Int) = ((53 : Nat) : Int) by norm_num, zpow_natCast]
          exact hM53
      _ = 2 ^ (63 : Int) := by rw [← zpow_add₀ h2ne]; norm_num
  have ht1 : (1 : ℚ) ≤ 2 ^ (63 : Int) / (Mu * 2 ^ qu) := by
    rw [le_div_iff₀ hUpos]
    linarith
  have ht64 : 2 ^ (63 : Int) / (Mu * 2 ^ qu) < (2 : ℚ) ^ (64 : Int) := by
    rw [div_lt_iff₀ hUpos]
    have h6364 : (2 : ℚ) ^ (63 : Int) < 2 ^ (64 : Int) :=
      zpow_lt_zpow_right₀ (by norm_num) (by norm_num)
    have h64pos : (0 : ℚ) < 2 ^ (64 : Int) := zpow_pos h2pos _
    nlinarith
  obtain ⟨hr, _⟩ := roundNE_small false (9007199254740992 * 2 ^ (10 - qu).toNat) Mu hnum hMu0
    (by rw [hquot]; exact ht64)
  have hE0 : 0 ≤ ilog2 (9007199254740992 * 2 ^ (10 - qu).toNat) Mu := by
    apply ilog2_ge _ _ hnum hMu0 0
    rw [hquot, zpow_zero]
    exact ht1
  obtain ⟨hlt, hge, _, hqE⟩ := ulpExp_spec (9007199254740992 * 2 ^ (10 - qu).toNat) Mu hnum hMu0
  obtain ⟨hm1, _⟩ := roundMant_spec (9007199254740992 * 2 ^ (10 - qu).toNat) Mu hMu0
  rw [hquot] at hlt hge hm1
  refine ⟨roundMant (9007199254740992 * 2 ^ (10 - qu).toNat) Mu,
    ulpExp (9007199254740992 * 2 ^ (10 - qu).toNat) Mu, ?_, hm1, hge (by omega), hlt⟩
  rw [ofInt_MaxInt64]
  unfold F64.div
  have hne : (Mu : Int) ≠ 0 := by exact_mod_cast (ne_of_gt hMu0)
  have hz : (qu - 10).toNat = 0 := by omega
  simp only [hne, if_false, hz, pow_zero, mul_one, Int.natAbs_ofNat]
  have hs : xor (decide ((9007199254740992 : Int) < 0)) (decide ((Mu : Int) < 0)) = false := by
    have : ¬ ((Mu : Int) < 0) := by omega
    simp [this]
  rw [hs]
  have hna : Int.natAbs 9007199254740992 = 9007199254740992 := rfl
  rw [hna, hr]
  rfl

/-- The comparison `>=` of two finite doubles is the comparison of their values. -/
theorem ge_fin_iff (m1 e1 m2 e2 : Int) :
    F64.ge (.fin m1 e1) (.fin m2 e2) = true ↔ (m2 : ℚ) * 2 ^ e2 ≤ (m1 : ℚ) * 2 ^ e1 := by
  have h2pos : (0 : ℚ) < 2 := by norm_num
  have h2ne : (2 : ℚ) ≠ 0 := by norm_num
  unfold F64.ge
  rw [decide_eq_true_iff]
  generalize hk : min e1 e2 = k
  have hk1 : 0 ≤ e1 - k := by omega
  have hk2 : 0 ≤ e2 - k := by omega
  have c1 : ((m1 * 2 ^ (e1 - k).toNat : Int) : ℚ) = (m1 : ℚ) * 2 ^ (e1 - k) := by
    rw [Int.cast_mul, Int.cast_pow, Int.cast_ofNat, ← zpow_natCast, Int.toNat_of_nonneg hk1]
  have c2 : ((m2 * 2 ^ (e2 - k).toNat : Int) : ℚ) = (m2 : ℚ) * 2 ^ (e2 - k) := by
    rw [Int.cast_mul, Int.cast_pow, Int.cast_ofNat, ← zpow_natCast, Int.toNat_of_nonneg hk2]
  rw [← Int.cast_le (R := ℚ), c1, c2]
  have s1 : (2 : ℚ) ^ e1 = 2 ^ (e1 - k) * 2 ^ k := by
    rw [← zpow_add₀ h2ne]; congr 1; ring
  have s2 : (2 : ℚ) ^ e2 = 2 ^ (e2 - k) * 2 ^ k := by
    rw [← zpow_add₀ h2ne]; congr 1; ring
  rw [s1, s2, ← mul_assoc, ← mul_assoc]
  exact (mul_le_mul_right (zpow_pos h2pos k)).symm

/-- A double below the double `Mt * 2 ^ qt`, which is nearest to `x * 2 ^ qt` with
`x` at least `2 ^ 52`, is at most `(x - 1/2) * 2 ^ qt`. -/
theorem below_bound (m e : Int) (hm0 : 0 ≤ m) (hm : m ≤ 2 ^ 53) (Mt : Nat) (qt : Int)
    (x : ℚ) (hx1 : (Mt : ℚ) ≤ x + 1 / 2) (hx2 : (2 : ℚ) ^ 52 ≤ x)
    (hlt : (m : ℚ) * 2 ^ e < (Mt : ℚ) * 2 ^ qt) :
    (m : ℚ) * 2 ^ e ≤ (x - 1 / 2) * 2 ^ qt := by
  have h2pos : (0 : ℚ) < 2 := by norm_num
  have h2ne : (2 : ℚ) ≠ 0 := by norm_num
  have hqt : (0 : ℚ) < 2 ^ qt := zpow_pos h2pos _
  have hsplit : (2 : ℚ) ^ e = 2 ^ (e - qt) * 2 ^ qt := by
    rw [← zpow_add₀ h2ne]; congr 1; ring
  rw [hsplit, ← mul_assoc] at hlt ⊢
  have hy : (m : ℚ) * 2 ^ (e - qt) < Mt := lt_of_mul_lt_mul_right hlt (le_of_lt hqt)
  apply mul_le_mul_of_nonneg_right _ (le_of_lt hqt)
  have hmq0 : (0 : ℚ) ≤ m := by exact_mod_cast hm0
  have hmq : (m : ℚ) ≤ 2 ^ 53 := by exact_mod_cast hm
  rcases le_or_lt qt e with hc | hc
  · -- the double is a multiple of the unit in the last place of the bound
    have hk : 0 ≤ e - qt := by omega
    have hcast : ((m * 2 ^ (e - qt).toNat : Int) : ℚ) = (m : ℚ) * 2 ^ (e - qt) := by
      rw [Int.cast_mul, Int.cast_pow, Int.cast_ofNat, ← zpow_natCast, Int.toNat_of_nonneg hk]
    rw [← hcast] at hy ⊢
    have hY : m * 2 ^ (e - qt).toNat < (Mt : Int) := by
      have : ((m * 2 ^ (e - qt).toNat : Int) : ℚ) < ((Mt : Int) : ℚ) := by
        rw [Int.cast_natCast]; exact hy
      exact Int.cast_lt.mp this
    have hY' : m * 2 ^ (e - qt).toNat + 1 ≤ (Mt : Int) := by omega
    have : ((m * 2 ^ (e - qt).toNat + 1 : Int) : ℚ) ≤ ((Mt : Int) : ℚ) := Int.cast_le.mpr hY'
    rw [Int.cast_add, Int.cast_one, Int.cast_natCast] at this
    linarith
  · rcases eq_or_lt_of_le (show e + 1 ≤ qt by omega) with h1 | h2
    · have hr : (2 : ℚ) ^ (e - qt) = 1 / 2 := by
        have : e - qt = -1 := by omega
        rw [this]; norm_num
      rw [hr] at hy ⊢
      rcases eq_or_lt_of_le hm with h53 | h53
      · -- the double is `2 ^ 53` units of half the size: `2 ^ 52` units
        rw [h53] at hy ⊢
        have hMt : (2 ^ 52 : Nat) < Mt := by
          have : ((2 ^ 52 : Nat) : ℚ) < (Mt : ℚ) := by push_cast; push_cast at hy; linarith
          exact Nat.cast_lt.mp this
        have hMt' : (2 ^ 52 + 1 : Nat) ≤ Mt := hMt
        have : ((2 ^ 52 + 1 : Nat) : ℚ) ≤ (Mt : ℚ) := Nat.cast_le.mpr hMt'
        push_cast at this ⊢
        linarith
      · have hm' : m ≤ 2 ^ 53 - 1 := by omega
        have : (m : ℚ) ≤ 2 ^ 53 - 1 := by exact_mod_cast hm'
        linarith
    · have hr : (2 : ℚ) ^ (e - qt) ≤ 1 / 4 := by
        calc (2 : ℚ) ^ (e - qt) ≤ 2 ^ (-2 : Int) :=
              zpow_le_zpow_right₀ (by norm_num) (by omega)
          _ = 1 / 4 := by norm_num
      have : (m : ℚ) * 2 ^ (e - qt) ≤ 2 ^ 53 * (1 / 4) :=
        mul_le_mul hmq hr (le_of_lt (zpow_pos h2pos _)) (by norm_num)
      linarith

/-- The product of a non-negative double and the double of a positive unit, when
the exact product is below `2 ^ 63 - 2 ^ 9`: a double below `2 ^ 63`, which
`int64(...)` truncates without going out of range. -/
theorem mul_in_range (m e : Int) (hm0 : 0 ≤ m) (Mu : Nat) (qu : Int)
    (hP : (m : ℚ) * 2 ^ e * (Mu * 2 ^ qu) < 2 ^ (63 : Int) - 2 ^ (9 : Int)) :
    ∃ v : Int, (F64.mul (.fin m e) (.fin Mu qu)).trunc? = some v
      ∧ F64.toInt64 (F64.mul (.fin m e) (.fin Mu qu)) = v ∧ 0 ≤ v ∧ v < 2 ^ 63 := by
  have h2pos : (0 : ℚ) < 2 := by norm_num
  have h2ne : (2 : ℚ) ≠ 0 := by norm_num
  have hs : xor (decide (m < 0)) (decide ((Mu : Int) < 0)) = false := by
    have h1 : ¬ (m < 0) := by omega
    have h2 : ¬ ((Mu : Int) < 0) := by omega
    simp [h1, h2]
  unfold F64.mul
  simp only [hs]
  by_cases hz : (m * Mu).natAbs = 0
  · refine ⟨0, ?_, ?_, le_refl _, by norm_num⟩
    · simp [hz, roundNE, F64.trunc?]
    · simp [hz, roundNE, F64.toInt64]
  · have hnum : 0 < (m * Mu).natAbs * 2 ^ (e + qu).toNat :=
      Nat.mul_pos (Nat.pos_of_ne_zero hz) (by positivity)
    have hden : 0 < 2 ^ (-(e + qu)).toNat := by positivity
    have hmMu : 0 ≤ m * Mu := Int.mul_nonneg hm0 (Int.natCast_nonneg _)
    -- the exact product
    have hquot : (((m * Mu).natAbs * 2 ^ (e + qu).toNat : Nat) : ℚ)
        / ((2 ^ (-(e + qu)).toNat : Nat) : ℚ) = (m : ℚ) * 2 ^ e * (Mu * 2 ^ qu) := by
      have habs : (((m * Mu).natAbs : Nat) : ℚ) = (m : ℚ) * Mu := by
        have : (((m * Mu).natAbs : Nat) : Int) = m * Mu := Int.natAbs_of_nonneg hmMu
        have h := congrArg (Int.cast (R := ℚ)) this
        rw [Int.cast_natCast, Int.cast_mul, Int.cast_natCast] at h
        exact h
      have hpow : (2 : ℚ) ^ e * 2 ^ qu = 2 ^ (e + qu) := (zpow_add₀ h2ne e qu).symm
      rcases le_or_lt 0 (e + qu) with hc | hc
      · have hz2 : (-(e + qu)).toNat = 0 := by omega
        rw [hz2, pow_zero, Nat.cast_one, div_one, Nat.cast_mul, habs,
          two_pow_toNat (e + qu) hc, ← hpow]
        ring
      · have hz2 : (e + qu).toNat = 0 := by omega
        rw [hz2, pow_zero, mul_one, habs, two_pow_toNat (-(e + qu)) (by omega), zpow_neg,
          div_inv_eq_mul, ← hpow]
        ring
    have h63 : (2 : ℚ) ^ (63 : Int) - 2 ^ (9 : Int) < 2 ^ (63 : Int) := by
      have : (0 : ℚ) < 2 ^ (9 : Int) := zpow_pos h2pos _
      linarith
    have h6364 : (2 : ℚ) ^ (63 : Int) < 2 ^ (64 : Int) :=
      zpow_lt_zpow_right₀ (by norm_num) (by norm_num)
    obtain ⟨hr, _⟩ := roundNE_small false _ _ hnum hden (by rw [hquot]; linarith)
    have hE := ilog2_lt _ _ hnum hden 63 (by rw [hquot]; linarith)
    obtain ⟨hlt, _, hq1074, _⟩ := ulpExp_spec _ _ hnum hden
    obtain ⟨hm1, _⟩ := roundMant_spec ((m * Mu).natAbs * 2 ^ (e + qu).toNat)
      (2 ^ (-(e + qu)).toNat) hden
    have hMle := roundMant_le _ _ hnum hden
    rw [hquot] at hlt hm1
    have hq10 : ulpExp ((m * Mu).natAbs * 2 ^ (e + qu).toNat) (2 ^ (-(e + qu)).toNat) ≤ 10 := by
      unfold ulpExp
      omega
    rw [hr]
    simp only [Bool.false_eq_true, if_false]
    generalize roundMant ((m * Mu).natAbs * 2 ^ (e + qu).toNat) (2 ^ (-(e + qu)).toNat) = MP
      at hm1 hMle
    generalize ulpExp ((m * Mu).natAbs * 2 ^ (e + qu).toNat) (2 ^ (-(e + qu)).toNat) = qP
      at hlt hm1 hq10 hq1074
    -- the truncation of the rounded product
    have hv : (0 : Int) ≤ (if 0 ≤ qP then (MP : Int) * 2 ^ qP.toNat
          else Int.tdiv (MP : Int) (2 ^ (-qP).toNat))
        ∧ (if 0 ≤ qP then (MP : Int) * 2 ^ qP.toNat
          else Int.tdiv (MP : Int) (2 ^ (-qP).toNat)) < 2 ^ 63 := by
      by_cases hq : 0 ≤ qP
      · rw [if_pos hq]
        refine ⟨by positivity, ?_⟩
        have hMq : (MP : ℚ) * 2 ^ qP < 2 ^ (63 : Int) := by
          rcases eq_or_lt_of_le hq10 with h10 | h9
          · rw [h10] at hm1 ⊢
            have hMP : (MP : ℚ) < 2 ^ (53 : Int) := by
              have e1 : ((2 : ℚ) ^ (63 : Int) - 2 ^ (9 : Int)) / 2 ^ (10 : Int) + 1 / 2
                  = 2 ^ (53 : Int) := by norm_num
              have e2 : (m : ℚ) * 2 ^ e * (Mu * 2 ^ qu) / 2 ^ (10 : Int)
                  < ((2 : ℚ) ^ (63 : Int) - 2 ^ (9 : Int)) / 2 ^ (10 : Int) :=
                div_lt_div_of_pos_right hP (zpow_pos h2pos _)
              linarith
            calc (MP : ℚ) * 2 ^ (10 : Int) < 2 ^ (53 : Int) * 2 ^ (10 : Int) :=
                  mul_lt_mul_of_pos_right hMP (zpow_pos h2pos _)
              _ = 2 ^ (63 : Int) := by rw [← zpow_add₀ h2ne]; norm_num
          · have hMP : (MP : ℚ) ≤ 2 ^ (53 : Int) := by
              have : ((MP : Nat) : ℚ) ≤ ((2 ^ 53 : Nat) : ℚ) := Nat.cast_le.mpr hMle
              push_cast at this
              rw [show (53 : Int) = ((53 : Nat) : Int) by norm_num, zpow_natCast]
              exact this
            calc (MP : ℚ) * 2 ^ qP ≤ 2 ^ (53 : Int) * 2 ^ (9 : Int) :=
                  mul_le_mul hMP (zpow_le_zpow_right₀ (by norm_num) (by omega))
                    (le_of_lt (zpow_pos h2pos _)) (le_of_lt (zpow_pos h2pos _))
              _ = 2 ^ (62 : Int) := by rw [← zpow_add₀ h2ne]; norm_num
              _ < 2 ^ (63 : Int) := zpow_lt_zpow_right₀ (by norm_num) (by norm_num)
        have hcast : (((MP : Int) * 2 ^ qP.toNat : Int) : ℚ) = (MP : ℚ) * 2 ^ qP := by
          rw [Int.cast_mul, Int.cast_pow, Int.cast_ofNat, Int.cast_natCast, ← zpow_natCast,
            Int.toNat_of_nonneg hq]
        have : (((MP : Int) * 2 ^ qP.toNat : Int) : ℚ) < (((2 : Int) ^ 63 : Int) : ℚ) := by
          rw [hcast]
          have e : (((2 : Int) ^ 63 : Int) : ℚ) = 2 ^ (63 : Int) := by norm_num
          rw [e]
          exact hMq
        exact Int.cast_lt.mp this
      · rw [if_neg hq]
        have hnn : (0 : Int) ≤ 2 ^ (-qP).toNat := by positivity
        rw [Int.tdiv_eq_ediv (Int.natCast_nonneg _) hnn]
        refine ⟨Int.ediv_nonneg (Int.natCast_nonneg _) hnn, ?_⟩
        have h1 : (MP : Int) / 2 ^ (-qP).toNat ≤ MP :=
          Int.ediv_le_self _ (Int.natCast_nonneg _)
        have h2 : (MP : Int) ≤ 2 ^ 53 := by exact_mod_cast hMle
        have h3 : (2 : Int) ^ 53 < 2 ^ 63 := by norm_num
        omega
    refine ⟨_, rfl, ?_, hv.1, hv.2⟩
    unfold F64.toInt64
    simp only []
    rw [if_pos ⟨by have := hv.1; omega, hv.2⟩]

/-- Rounding a quotient with a minus sign gives a double that is not positive, or `-Inf`. -/
theorem roundNE_true_cases (n d : Nat) :
    (∃ (M : Nat) (q : Int), roundNE true n d = .fin (-(M : Int)) q)
      ∨ roundNE true n d = .inf true := by
  unfold roundNE
  by_cases h0 : n = 0
  · left
    exact ⟨0, 0, by simp [h0]⟩
  · by_cases hbig : 0 ≤ ulpExp n d ∧ 2 ^ 1024 ≤ roundMant n d * 2 ^ (ulpExp n d).toNat
    · right
      rw [if_neg h0]
      exact if_pos hbig
    · left
      refine ⟨roundMant n d, ulpExp n d, ?_⟩
      rw [if_neg h0]
      simp only []
      rw [if_neg hbig]
      rfl

/-- A finite result of rounding a non-negative quotient has a mantissa between `0`
and `2 ^ 53`. -/
theorem roundNE_false_fin (n d : Nat) (hd : 0 < d) (m e : Int)
    (h : roundNE false n d = .fin m e) : 0 ≤ m ∧ m ≤ 2 ^ 53 := by
  unfold roundNE at h
  by_cases h0 : n = 0
  · rw [if_pos h0] at h
    cases h
    exact ⟨le_refl _, by norm_num⟩
  · rw [if_neg h0] at h
    simp only [] at h
    split at h
    · cases h
    · cases h
      have := roundMant_le n d (Nat.pos_of_ne_zero h0) hd
      simp only [Bool.false_eq_true, if_false]
      exact ⟨Int.natCast_nonneg _, by exact_mod_cast this⟩

/-- The guard of `ParseUnitNum` is sound: when a non-negative double passes it for an
`int64` unit, the unit is not negative and the float product, converted by
`int64(...)`, is its exact truncation, between `0` and `2 ^ 63 - 1`. -/
theorem guard_sound (m e : Int) (mult : Int) (hm0 : 0 ≤ m) (hm : m ≤ 2 ^ 53)
    (hlo : -2 ^ 63 ≤ mult) (hhi : mult < 2 ^ 63)
    (hg : tooBig (.fin m e) mult = false) :
    0 ≤ mult ∧ ∃ v : Int, (F64.mul (.fin m e) (F64.ofInt mult)).trunc? = some v
      ∧ F64.toInt64 (F64.mul (.fin m e) (F64.ofInt mult)) = v ∧ 0 ≤ v ∧ v < 2 ^ 63 := by
  have h2pos : (0 : ℚ) < 2 := by norm_num
  have h2ne : (2 : ℚ) ≠ 0 := by norm_num
  have hmq0 : (0 : ℚ) ≤ m := by exact_mod_cast hm0
  rcases lt_trichotomy mult 0 with hneg | hzero | hpos
  · -- a negative unit never passes the guard
    exfalso
    obtain ⟨Mu, qu, hU, h52, _, _, _, _⟩ := ofInt_cases mult hlo hhi (by omega)
    have hMu0 : 0 < Mu := lt_of_lt_of_le (by norm_num) h52
    rw [if_pos hneg] at hU
    have hne : (-(Mu : Int)) ≠ 0 := by omega
    have hdiv : F64.div (F64.ofInt MaxInt64) (.fin (-(Mu : Int)) qu)
        = roundNE true (9007199254740992 * 2 ^ (10 - qu).toNat)
            ((-(Mu : Int)).natAbs * 2 ^ (qu - 10).toNat) := by
      rw [ofInt_MaxInt64]
      unfold F64.div
      have hlt : (-(Mu : Int)) < 0 := by omega
      simp [hne, hlt]
    unfold tooBig at hg
    rw [hU, hdiv] at hg
    rcases roundNE_true_cases (9007199254740992 * 2 ^ (10 - qu).toNat)
        ((-(Mu : Int)).natAbs * 2 ^ (qu - 10).toNat) with ⟨M, q, h⟩ | h
    · rw [h] at hg
      have : F64.ge (.fin m e) (.fin (-(M : Int)) q) = true := by
        rw [ge_fin_iff]
        have h1 : ((-(M : Int) : Int) : ℚ) * 2 ^ q ≤ 0 := by
          have : ((-(M : Int) : Int) : ℚ) ≤ 0 := by
            rw [Int.cast_neg, Int.cast_natCast]
            have : (0 : ℚ) ≤ M := Nat.cast_nonneg _
            linarith
          exact mul_nonpos_of_nonpos_of_nonneg this (le_of_lt (zpow_pos h2pos _))
        have h2 : (0 : ℚ) ≤ (m : ℚ) * 2 ^ e := mul_nonneg hmq0 (le_of_lt (zpow_pos h2pos _))
        linarith
      rw [this] at hg
      cases hg
    · rw [h] at hg
      cases hg
  · -- the unit zero: the product is zero
    subst hzero
    refine ⟨le_refl _, ?_⟩
    have h0 : F64.ofInt 0 = .fin ((0 : Nat) : Int) 0 := by decide
    rw [h0]
    apply mul_in_range m e hm0 0 0
    simp
  · refine ⟨le_of_lt hpos, ?_⟩
    obtain ⟨Mu, qu, hU, h52, h53, hq1, _, hq10⟩ := ofInt_cases mult hlo hhi (by omega)
    rw [if_neg (by omega)] at hU
    obtain ⟨Mt, qt, hb, hx1, hx2, hx3⟩ := bound_pos Mu qu h52 h53 hq1 (hq10 hpos)
    unfold tooBig at hg
    rw [hU, hb] at hg
    have hlt : (m : ℚ) * 2 ^ e < (Mt : ℚ) * 2 ^ qt := by
      by_contra hc
      have hge : F64.ge (.fin m e) (.fin Mt qt) = true := by
        rw [ge_fin_iff]
        have := not_lt.mp hc
        rw [Int.cast_natCast]
        exact this
      rw [hge] at hg
      cases hg
    have hMu0 : 0 < Mu := lt_of_lt_of_le (by norm_num) h52
    have hMuq : (0 : ℚ) < Mu := by exact_mod_cast hMu0
    have hUpos : (0 : ℚ) < Mu * 2 ^ qu := mul_pos hMuq (zpow_pos h2pos _)
    have hqt : (0 : ℚ) < 2 ^ qt := zpow_pos h2pos _
    have hbelow := below_bound m e hm0 hm Mt qt _ hx1 hx2 hlt
    rw [hU]
    apply mul_in_range m e hm0 Mu qu
    -- the exact product is below `2 ^ 63 - 2 ^ 9`
    set U : ℚ := Mu * 2 ^ qu with hUdef
    have htU : (2 : ℚ) ^ (63 : Int) / U / 2 ^ qt * 2 ^ qt * U = 2 ^ (63 : Int) := by
      field_simp
      ring
    have h1 : (m : ℚ) * 2 ^ e * U ≤ (2 ^ (63 : Int) / U / 2 ^ qt - 1 / 2) * 2 ^ qt * U :=
      mul_le_mul_of_nonneg_right hbelow (le_of_lt hUpos)
    have h2 : (2 ^ (63 : Int) / U / 2 ^ qt - 1 / 2) * 2 ^ qt * U
        = 2 ^ (63 : Int) - 2 ^ qt * U / 2 := by
      have : (2 ^ (63 : Int) / U / 2 ^ qt - 1 / 2) * 2 ^ qt * U
          = 2 ^ (63 : Int) / U / 2 ^ qt * 2 ^ qt * U - 2 ^ qt * U / 2 := by ring
      rw [this, htU]
    have h3 : (2 : ℚ) ^ (10 : Int) < 2 ^ qt * U := by
      have : 2 ^ (63 : Int) / U / 2 ^ qt * (2 ^ qt * U) < (2 : ℚ) ^ 53 * (2 ^ qt * U) :=
        mul_lt_mul_of_pos_right hx3 (mul_pos hqt hUpos)
      have e1 : 2 ^ (63 : Int) / U / 2 ^ qt * (2 ^ qt * U) = 2 ^ (63 : Int) := by
        rw [← mul_assoc]; exact htU
      rw [e1] at this
      have e2 : (2 : ℚ) ^ (63 : Int) = 2 ^ 53 * 2 ^ (10 : Int) := by norm_num
      rw [e2] at this
      exact lt_of_mul_lt_mul_left this (by positivity)
    have h4 : (2 : ℚ) ^ (9 : Int) = 2 ^ (10 : Int) / 2 := by norm_num
    rw [h2] at h1
    linarith

/-! ## The loop of the quantity parser -/

/-- A text with the run of characters satisfying `p` dropped does not start with a
character satisfying `p`. -/
theorem head_dropWhile_false (p : Char → Bool) (l : Str) :
    ∀ c ∈ (l.dropWhile p).head?, p c = false := by
  intro c hc
  have h := List.head?_dropWhile_not p l
  rw [Option.mem_def] at hc
  rw [hc] at h
  exact h

/-- A run that is empty leaves the text as it is. -/
theorem dropWhile_of_takeWhile_nil {p : Char → Bool} {l : Str} (h : l.takeWhile p = []) :
    l.dropWhile p = l := by
  have := List.takeWhile_append_dropWhile p l
  rw [h, List.nil_append] at this
  exact this

/-- The empty run: the text does not start with a character satisfying `p`. -/
theorem head_of_takeWhile_nil {p : Char → Bool} {c : Char} {r : Str}
    (h : (c :: r).takeWhile p = []) : p c = false := by
  rw [List.takeWhile_cons] at h
  by_cases hc : p c = true
  · rw [if_pos hc] at h
    cases h
  · simpa using hc

/-- Every text starts with a shaped token, possibly empty, that is maximal in front
of the rest: what the scanner of `NumWithUnit` takes. -/
theorem exists_token (s : Str) :
    ∃ (t : Token) (rest : Str), s = t.text ++ rest ∧ t.shaped = true ∧ t.sepOK rest = true := by
  have hip : ∀ a ∈ s.takeWhile isDigit, isDigit a = true := fun a ha => List.mem_takeWhile_imp ha
  have hs1 := head_dropWhile_false isDigit s
  have hsplit1 : s = s.takeWhile isDigit ++ s.dropWhile isDigit :=
    (List.takeWhile_append_dropWhile isDigit s).symm
  -- the unit and the rest after a given number
  have finish : ∀ (fp : Option Str) (s2 : Str),
      s.dropWhile isDigit = (match fp with | none => [] | some f => '.' :: f) ++ s2 →
      (∀ f, fp = some f → f ≠ [] ∧ ∀ a ∈ f, isDigit a = true) →
      (s2.takeWhile isLetter = [] → ∀ c r, s2 = c :: r →
        isDigit c = false ∧ (fp.isSome = true ∨ ¬ (c = '.' ∧ r.head?.any isDigit = true))) →
      ∃ (t : Token) (rest : Str), s = t.text ++ rest ∧ t.shaped = true ∧ t.sepOK rest = true := by
    intro fp s2 hs2 hfp hsep
    refine ⟨⟨s.takeWhile isDigit, fp, s2.takeWhile isLetter⟩, s2.dropWhile isLetter, ?_, ?_, ?_⟩
    · simp only [Token.text, Token.number, Token.fracText, List.append_assoc,
        List.takeWhile_append_dropWhile]
      cases fp with
      | none =>
        simp only [List.nil_append] at hs2 ⊢
        rw [← hs2]
        exact hsplit1
      | some f =>
        simp only [List.cons_append] at hs2 ⊢
        rw [← hs2]
        exact hsplit1
    · rw [Token.shaped_iff]
      exact ⟨hip, hfp, fun a ha => List.mem_takeWhile_imp ha⟩
    · have hnl := head_dropWhile_false isLetter s2
      cases hrest : s2.dropWhile isLetter with
      | nil => rfl
      | cons c r =>
        have hc : isLetter c = false := hnl c (by rw [hrest]; simp)
        simp only [Token.sepOK, hc, Bool.not_false, Bool.true_and, Bool.or_eq_true,
          Bool.not_eq_true', List.isEmpty_eq_false, Bool.and_eq_true]
        by_cases hu : s2.takeWhile isLetter = []
        · right
          have hs2' : s2 = c :: r := by rw [← dropWhile_of_takeWhile_nil hu, hrest]
          obtain ⟨h1, h2⟩ := hsep hu c r hs2'
          refine ⟨h1, ?_⟩
          rcases h2 with h2 | h2
          · left; exact h2
          · right
            by_cases hdot : c = '.'
            · subst hdot
              simp only [beq_self_eq_true, Bool.true_and]
              simpa using h2
            · simp [hdot]
        · left
          simpa using hu
  cases hs1' : s.dropWhile isDigit with
  | nil =>
    apply finish none []
    · rw [hs1']; rfl
    · intro f hf; cases hf
    · intro _ c r h; cases h
  | cons a r =>
    have ha : isDigit a = false := hs1 a (by rw [hs1']; simp)
    by_cases hdot : a = '.'
    · subst hdot
      by_cases hr : r.takeWhile isDigit = []
      · apply finish none ('.' :: r)
        · rw [hs1']; rfl
        · intro f hf; cases hf
        · intro _ c r' h
          cases h
          refine ⟨rfl, Or.inr ?_⟩
          rintro ⟨_, h2⟩
          cases r with
          | nil => simp at h2
          | cons b r2 =>
            have := head_of_takeWhile_nil hr
            simp only [List.head?_cons, Option.any_some] at h2
            rw [this] at h2
            cases h2
      · apply finish (some (r.takeWhile isDigit)) (r.dropWhile isDigit)
        · rw [hs1']
          simp only [List.cons_append, List.takeWhile_append_dropWhile]
        · intro f hf
          cases hf
          exact ⟨hr, fun a ha => List.mem_takeWhile_imp ha⟩
        · intro _ c r' h
          have := head_dropWhile_false isDigit r c (by rw [h]; simp)
          exact ⟨this, Or.inl rfl⟩
    · apply finish none (a :: r)
      · rw [hs1']; rfl
      · intro f hf; cases hf
      · intro _ c r' h
        cases h
        refine ⟨ha, Or.inr ?_⟩
        rintro ⟨h1, _⟩
        exact hdot h1

/-- An `int64` value is not changed by the wrap-around. -/
theorem wrap64_id (x : Int) (h1 : -2 ^ 63 ≤ x) (h2 : x < 2 ^ 63) : wrap64 x = x := by
  unfold wrap64
  rw [Int.emod_eq_of_lt (by omega) (by omega)]
  omega

/-- The text of a well-formed token is not empty. -/
theorem Token.text_ne_nil (t : Token) (hwf : t.wf = true) : t.text ≠ [] := by
  simp only [Token.wf, Bool.and_eq_true, Bool.not_eq_true', List.isEmpty_eq_false] at hwf
  intro h
  apply hwf.2
  unfold Token.text at h
  exact (List.append_eq_nil.mp h).1

/-- The value of an accepted token: the unit is not negative and `int64(...)`
of the float product is its exact truncation, between `0` and `2 ^ 63 - 1`. -/
theorem accepted_value (t : Token) (mult : Int) (hfin : t.nearest.finiteNonneg = true)
    (hg : tooBig t.nearest mult = false) (hlo : -2 ^ 63 ≤ mult) (hhi : mult < 2 ^ 63) :
    0 ≤ mult ∧ ∃ v : Int, t.f64Value mult = some v
      ∧ F64.toInt64 (F64.mul t.nearest (F64.ofInt mult)) = v ∧ 0 ≤ v ∧ v < 2 ^ 63 := by
  unfold Token.f64Value
  have hd : 0 < 10 ^ t.scale := by positivity
  rcases roundNE_false_cases t.mantissa (10 ^ t.scale) with ⟨m, e, h, _⟩ | h
  · have hb := roundNE_false_fin t.mantissa (10 ^ t.scale) hd m e h
    have hn : t.nearest = .fin m e := h
    rw [hn] at hg ⊢
    exact guard_sound m e mult hb.1 hb.2 hlo hhi hg
  · have hn : t.nearest = .inf false := h
    rw [hn] at hfin
    cases hfin

/-- One iteration of the loop of `ParseUnitNum` on a well-formed maximal token whose
number is in range and whose unit is in the table. -/
theorem parseLoop_token (orig : Str) (unitMap : UnitMap) (defaultUnit : Str) (fuel : Nat)
    (t : Token) (rest : Str) (acc mult : Int) (hwf : t.wf = true)
    (hsep : t.sepOK rest = true) (hfin : t.nearest.finiteNonneg = true)
    (hlook : unitMap.lookup (t.effUnit defaultUnit) = some mult) :
    parseLoop orig unitMap defaultUnit (fuel + 1) (t.text ++ rest) acc =
      if tooBig t.nearest mult then
        some (.error (UnitNumParserError (t.text ++ rest) orig "Number is too big".toList 0))
      else if wrap64 (MaxInt64 - acc) < F64.toInt64 (F64.mul t.nearest (F64.ofInt mult)) then
        some (.error (UnitNumParserError (t.text ++ rest) orig "Numeric overflow".toList 0))
      else
        parseLoop orig unitMap defaultUnit fuel rest
          (wrap64 (acc + F64.toInt64 (F64.mul t.nearest (F64.ofInt mult)))) := by
  have hne : t.text ++ rest ≠ [] := by
    intro h
    exact t.text_ne_nil hwf (List.append_eq_nil.mp h).1
  rw [parseLoop, if_neg hne, NumWithUnit_token t rest hwf hsep hfin]
  simp only []
  have hu : (if t.unit = [] then defaultUnit else t.unit) = t.effUnit defaultUnit := rfl
  rw [hu, hlook]
  simp only [List.drop_left]
  rfl

/-- One iteration of the loop on a well-formed maximal token whose number is in
range and whose unit is not in the table: the "Bad unit" error, the caret under the
first character after the number. -/
theorem parseLoop_token_badunit (orig : Str) (unitMap : UnitMap) (defaultUnit : Str)
    (fuel : Nat) (t : Token) (rest : Str) (acc : Int) (hwf : t.wf = true)
    (hsep : t.sepOK rest = true) (hfin : t.nearest.finiteNonneg = true)
    (hlook : unitMap.lookup (t.effUnit defaultUnit) = none) :
    parseLoop orig unitMap defaultUnit (fuel + 1) (t.text ++ rest) acc =
      some (.error (UnitNumParserError (t.text ++ rest) orig (badUnitMessage unitMap)
        t.number.length)) := by
  have hne : t.text ++ rest ≠ [] := by
    intro h
    exact t.text_ne_nil hwf (List.append_eq_nil.mp h).1
  rw [parseLoop, if_neg hne, NumWithUnit_token t rest hwf hsep hfin]
  simp only []
  have hu : (if t.unit = [] then defaultUnit else t.unit) = t.effUnit defaultUnit := rfl
  rw [hu, hlook]

/-- One iteration of the loop on a well-formed maximal token whose number is out of
the range of the doubles: the "Cannot convert number" error. -/
theorem parseLoop_token_range (orig : Str) (unitMap : UnitMap) (defaultUnit : Str)
    (fuel : Nat) (t : Token) (rest : Str) (acc : Int) (hwf : t.wf = true)
    (hsep : t.sepOK rest = true) (hfin : t.nearest.finiteNonneg = false) :
    parseLoop orig unitMap defaultUnit (fuel + 1) (t.text ++ rest) acc =
      some (.error (UnitNumParserError (t.text ++ rest) orig
        "Cannot convert number".toList 0)) := by
  have hne : t.text ++ rest ≠ [] := by
    intro h
    exact t.text_ne_nil hwf (List.append_eq_nil.mp h).1
  rw [parseLoop, if_neg hne, NumWithUnit_token_range t rest hwf hsep hfin]

/-- The result of `NumWithUnit` in front of a text whose maximal first token has no number: the
"Number expected" error (the scanner matches the empty string at index 0, so the
"Unexpected character" branch is not taken). -/
theorem NumWithUnit_no_number (t : Token) (rest : Str) (hs : t.shaped = true)
    (hsep : t.sepOK rest = true) (hnum : t.number = []) :
    NumWithUnit (t.text ++ rest) = .error "Number expected".toList := by
  unfold NumWithUnit
  rw [FindStringSubmatchIndex_token t rest hs hsep]
  simp [hnum, slice]

/-- The multipliers found in a table of `int64` are `int64`. -/
theorem lookup_int64 {unitMap : UnitMap} (hint : unitMap.int64) {k : Str} {mult : Int}
    (h : unitMap.lookup k = some mult) : -2 ^ 63 ≤ mult ∧ mult < 2 ^ 63 := by
  obtain ⟨l1, l2, hl, _⟩ := List.lookup_eq_some_iff.mp h
  exact hint (k, mult) (by rw [hl]; simp)

/-- Accepted tokens are recognized. -/
theorem recognized_of_accepted (unitMap : UnitMap) (defaultUnit : Str) (toks : List Token)
    (h : accepted unitMap defaultUnit toks = true) :
    recognized unitMap defaultUnit toks = true := by
  induction toks with
  | nil => rfl
  | cons t ts ih =>
    simp only [accepted, Bool.and_eq_true] at h
    simp only [recognized, Bool.and_eq_true]
    refine ⟨?_, ih h.2⟩
    cases hl : unitMap.lookup (t.effUnit defaultUnit) with
    | none => rw [hl] at h; exact absurd h.1 (by simp)
    | some mult =>
      rw [hl] at h
      simp only [Bool.and_eq_true] at h
      exact h.1.1

/-- The float64 values of accepted tokens are not negative. -/
theorem f64Sum_nonneg (unitMap : UnitMap) (defaultUnit : Str) (hint : unitMap.int64)
    (toks : List Token) (h : accepted unitMap defaultUnit toks = true) :
    0 ≤ f64Sum unitMap defaultUnit toks := by
  induction toks with
  | nil => exact le_refl _
  | cons t ts ih =>
    simp only [accepted, Bool.and_eq_true] at h
    have ih' := ih h.2
    cases hl : unitMap.lookup (t.effUnit defaultUnit) with
    | none => rw [hl] at h; exact absurd h.1 (by simp)
    | some mult =>
      rw [hl] at h
      simp only [Bool.and_eq_true, Bool.not_eq_true'] at h
      obtain ⟨hlo, hhi⟩ := lookup_int64 hint hl
      obtain ⟨_, v, hv, _, hv0, _⟩ := accepted_value t mult h.1.1 h.1.2 hlo hhi
      simp only [f64Sum, hl, Option.some_bind, hv, Option.getD_some]
      omega

/-- The loop of `ParseUnitNum` over a sequence of recognized tokens, each maximal in
front of what follows: either all of them pass the guard and the sum fits, and the
loop arrives behind them with the sum of their values; or the loop stops with the
"Number is too big" or the "Numeric overflow" error. -/
theorem parseLoop_tokens (orig : Str) (unitMap : UnitMap) (defaultUnit : Str)
    (hint : unitMap.int64) (toks : List Token) :
    ∀ (fuel : Nat) (rest : Str) (acc : Int),
      (∀ t ∈ toks, t.wf = true) → separated toks rest = true →
      recognized unitMap defaultUnit toks = true → 0 ≤ acc → acc ≤ MaxInt64 →
      (accepted unitMap defaultUnit toks = true
        ∧ acc + f64Sum unitMap defaultUnit toks ≤ MaxInt64
        ∧ parseLoop orig unitMap defaultUnit (toks.length + fuel) (tokensText toks ++ rest) acc
            = parseLoop orig unitMap defaultUnit fuel rest
                (acc + f64Sum unitMap defaultUnit toks))
      ∨ ((accepted unitMap defaultUnit toks = false
            ∨ MaxInt64 < acc + f64Sum unitMap defaultUnit toks)
          ∧ ∃ (s' msg : Str),
              (msg = "Number is too big".toList ∨ msg = "Numeric overflow".toList)
              ∧ parseLoop orig unitMap defaultUnit (toks.length + fuel)
                  (tokensText toks ++ rest) acc
                = some (.error (UnitNumParserError s' orig msg 0))) := by
  induction toks with
  | nil =>
    intro fuel rest acc _ _ _ _ hacc
    left
    refine ⟨rfl, by simpa [f64Sum] using hacc, ?_⟩
    simp [tokensText, f64Sum]
  | cons t ts ih =>
    intro fuel rest acc hwf hsep hrec hacc0 hacc
    have hwft : t.wf = true := hwf t (by simp)
    have hwfts : ∀ u ∈ ts, u.wf = true := fun u hu => hwf u (by simp [hu])
    simp only [separated, Bool.and_eq_true] at hsep
    simp only [recognized, Bool.and_eq_true] at hrec
    cases hl : unitMap.lookup (t.effUnit defaultUnit) with
    | none => rw [hl] at hrec; exact absurd hrec.1 (by simp)
    | some mult =>
      rw [hl] at hrec
      have hfin : t.nearest.finiteNonneg = true := hrec.1
      obtain ⟨hlo, hhi⟩ := lookup_int64 hint hl
      have hfuel : (t :: ts).length + fuel = (ts.length + fuel) + 1 := by
        simp only [List.length_cons]; omega
      have htext : tokensText (t :: ts) ++ rest = t.text ++ (tokensText ts ++ rest) := by
        simp [tokensText, List.append_assoc]
      rw [hfuel, htext, parseLoop_token orig unitMap defaultUnit (ts.length + fuel) t
        (tokensText ts ++ rest) acc mult hwft hsep.1 hfin hl]
      by_cases hbig : tooBig t.nearest mult = true
      · right
        refine ⟨Or.inl ?_, t.text ++ (tokensText ts ++ rest), "Number is too big".toList,
          Or.inl rfl, ?_⟩
        · simp [accepted, hl, hbig]
        · rw [if_pos hbig]
      · have hbig' : tooBig t.nearest mult = false := by simpa using hbig
        obtain ⟨_, v, hv, hconv, hv0, hv63⟩ := accepted_value t mult hfin hbig' hlo hhi
        have hsum : f64Sum unitMap defaultUnit (t :: ts)
            = v + f64Sum unitMap defaultUnit ts := by
          simp [f64Sum, hl, hv]
        have hacct : accepted unitMap defaultUnit (t :: ts)
            = accepted unitMap defaultUnit ts := by
          simp [accepted, hl, hfin, hbig']
        have hmax : MaxInt64 = 2 ^ 63 - 1 := rfl
        rw [if_neg hbig, hconv, wrap64_id (MaxInt64 - acc) (by omega) (by omega)]
        by_cases hov : MaxInt64 - acc < v
        · right
          rw [if_pos hov]
          refine ⟨?_, t.text ++ (tokensText ts ++ rest), "Numeric overflow".toList,
            Or.inr rfl, rfl⟩
          rw [hacct, hsum]
          cases ha : accepted unitMap defaultUnit ts with
          | false => left; rfl
          | true =>
            right
            have := f64Sum_nonneg unitMap defaultUnit hint ts ha
            omega
        · rw [if_neg hov, wrap64_id (acc + v) (by omega) (by omega)]
          rcases ih fuel rest (acc + v) hwfts hsep.2 hrec.2 (by omega) (by omega) with
            ⟨h1, h2, h3⟩ | ⟨h1, h2⟩
          · left
            rw [hacct, hsum]
            refine ⟨h1, by omega, ?_⟩
            rw [h3]
            congr 1
            omega
          · right
            rw [hacct, hsum]
            refine ⟨?_, h2⟩
            rcases h1 with h1 | h1
            · left; exact h1
            · right; omega

/-- Well-formed tokens have at least one character each. -/
theorem tokens_length_le (toks : List Token) (hwf : ∀ t ∈ toks, t.wf = true) :
    toks.length ≤ (tokensText toks).length := by
  induction toks with
  | nil => exact le_refl _
  | cons t ts ih =>
    have h1 := ih (fun u hu => hwf u (by simp [hu]))
    have h2 : 0 < t.text.length :=
      List.length_pos.mpr (t.text_ne_nil (hwf t (by simp)))
    simp only [tokensText, List.length_cons, List.length_append]
    omega

/-- When the loop of `ParseUnitNum` succeeds, the text it has read is a sequence of
well-formed tokens, each maximal in front of the next, all accepted, and the result
is the start value plus the sum of their values, without wrap-around. -/
theorem parseLoop_ok_tokens (orig : Str) (unitMap : UnitMap) (defaultUnit : Str)
    (hint : unitMap.int64) :
    ∀ (fuel : Nat) (s : Str) (acc v : Int), 0 ≤ acc → acc ≤ MaxInt64 →
      parseLoop orig unitMap defaultUnit fuel s acc = some (.ok v) →
      ∃ toks : List Token, s = tokensText toks ∧ (∀ t ∈ toks, t.wf = true)
        ∧ separated toks [] = true ∧ accepted unitMap defaultUnit toks = true
        ∧ v = acc + f64Sum unitMap defaultUnit toks ∧ v ≤ MaxInt64 := by
  intro fuel
  induction fuel with
  | zero =>
    intro s acc v _ _ h
    rw [parseLoop] at h
    cases h
  | succ fuel ih =>
    intro s acc v hacc0 hacc h
    by_cases hs : s = []
    · subst hs
      rw [parseLoop, if_pos rfl] at h
      cases h
      exact ⟨[], rfl, by simp, rfl, rfl, by simp [f64Sum], hacc⟩
    · obtain ⟨t, rest, hst, hshape, hsep⟩ := exists_token s
      subst hst
      by_cases hnum : t.number = []
      · rw [parseLoop, if_neg hs, NumWithUnit_no_number t rest hshape hsep hnum] at h
        cases h
      · have hwf : t.wf = true := by
          simp [Token.wf, hshape, hnum]
        cases hfin : t.nearest.finiteNonneg with
        | false =>
          rw [parseLoop_token_range orig unitMap defaultUnit fuel t rest acc hwf hsep hfin] at h
          cases h
        | true =>
          cases hl : unitMap.lookup (t.effUnit defaultUnit) with
          | none =>
            rw [parseLoop_token_badunit orig unitMap defaultUnit fuel t rest acc hwf hsep
              hfin hl] at h
            cases h
          | some mult =>
            rw [parseLoop_token orig unitMap defaultUnit fuel t rest acc mult hwf hsep
              hfin hl] at h
            obtain ⟨hlo, hhi⟩ := lookup_int64 hint hl
            by_cases hbig : tooBig t.nearest mult = true
            · rw [if_pos hbig] at h
              cases h
            · have hbig' : tooBig t.nearest mult = false := by simpa using hbig
              obtain ⟨_, w, hw, hconv, hw0, hw63⟩ :=
                accepted_value t mult hfin hbig' hlo hhi
              have hmax : MaxInt64 = 2 ^ 63 - 1 := rfl
              rw [if_neg hbig, hconv, wrap64_id (MaxInt64 - acc) (by omega) (by omega)] at h
              by_cases hov : MaxInt64 - acc < w
              · rw [if_pos hov] at h
                cases h
              · rw [if_neg hov, wrap64_id (acc + w) (by omega) (by omega)] at h
                obtain ⟨toks, h1, h2, h3, h4, h5, h6⟩ :=
                  ih rest (acc + w) v (by omega) (by omega) h
                refine ⟨t :: toks, ?_, ?_, ?_, ?_, ?_, h6⟩
                · rw [h1]; rfl
                · intro u hu
                  rcases List.mem_cons.mp hu with rfl | hu
                  · exact hwf
                  · exact h2 u hu
                · simp only [separated, Bool.and_eq_true, List.append_nil]
                  exact ⟨by rw [← h1]; exact hsep, h3⟩
                · simp [accepted, hl, hfin, hbig', h4]
                · simp only [f64Sum, hl, Option.some_bind, hw, Option.getD_some]
                  omega

/-- The product of the double zero and any double truncates to zero, when it has a
truncation. -/
theorem mul_zero_trunc (x : F64) : ((F64.mul (.fin 0 0) x).trunc?).getD 0 = 0 := by
  cases x with
  | fin m e => simp [F64.mul, roundNE, F64.trunc?]
  | inf n => simp [F64.mul, F64.trunc?]
  | nan => simp [F64.mul, F64.trunc?]

/-- The only sequence of well-formed tokens with the text `0` is the single token `0`,
and its value is zero whatever the table. -/
theorem f64Sum_zero_text (unitMap : UnitMap) (defaultUnit : Str) (toks : List Token)
    (hwf : ∀ t ∈ toks, t.wf = true) (h : tokensText toks = "0".toList) :
    f64Sum unitMap defaultUnit toks = 0 := by
  cases toks with
  | nil => rfl
  | cons t ts =>
    have hwft : t.wf = true := hwf t (by simp)
    have hts := tokens_length_le ts (fun u hu => hwf u (by simp [hu]))
    have hlen := congrArg List.length h
    have htpos : 0 < t.text.length := List.length_pos.mpr (t.text_ne_nil hwft)
    simp only [tokensText, List.length_append] at hlen
    have hl1 : ("0".toList).length = 1 := rfl
    rw [hl1] at hlen
    have hts0 : ts = [] := List.length_eq_zero.mp (by omega)
    subst hts0
    simp only [tokensText, List.append_nil] at h
    -- the parts of the token
    have hwf2 := hwft
    simp only [Token.wf, Bool.and_eq_true, Bool.not_eq_true', List.isEmpty_eq_false] at hwf2
    obtain ⟨hshape, hnum⟩ := hwf2
    obtain ⟨_, hfrac, _⟩ := (t.shaped_iff).mp hshape
    have hnpos : 0 < t.number.length := List.length_pos.mpr hnum
    have htl : t.text.length = 1 := by rw [h]; rfl
    have htl2 : t.text.length = t.number.length + t.unit.length := by simp [Token.text]
    have hnl : t.number.length = t.intPart.length + t.fracText.length := by simp [Token.number]
    have hfp : t.fracPart = none := by
      cases hf : t.fracPart with
      | none => rfl
      | some f =>
        exfalso
        obtain ⟨hfne, _⟩ := hfrac f hf
        have : 0 < f.length := List.length_pos.mpr hfne
        have hft : t.fracText.length = f.length + 1 := by simp [Token.fracText, hf]
        omega
    have hft : t.fracText = [] := by simp [Token.fracText, hfp]
    have hunit : t.unit = [] := List.length_eq_zero.mp (by omega)
    have hip : t.intPart = "0".toList := by
      rw [← h]
      simp [Token.text, Token.number, hft, hunit]
    have hmant : t.mantissa = 0 := by
      unfold Token.mantissa
      rw [hfp, hip]
      decide
    have hnear : t.nearest = .fin 0 0 := by
      unfold Token.nearest roundNE
      rw [hmant]
      exact if_pos rfl
    simp only [f64Sum, add_zero]
    cases unitMap.lookup (t.effUnit defaultUnit) with
    | none => rfl
    | some mult =>
      simp only [Option.some_bind, Token.f64Value, hnear]
      exact mul_zero_trunc _

/-! ## The quantity parser: results -/

/-- The multipliers of `sizeMap` are `int64`. -/
theorem sizeMap_int64 : sizeMap.int64 := by
  intro e he
  simp only [sizeMap, List.mem_cons, List.mem_singleton, List.not_mem_nil, or_false] at he
  rcases he with h | h | h | h | h | h | h | h <;> subst h <;> constructor <;> norm_num

/-- C1 as stated fails: `9007199254740993b` is one token whose product
`2 ^ 53 + 1` is far below `2 ^ 63`, and `ParseUnitNum` returns `2 ^ 53`, not the
exact truncated product. -/
theorem ParseUnitNum_rounds_number :
    tokensText oddToken = "9007199254740993b".toList
    ∧ exactSum sizeMap "b".toList oddToken = 9007199254740993
    ∧ ParseUnitNum "9007199254740993b".toList sizeMap "b".toList
        = some (.ok 9007199254740992) := by
  decide!

/-- C1, amended: for every input made of well-formed tokens `<number><unit>`, each
maximal in front of the next, whose units (or the default unit) are keys of the
table, whose numbers round to finite doubles that pass the float64 guard
`n >= MaxInt64/float64(unit)`, and whose values add up to at most `2 ^ 63 - 1`,
`ParseUnitNum` succeeds and returns the sum over the tokens of the truncated float64
product of the double nearest to the number and the double of the multiplier. -/
theorem ParseUnitNum_tokens (unitMap : UnitMap) (defaultUnit : Str) (toks : List Token)
    (hint : unitMap.int64) (hwf : ∀ t ∈ toks, t.wf = true)
    (hsep : separated toks [] = true) (hacc : accepted unitMap defaultUnit toks = true)
    (hsum : f64Sum unitMap defaultUnit toks ≤ MaxInt64) :
    ParseUnitNum (tokensText toks) unitMap defaultUnit
      = some (.ok (f64Sum unitMap defaultUnit toks)) := by
  unfold ParseUnitNum
  by_cases h0 : tokensText toks = "0".toList
  · rw [if_pos h0, f64Sum_zero_text unitMap defaultUnit toks hwf h0]
  · rw [if_neg h0]
    have hlen := tokens_length_le toks hwf
    obtain ⟨fuel, hfuel⟩ : ∃ fuel, (tokensText toks).length + 1 = toks.length + (fuel + 1) :=
      ⟨(tokensText toks).length - toks.length, by omega⟩
    have hrec := recognized_of_accepted unitMap defaultUnit toks hacc
    have hmax : (0 : Int) ≤ MaxInt64 := by decide
    rcases parseLoop_tokens (tokensText toks) unitMap defaultUnit hint toks (fuel + 1) [] 0
        hwf hsep hrec (le_refl _) hmax with ⟨_, _, h3⟩ | ⟨h1, _⟩
    · rw [List.append_nil] at h3
      rw [hfuel, h3, parseLoop, if_pos rfl, zero_add]
    · exfalso
      rcases h1 with h1 | h1
      · rw [hacc] at h1; cases h1
      · omega

/-- C1 amended, on the example of the specification:
`2m512.15k100b` with `sizeMap` gives `2621693`. -/
theorem ParseUnitNum_tokens_witness :
    sizeMap.int64 ∧ (∀ t ∈ sizeTokens, t.wf = true) ∧ separated sizeTokens [] = true
    ∧ accepted sizeMap "b".toList sizeTokens = true
    ∧ f64Sum sizeMap "b".toList sizeTokens ≤ MaxInt64
    ∧ tokensText sizeTokens = "2m512.15k100b".toList
    ∧ f64Sum sizeMap "b".toList sizeTokens = 2 * 1024 * 1024 + 524441 + 100
    ∧ ParseUnitNum (tokensText sizeTokens) sizeMap "b".toList
        = some (.ok (f64Sum sizeMap "b".toList sizeTokens)) :=
  ⟨sizeMap_int64, by decide, by decide, by decide!, by decide!, by decide, by decide!,
    ParseUnitNum_tokens sizeMap "b".toList sizeTokens sizeMap_int64 (by decide) (by decide)
      (by decide!) (by decide!)⟩

/-- C2 as stated fails: the exact values of the tokens of `9223372036854775295b1000b`
add up to more than `2 ^ 63 - 1`, and `ParseUnitNum` succeeds, with a result that is
not that sum (the first number is rounded down to the double `2 ^ 63 - 1024`). -/
theorem ParseUnitNum_succeeds_beyond_exact_sum :
    tokensText nearMaxTokens = "9223372036854775295b1000b".toList
    ∧ exactSum sizeMap "b".toList nearMaxTokens = 9223372036854776295
    ∧ MaxInt64 < exactSum sizeMap "b".toList nearMaxTokens
    ∧ ParseUnitNum "9223372036854775295b1000b".toList sizeMap "b".toList
        = some (.ok 9223372036854775784) := by
  decide!

/-- C2, amended: whenever `ParseUnitNum` succeeds, the result is between `0` and
`2 ^ 63 - 1` and, unless the input is the literal `0`, it is the unbounded sum of the
float64 values of the tokens of the input, all of which pass the guard; and for an
input other than `0` made of tokens that get as far as the guard, if a token does
not pass the guard or the unbounded sum of the values exceeds `2 ^ 63 - 1`, the
parse fails with "Number is too big" or "Numeric overflow". -/
theorem ParseUnitNum_no_wrap (s : Str) (unitMap : UnitMap) (defaultUnit : Str)
    (hint : unitMap.int64) :
    (∀ v, ParseUnitNum s unitMap defaultUnit = some (.ok v) →
      0 ≤ v ∧ v ≤ MaxInt64
      ∧ ((s = "0".toList ∧ v = 0)
        ∨ ∃ toks : List Token, s = tokensText toks ∧ (∀ t ∈ toks, t.wf = true)
            ∧ separated toks [] = true ∧ accepted unitMap defaultUnit toks = true
            ∧ v = f64Sum unitMap defaultUnit toks))
    ∧ (∀ toks : List Token, s = tokensText toks → s ≠ "0".toList →
        (∀ t ∈ toks, t.wf = true) → separated toks [] = true →
        recognized unitMap defaultUnit toks = true →
        (accepted unitMap defaultUnit toks = false
          ∨ MaxInt64 < f64Sum unitMap defaultUnit toks) →
        ∃ (s' msg : Str),
          (msg = "Number is too big".toList ∨ msg = "Numeric overflow".toList)
          ∧ ParseUnitNum s unitMap defaultUnit
              = some (.error (UnitNumParserError s' s msg 0))) := by
  have hmax : (0 : Int) ≤ MaxInt64 := by decide
  constructor
  · intro v h
    unfold ParseUnitNum at h
    by_cases h0 : s = "0".toList
    · rw [if_pos h0] at h
      cases h
      exact ⟨le_refl _, hmax, Or.inl ⟨h0, rfl⟩⟩
    · rw [if_neg h0] at h
      obtain ⟨toks, h1, h2, h3, h4, h5, h6⟩ :=
        parseLoop_ok_tokens s unitMap defaultUnit hint _ s 0 v (le_refl _) hmax h
      rw [zero_add] at h5
      have := f64Sum_nonneg unitMap defaultUnit hint toks h4
      exact ⟨by omega, h6, Or.inr ⟨toks, h1, h2, h3, h4, h5⟩⟩
  · intro toks hs h0 hwf hsep hrec hbad
    unfold ParseUnitNum
    rw [if_neg h0]
    have hlen := tokens_length_le toks hwf
    obtain ⟨fuel, hfuel⟩ : ∃ fuel, s.length + 1 = toks.length + (fuel + 1) :=
      ⟨s.length - toks.length, by rw [hs]; omega⟩
    rcases parseLoop_tokens s unitMap defaultUnit hint toks (fuel + 1) [] 0
        hwf hsep hrec (le_refl _) hmax with ⟨h1, h2, _⟩ | ⟨_, s', msg, hmsg, h3⟩
    · exfalso
      rcases hbad with hbad | hbad
      · rw [h1] at hbad; cases hbad
      · omega
    · rw [List.append_nil, ← hs] at h3
      exact ⟨s', msg, hmsg, by rw [hfuel]; exact h3⟩

/-- C2 amended, on `9223372036854775000b2000b`: the values `2 ^ 63 - 1024` and `2000`
add up to more than `2 ^ 63 - 1` and the parse fails with one of the two errors. -/
theorem ParseUnitNum_no_wrap_witness :
    sizeMap.int64
    ∧ MaxInt64 < f64Sum sizeMap "b".toList overMaxTokens
    ∧ ∃ (s' msg : Str),
        (msg = "Number is too big".toList ∨ msg = "Numeric overflow".toList)
        ∧ ParseUnitNum "9223372036854775000b2000b".toList sizeMap "b".toList
            = some (.error (UnitNumParserError s' "9223372036854775000b2000b".toList msg 0)) :=
  ⟨sizeMap_int64, by decide!,
    (ParseUnitNum_no_wrap "9223372036854775000b2000b".toList sizeMap "b".toList
      sizeMap_int64).2 overMaxTokens (by decide) (by decide) (by decide) (by decide)
      (by decide!) (Or.inr (by decide!))⟩

/-- The loop of `ParseUnitNum` behind a sequence of accepted tokens whose values fit. -/
theorem parseLoop_accepted (orig : Str) (unitMap : UnitMap) (defaultUnit : Str)
    (hint : unitMap.int64) (toks : List Token) (fuel : Nat) (rest : Str)
    (hwf : ∀ t ∈ toks, t.wf = true) (hsep : separated toks rest = true)
    (hacc : accepted unitMap defaultUnit toks = true)
    (hsum : f64Sum unitMap defaultUnit toks ≤ MaxInt64) :
    parseLoop orig unitMap defaultUnit (toks.length + fuel) (tokensText toks ++ rest) 0
      = parseLoop orig unitMap defaultUnit fuel rest (f64Sum unitMap defaultUnit toks) := by
  have hmax : (0 : Int) ≤ MaxInt64 := by decide
  rcases parseLoop_tokens orig unitMap defaultUnit hint toks fuel rest 0 hwf hsep
      (recognized_of_accepted unitMap defaultUnit toks hacc) (le_refl _) hmax with
    ⟨_, _, h3⟩ | ⟨h1, _⟩
  · rw [h3, zero_add]
  · exfalso
    rcases h1 with h1 | h1
    · rw [hacc] at h1; cases h1
    · omega

/-- C9 as stated fails: in `hugeInput` the only token carries the unit `x`, which is
not a key of `sizeMap`, and the error is "Cannot convert number", with no leading
space, not "Bad unit" with 310 leading spaces: the number is converted, and its
range checked, before the unit is looked up. -/
theorem ParseUnitNum_range_error_before_bad_unit :
    sizeMap.lookup "x".toList = none
    ∧ ParseUnitNum hugeInput sizeMap "b".toList
        = some (.error (UnitNumParserError hugeInput hugeInput
            "Cannot convert number".toList 0))
    ∧ ParseUnitNum hugeInput sizeMap "b".toList
        ≠ some (.error (UnitNumParserError ['x'] hugeInput (badUnitMessage sizeMap) 0)) := by
  decide!

/-- C9, amended: when the input is a sequence of accepted tokens followed by a token
whose number rounds to a finite double and whose unit is not a key of the table,
`ParseUnitNum` fails with the "Bad unit" error, and the caret line has as many
leading spaces as there are characters before the unit: those of the tokens consumed
and those of the number of the faulty token. -/
theorem ParseUnitNum_bad_unit (unitMap : UnitMap) (defaultUnit : Str) (toks : List Token)
    (bad : Token) (rest : Str) (hint : unitMap.int64) (hwf : ∀ t ∈ toks, t.wf = true)
    (hsep : separated toks (bad.text ++ rest) = true)
    (hacc : accepted unitMap defaultUnit toks = true)
    (hsum : f64Sum unitMap defaultUnit toks ≤ MaxInt64)
    (hbwf : bad.wf = true) (hbsep : bad.sepOK rest = true) (hbunit : bad.unit ≠ [])
    (hblook : unitMap.lookup bad.unit = none) (hbfin : bad.nearest.finiteNonneg = true) :
    ParseUnitNum (tokensText toks ++ (bad.text ++ rest)) unitMap defaultUnit
      = some (.error (badUnitMessage unitMap ++ "\n".toList
          ++ (tokensText toks ++ (bad.text ++ rest)) ++ "\n".toList
          ++ List.replicate ((tokensText toks).length + bad.number.length) ' '
          ++ "^\n".toList)) := by
  have hnpos : 0 < bad.number.length := by
    simp only [Token.wf, Bool.and_eq_true, Bool.not_eq_true', List.isEmpty_eq_false] at hbwf
    exact List.length_pos.mpr hbwf.2
  have hupos : 0 < bad.unit.length := List.length_pos.mpr hbunit
  have hblen : bad.text.length = bad.number.length + bad.unit.length := by
    simp [Token.text]
  have hlen := tokens_length_le toks hwf
  have h0 : tokensText toks ++ (bad.text ++ rest) ≠ "0".toList := by
    intro h
    have := congrArg List.length h
    simp only [List.length_append] at this
    have h1 : ("0".toList).length = 1 := rfl
    omega
  unfold ParseUnitNum
  rw [if_neg h0]
  obtain ⟨fuel, hfuel⟩ : ∃ fuel, (tokensText toks ++ (bad.text ++ rest)).length + 1
      = toks.length + (fuel + 1) :=
    ⟨(tokensText toks ++ (bad.text ++ rest)).length - toks.length, by
      simp only [List.length_append]; omega⟩
  rw [hfuel, parseLoop_accepted _ unitMap defaultUnit hint toks (fuel + 1) (bad.text ++ rest)
    hwf hsep hacc hsum]
  have heff : bad.effUnit defaultUnit = bad.unit := by simp [Token.effUnit, hbunit]
  rw [parseLoop_token_badunit _ unitMap defaultUnit fuel bad rest _ hbwf hbsep hbfin
    (by rw [heff]; exact hblook)]
  have hspaces : (((tokensText toks ++ (bad.text ++ rest)).length : Int)
      - ((bad.text ++ rest).length : Int) + (bad.number.length : Int)).toNat
      = (tokensText toks).length + bad.number.length := by
    simp only [List.length_append, Nat.cast_add]
    omega
  unfold UnitNumParserError
  rw [hspaces]

/-- C9 amended, on the example of the specification: for `5x` with `sizeMap` the
caret is under the `x`, after one space. -/
theorem ParseUnitNum_bad_unit_witness :
    sizeMap.int64 ∧ sizeMap.lookup "x".toList = none
    ∧ ParseUnitNum "5x".toList sizeMap "b".toList
      = some (.error "Bad unit: only [b B k K m M g G] allowed\n5x\n ^\n".toList) :=
  ⟨sizeMap_int64, by decide,
    ParseUnitNum_bad_unit sizeMap "b".toList [] ⟨"5".toList, none, "x".toList⟩ []
      sizeMap_int64 (by decide) (by decide) (by decide) (by decide) (by decide) (by decide)
      (by decide) (by decide) (by decide!)⟩

/-- C10 (what the code does instead): when, behind a sequence of accepted tokens, the
input goes on with a character that is neither a digit, a dot nor a letter,
`ParseUnitNum` fails with the "Number expected" error, the caret under that
character; "Unexpected character" is not reported. -/
theorem ParseUnitNum_stray_character (unitMap : UnitMap) (defaultUnit : Str)
    (toks : List Token) (c : Char) (rest : Str) (hint : unitMap.int64)
    (hwf : ∀ t ∈ toks, t.wf = true) (hsep : separated toks (c :: rest) = true)
    (hacc : accepted unitMap defaultUnit toks = true)
    (hsum : f64Sum unitMap defaultUnit toks ≤ MaxInt64)
    (hd : isDigit c = false) (hl : isLetter c = false) (hdot : c ≠ '.') :
    ParseUnitNum (tokensText toks ++ c :: rest) unitMap defaultUnit
      = some (.error ("Number expected".toList ++ "\n".toList
          ++ (tokensText toks ++ c :: rest) ++ "\n".toList
          ++ List.replicate (tokensText toks).length ' ' ++ "^\n".toList)) := by
  have hlen := tokens_length_le toks hwf
  have h0 : tokensText toks ++ c :: rest ≠ "0".toList := by
    intro h
    cases htoks : tokensText toks with
    | nil =>
      rw [htoks] at h
      simp only [List.nil_append] at h
      have hc : c = '0' := (List.cons.inj h).1
      rw [hc] at hd
      exact absurd hd (by decide)
    | cons a r =>
      have := congrArg List.length h
      rw [htoks] at this
      simp only [List.length_append, List.length_cons] at this
      have h1 : ("0".toList).length = 1 := rfl
      omega
  unfold ParseUnitNum
  rw [if_neg h0]
  obtain ⟨fuel, hfuel⟩ : ∃ fuel, (tokensText toks ++ c :: rest).length + 1
      = toks.length + (fuel + 1) :=
    ⟨(tokensText toks ++ c :: rest).length - toks.length, by
      simp only [List.length_append, List.length_cons]; omega⟩
  rw [hfuel, parseLoop_accepted _ unitMap defaultUnit hint toks (fuel + 1) (c :: rest)
    hwf hsep hacc hsum]
  -- the scanner finds the empty token in front of the stray character
  have hempty : NumWithUnit (c :: rest) = .error "Number expected".toList := by
    have hsepE : (⟨[], none, []⟩ : Token).sepOK (c :: rest) = true := by
      simp [Token.sepOK, hd, hl, hdot]
    exact NumWithUnit_no_number ⟨[], none, []⟩ (c :: rest) (by decide) hsepE rfl
  rw [parseLoop, if_neg (List.cons_ne_nil c rest), hempty]
  have hspaces : (((tokensText toks ++ c :: rest).length : Int)
      - ((c :: rest).length : Int) + ((0 : Nat) : Int)).toNat = (tokensText toks).length := by
    simp only [List.length_append, Nat.cast_add]
    omega
  simp only []
  unfold UnitNumParserError
  rw [hspaces]

/-- C10, on the inputs of the claim: `5k 3b` stops at the blank with "Number
expected". -/
theorem ParseUnitNum_stray_character_witness :
    sizeMap.int64 ∧ isDigit ' ' = false ∧ isLetter ' ' = false
    ∧ ParseUnitNum "5k 3b".toList sizeMap "b".toList
      = some (.error "Number expected\n5k 3b\n  ^\n".toList) :=
  ⟨sizeMap_int64, by decide, by decide,
    ParseUnitNum_stray_character sizeMap "b".toList [⟨"5".toList, none, "k".toList⟩] ' '
      "3b".toList sizeMap_int64 (by decide) (by decide) (by decide!) (by decide!)
      (by decide) (by decide) (by decide)⟩

/-- The input `#5` of C10: "Number expected", the caret under the `#`. -/
theorem ParseUnitNum_hash_five :
    ParseUnitNum "#5".toList sizeMap "b".toList
      = some (.error "Number expected\n#5\n^\n".toList) := by
  decide!

/-! ## The quantity parser: the literal zero, the sign of the result, termination -/

/-- C12: for every unit table, the empty one included, and every default unit, a key
of the table or not, `ParseUnitNum("0", table, defaultUnit)` succeeds with 0. -/
theorem ParseUnitNum_zero (unitMap : UnitMap) (defaultUnit : Str) :
    ParseUnitNum "0".toList unitMap defaultUnit = some (.ok 0) := by
  unfold ParseUnitNum
  rw [if_pos rfl]

/-- The multipliers of `mixedMap` are `int64`. -/
theorem mixedMap_int64 : mixedMap.int64 := by
  intro e he
  simp only [mixedMap, List.mem_cons, List.mem_singleton, List.not_mem_nil, or_false] at he
  rcases he with h | h | h <;> subst h <;> constructor <;> norm_num

/-- C13: for every input and every table of `int64` multipliers, zero and negative
ones included, a successful `ParseUnitNum` returns an integer that is not negative. -/
theorem ParseUnitNum_nonneg (s : Str) (unitMap : UnitMap) (defaultUnit : Str) (v : Int)
    (hint : unitMap.int64) (h : ParseUnitNum s unitMap defaultUnit = some (.ok v)) :
    0 ≤ v := by
  unfold ParseUnitNum at h
  by_cases h0 : s = "0".toList
  · rw [if_pos h0] at h
    cases h
    exact le_refl _
  · rw [if_neg h0] at h
    have hmax : (0 : Int) ≤ MaxInt64 := by decide
    obtain ⟨toks, _, _, _, h4, h5, _⟩ :=
      parseLoop_ok_tokens s unitMap defaultUnit hint _ s 0 v (le_refl _) hmax h
    have := f64Sum_nonneg unitMap defaultUnit hint toks h4
    omega

/-- C13, on `3z2b` with a table that holds the multipliers 0, -5 and 1. -/
theorem ParseUnitNum_nonneg_witness :
    mixedMap.int64
    ∧ ParseUnitNum "3z2b".toList mixedMap "b".toList = some (.ok 2)
    ∧ (0 : Int) ≤ 2 :=
  ⟨mixedMap_int64, by decide!,
    ParseUnitNum_nonneg "3z2b".toList mixedMap "b".toList 2 mixedMap_int64 (by decide!)⟩

/-- When `NumWithUnit` succeeds, the match it returns is a well-formed token at the
front of the text: it has at least one character. -/
theorem NumWithUnit_ok_match (s mtch u : Str) (n : F64) (off : Nat)
    (h : NumWithUnit s = .ok (mtch, n, u, off)) :
    ∃ (t : Token) (rest : Str), s = t.text ++ rest ∧ t.wf = true ∧ mtch = t.text := by
  obtain ⟨t, rest, hs, hshape, hsep⟩ := exists_token s
  subst hs
  by_cases hnum : t.number = []
  · rw [NumWithUnit_no_number t rest hshape hsep hnum] at h
    cases h
  · have hwf : t.wf = true := by simp [Token.wf, hshape, hnum]
    cases hfin : t.nearest.finiteNonneg with
    | false =>
      rw [NumWithUnit_token_range t rest hwf hsep hfin] at h
      cases h
    | true =>
      rw [NumWithUnit_token t rest hwf hsep hfin] at h
      cases h
      exact ⟨t, rest, rfl, hwf, rfl⟩

/-- The loop of `ParseUnitNum` does not run out of fuel when it starts with more
fuel than the text has characters. -/
theorem parseLoop_some (orig : Str) (unitMap : UnitMap) (defaultUnit : Str) :
    ∀ (fuel : Nat) (s : Str) (acc : Int), s.length < fuel →
      ∃ r, parseLoop orig unitMap defaultUnit fuel s acc = some r := by
  intro fuel
  induction fuel with
  | zero => intro s acc h; omega
  | succ fuel ih =>
    intro s acc hlen
    rw [parseLoop]
    by_cases hs : s = []
    · rw [if_pos hs]
      exact ⟨_, rfl⟩
    · rw [if_neg hs]
      cases hnw : NumWithUnit s with
      | error msg => exact ⟨_, rfl⟩
      | ok res =>
        obtain ⟨mtch, n, u, off⟩ := res
        obtain ⟨t, rest, hst, hwf, hm⟩ := NumWithUnit_ok_match s mtch u n off hnw
        simp only []
        cases unitMap.lookup (if u = [] then defaultUnit else u) with
        | none => exact ⟨_, rfl⟩
        | some unit =>
          simp only []
          split
          · exact ⟨_, rfl⟩
          · split
            · exact ⟨_, rfl⟩
            · apply ih
              have hpos : 0 < t.text.length := List.length_pos.mpr (t.text_ne_nil hwf)
              rw [hm, hst, List.drop_left]
              rw [hst, List.length_append] at hlen
              omega

/-- C19: `ParseUnitNum` terminates on every input and every unit table (the loop
never uses up one iteration per character of the input and one more), and every
iteration in which `NumWithUnit` succeeds consumes a match of at least one
character, so that the remaining text is strictly shorter. -/
theorem ParseUnitNum_terminates (s : Str) (unitMap : UnitMap) (defaultUnit : Str) :
    (∃ r, ParseUnitNum s unitMap defaultUnit = some r)
    ∧ (∀ (mtch u : Str) (n : F64) (off : Nat), NumWithUnit s = .ok (mtch, n, u, off) →
        1 ≤ mtch.length ∧ (s.drop mtch.length).length < s.length) := by
  constructor
  · unfold ParseUnitNum
    by_cases h0 : s = "0".toList
    · rw [if_pos h0]
      exact ⟨_, rfl⟩
    · rw [if_neg h0]
      exact parseLoop_some s unitMap defaultUnit (s.length + 1) s 0 (Nat.lt_succ_self _)
  · intro mtch u n off h
    obtain ⟨t, rest, hst, hwf, hm⟩ := NumWithUnit_ok_match s mtch u n off h
    have hpos : 0 < t.text.length := List.length_pos.mpr (t.text_ne_nil hwf)
    rw [hm, hst, List.drop_left, List.length_append]
    omega

/-- C19, on `5k3b`: the first iteration consumes the two characters of `5k`. -/
theorem ParseUnitNum_terminates_witness :
    NumWithUnit "5k3b".toList = .ok ("5k".toList, .fin 5629499534213120 (-50), "k".toList, 1)
    ∧ 1 ≤ ("5k".toList).length
    ∧ (("5k3b".toList).drop ("5k".toList).length).length < ("5k3b".toList).length :=
  ⟨by decide!,
    (ParseUnitNum_terminates "5k3b".toList sizeMap "b".toList).2 "5k".toList "k".toList
      (.fin 5629499534213120 (-50)) 1 (by decide!)⟩

/-! ## The engine: closing, writing, first free name -/

/-- C15: `Close` is idempotent.  A first `Close` leaves the engine without handle and
every other field as it was, and logs one close when there was a handle; a second
`Close` changes neither the engine nor the world: it closes no handle. -/
theorem Close_idempotent (ro : rotateOut) (w : World) :
    (ro.Close w).1 = { ro with outFile := none }
    ∧ (ro.Close w).2.log
        = (match ro.outFile with
           | some f => Effect.closed f :: w.log
           | none => w.log)
    ∧ (ro.Close w).1.Close (ro.Close w).2 = ro.Close w := by
  unfold Close
  cases hf : ro.outFile with
  | none =>
    refine ⟨?_, rfl, ?_⟩
    · cases ro
      simp only at hf
      simp [hf]
    · simp [hf]
  | some f => exact ⟨rfl, rfl, rfl⟩

/-- C16 (the code at a failing input): with a world in which the write fails, `Run`
on one chunk of three bytes returns normally, the three bytes are counted in
`bytesWritten`, and the output file is empty: the failure of the write is dropped. -/
theorem Run_ignores_failed_write :
    fullDiskWorld.writeFails 0 = true
    ∧ ((baseEngine 0 0 none).Run fullDiskWorld [.data [1, 2, 3]]).value? = some ()
    ∧ ((baseEngine 0 0 none).Run fullDiskWorld [.data [1, 2, 3]]).engine.rotation.map
        rotation.bytesWritten = some 3
    ∧ ((baseEngine 0 0 none).Run fullDiskWorld [.data [1, 2, 3]]).world.files
        "base.log".toList = some []
    ∧ ((baseEngine 0 0 none).Run fullDiskWorld [.data [1, 2, 3]]).world.log
        = [.closed "base.log".toList, .wrote "base.log".toList [1, 2, 3] false,
           .opened "base.log".toList] := by
  decide!

/-- The loop of `NextRotateFilename` returns the first candidate that does not exist,
when `os.Stat` fails on no candidate and one of `c0, ..., c9998` does not exist. -/
theorem nextLoop_least (ro : rotateOut) (w : World) (tp sep : Str)
    (hnf : ∀ k, w.stat (ro.candidate tp sep k) ≠ .failed)
    (hex : ∃ k, k ≤ 9998 ∧ w.stat (ro.candidate tp sep k) = .notExist) :
    ∃ j, j ≤ 9998
      ∧ nextLoop ro w tp sep 9999 1 (ro.candidate tp sep 0) = .ok (ro.candidate tp sep j)
      ∧ w.stat (ro.candidate tp sep j) = .notExist
      ∧ ∀ k, k < j → w.stat (ro.candidate tp sep k) = .found := by
  classical
  have hex2 : ∃ k, w.stat (ro.candidate tp sep k) = .notExist := by
    obtain ⟨k, _, hk⟩ := hex
    exact ⟨k, hk⟩
  have hj := Nat.find_spec hex2
  have hmin : ∀ k, k < Nat.find hex2 → w.stat (ro.candidate tp sep k) = .found := by
    intro k hk
    have h1 := Nat.find_min hex2 hk
    have h2 := hnf k
    cases hst : w.stat (ro.candidate tp sep k) with
    | found => rfl
    | notExist => exact absurd hst h1
    | failed => exact absurd hst h2
  have hle : Nat.find hex2 ≤ 9998 := by
    obtain ⟨k, hk1, hk2⟩ := hex
    exact le_trans (Nat.find_min' hex2 hk2) hk1
  refine ⟨Nat.find hex2, hle, ?_, hj, hmin⟩
  exact nextLoop_first_free ro w tp sep 9999 0 (Nat.find hex2) (Nat.zero_le _) (by omega)
    (fun k _ hk => hmin k hk) hj

/-- What `os.Stat` reports on a world in which it never fails. -/
theorem stat_of_no_failure (w : World) (hstat : ∀ p, w.statFails p = false) (p : Str) :
    (w.stat p = .notExist ↔ w.files p = none)
    ∧ (w.stat p = .found ↔ (w.files p).isSome = true)
    ∧ w.stat p ≠ .failed := by
  unfold World.stat
  rw [hstat p]
  cases w.files p <;> simp

/-- C18: when `os.Stat` reports no error and at least one of the candidates
`c0, ..., c9998` does not exist, `NextRotateFilename` returns the first candidate
that does not exist: every earlier candidate exists, the returned one does not, and
a numbered candidate is returned only when `c0` exists. -/
theorem NextRotateFilename_first_free (ro : rotateOut) (w : World)
    (hstat : ∀ p, w.statFails p = false)
    (hex : ∃ k, k ≤ 9998 ∧ w.files (ro.candidate (nameParts (ro.formattedNow w).1).1
        (nameParts (ro.formattedNow w).1).2 k) = none) :
    ∃ j, j ≤ 9998
      ∧ ro.NextRotateFilename w
          = .ok (ro.candidate (nameParts (ro.formattedNow w).1).1
              (nameParts (ro.formattedNow w).1).2 j) ro (ro.formattedNow w).2
      ∧ w.files (ro.candidate (nameParts (ro.formattedNow w).1).1
          (nameParts (ro.formattedNow w).1).2 j) = none
      ∧ (∀ k, k < j → (w.files (ro.candidate (nameParts (ro.formattedNow w).1).1
          (nameParts (ro.formattedNow w).1).2 k)).isSome = true)
      ∧ (j ≠ 0 → (w.files (ro.candidate (nameParts (ro.formattedNow w).1).1
          (nameParts (ro.formattedNow w).1).2 0)).isSome = true) := by
  have hnf : ∀ k, (ro.formattedNow w).2.stat (ro.candidate (nameParts (ro.formattedNow w).1).1
      (nameParts (ro.formattedNow w).1).2 k) ≠ .failed := by
    intro k
    rw [formattedNow_stat]
    exact (stat_of_no_failure w hstat _).2.2
  have hex2 : ∃ k, k ≤ 9998 ∧ (ro.formattedNow w).2.stat
      (ro.candidate (nameParts (ro.formattedNow w).1).1
        (nameParts (ro.formattedNow w).1).2 k) = .notExist := by
    obtain ⟨k, hk1, hk2⟩ := hex
    refine ⟨k, hk1, ?_⟩
    rw [formattedNow_stat]
    exact (stat_of_no_failure w hstat _).1.mpr hk2
  obtain ⟨j, hj1, hj2, hj3, hj4⟩ := nextLoop_least ro _ _ _ hnf hex2
  rw [formattedNow_stat] at hj3
  have hearlier : ∀ k, k < j → (w.files (ro.candidate (nameParts (ro.formattedNow w).1).1
      (nameParts (ro.formattedNow w).1).2 k)).isSome = true := by
    intro k hk
    have := hj4 k hk
    rw [formattedNow_stat] at this
    exact (stat_of_no_failure w hstat _).2.1.mp this
  refine ⟨j, hj1, ?_, (stat_of_no_failure w hstat _).1.mp hj3, hearlier,
    fun h0 => hearlier 0 (Nat.pos_of_ne_zero h0)⟩
  rw [NextRotateFilename_eq, hj2]

/-- C18, in the world in which only `base.log` exists: the candidate `base.0001.log`
does not exist, and the name returned is not `base.log`. -/
theorem NextRotateFilename_first_free_witness :
    (∀ p, oneFileWorld.statFails p = false)
    ∧ (∃ k, k ≤ 9998 ∧ oneFileWorld.files ((baseEngine 0 0 none).candidate
        (nameParts ((baseEngine 0 0 none).formattedNow oneFileWorld).1).1
        (nameParts ((baseEngine 0 0 none).formattedNow oneFileWorld).1).2 k) = none)
    ∧ ∃ j, j ≤ 9998
      ∧ (baseEngine 0 0 none).NextRotateFilename oneFileWorld
          = .ok ((baseEngine 0 0 none).candidate
              (nameParts ((baseEngine 0 0 none).formattedNow oneFileWorld).1).1
              (nameParts ((baseEngine 0 0 none).formattedNow oneFileWorld).1).2 j)
              (baseEngine 0 0 none) ((baseEngine 0 0 none).formattedNow oneFileWorld).2
      ∧ oneFileWorld.files ((baseEngine 0 0 none).candidate
          (nameParts ((baseEngine 0 0 none).formattedNow oneFileWorld).1).1
          (nameParts ((baseEngine 0 0 none).formattedNow oneFileWorld).1).2 j) = none
      ∧ (∀ k, k < j → (oneFileWorld.files ((baseEngine 0 0 none).candidate
          (nameParts ((baseEngine 0 0 none).formattedNow oneFileWorld).1).1
          (nameParts ((baseEngine 0 0 none).formattedNow oneFileWorld).1).2 k)).isSome = true)
      ∧ (j ≠ 0 → (oneFileWorld.files ((baseEngine 0 0 none).candidate
          (nameParts ((baseEngine 0 0 none).formattedNow oneFileWorld).1).1
          (nameParts ((baseEngine 0 0 none).formattedNow oneFileWorld).1).2 0)).isSome = true) :=
  ⟨fun _ => rfl, ⟨1, by decide, by decide⟩,
    NextRotateFilename_first_free (baseEngine 0 0 none) oneFileWorld (fun _ => rfl)
      ⟨1, by decide, by decide⟩⟩

/-! ## The engine: epochs -/

/-- A method that returns has the state it leaves as its result. -/
theorem Res.eq_ok_of_value {r : Res Unit} (h : r.value? = some ()) :
    r = .ok () r.engine r.world := by
  cases r with
  | ok a ro w => rfl
  | panic p ro w => cases h

/-- The method `UpdateRotation` reads the clock once and starts an epoch at that
reading with a count of zero. -/
theorem UpdateRotation_eq (ro : rotateOut) (w : World) :
    ro.UpdateRotation w
      = ({ ro with rotation := some { startTime := w.clock w.ticks, bytesWritten := 0 } },
          { w with ticks := w.ticks + 1 }) := rfl

/-- The time part of `NextRotateFilename` reads the clock at most once and changes
nothing else in the world. -/
theorem formattedNow_world (ro : rotateOut) (w : World) :
    (ro.formattedNow w).2 = w ∨ (ro.formattedNow w).2 = { w with ticks := w.ticks + 1 } := by
  unfold formattedNow
  cases ro.timeFormat with
  | none => exact Or.inl rfl
  | some f => exact Or.inr rfl

/-- What a successful `os.Rename` leaves. -/
theorem rename_some {w w3 : World} {src dst : Str} (h : w.rename src dst = some w3) :
    ∃ content, w.files src = some content ∧ w.renameFails src dst = false
      ∧ w3 = { w with
          files := fun p => if p = dst then some content else if p = src then none else w.files p
          log := .renamed src dst :: w.log } := by
  unfold World.rename at h
  cases hf : w.renameFails src dst with
  | true => rw [hf] at h; cases h
  | false =>
    rw [hf] at h
    cases hsrc : w.files src with
    | none => rw [hsrc] at h; cases h
    | some content =>
      rw [hsrc] at h
      simp only [Bool.false_eq_true, if_false, Option.some.injEq] at h
      exact ⟨content, rfl, rfl, h.symm⟩

/-- What a successful `os.OpenFile` leaves. -/
theorem openAppend_some {w w1 : World} {path : Str} (h : w.openAppend path = some w1) :
    w.openFails path = false
      ∧ w1 = { w with
          files := fun p => if p = path then some ((w.files path).getD []) else w.files p
          log := .opened path :: w.log } := by
  unfold World.openAppend at h
  cases hf : w.openFails path with
  | true => rw [hf] at h; cases h
  | false =>
    rw [hf] at h
    simp only [Bool.false_eq_true, if_false, Option.some.injEq] at h
    exact ⟨rfl, h.symm⟩

/-- The method `Close` keeps everything but the handle, and the world but the log. -/
theorem Close_fields (ro : rotateOut) (w : World) :
    (ro.Close w).1 = { ro with outFile := none }
      ∧ (ro.Close w).2.clock = w.clock ∧ (ro.Close w).2.ticks = w.ticks
      ∧ (ro.Close w).2.files = w.files ∧ (ro.Close w).2.statFails = w.statFails
      ∧ (ro.Close w).2.openFails = w.openFails ∧ (ro.Close w).2.renameFails = w.renameFails
      ∧ (ro.Close w).2.writeFails = w.writeFails ∧ (ro.Close w).2.writes = w.writes := by
  unfold Close
  cases h : ro.outFile with
  | none =>
    refine ⟨?_, rfl, rfl, rfl, rfl, rfl, rfl, rfl, rfl⟩
    cases ro
    simp only at h
    simp [h]
  | some f => exact ⟨rfl, rfl, rfl, rfl, rfl, rfl, rfl, rfl, rfl⟩

/-- The method `Rotate` step by step, when the name is found, the rename succeeds
and the new file can be opened. -/
theorem Rotate_steps (ro : rotateOut) (w w2 w3 w5 : World) (dst : Str)
    (hname : (ro.Close w).1.NextRotateFilename (ro.Close w).2 = .ok dst (ro.Close w).1 w2)
    (hren : w2.rename ro.LogFileName dst = some w3)
    (hopen : World.openAppend { w3 with ticks := w3.ticks + 1 } ro.LogFileName = some w5) :
    ro.Rotate w = .ok ()
      { ro with rotation := some { startTime := w3.clock w3.ticks, bytesWritten := 0 },
                outFile := some ro.LogFileName } w5 := by
  have hc := (Close_fields ro w).1
  unfold Rotate
  simp only []
  rw [hname]
  simp only []
  have hn : (ro.Close w).1.LogFileName = ro.LogFileName := by rw [hc]; rfl
  rw [hn, hren]
  simp only [UpdateRotation_eq, OpenLogFile]
  have hn2 : LogFileName { (ro.Close w).1 with
      rotation := some { startTime := w3.clock w3.ticks, bytesWritten := 0 } }
      = ro.LogFileName := by rw [hc]; rfl
  rw [hn2, hopen]
  simp only [hc]

/-- A successful `Rotate` has gone through all its steps. -/
theorem Rotate_ok_steps (ro : rotateOut) (w : World) (h : (ro.Rotate w).value? = some ()) :
    ∃ dst w2 w3 w5,
      (ro.Close w).1.NextRotateFilename (ro.Close w).2 = .ok dst (ro.Close w).1 w2
      ∧ w2 = ((ro.Close w).1.formattedNow (ro.Close w).2).2
      ∧ w2.rename ro.LogFileName dst = some w3
      ∧ World.openAppend { w3 with ticks := w3.ticks + 1 } ro.LogFileName = some w5 := by
  have hc := (Close_fields ro w).1
  have hn : (ro.Close w).1.LogFileName = ro.LogFileName := by rw [hc]; rfl
  revert h
  unfold Rotate
  simp only []
  cases hname : (ro.Close w).1.NextRotateFilename (ro.Close w).2 with
  | panic p ro2 w2 => intro h; cases h
  | ok dst ro2 w2 =>
    have hname2 := hname
    rw [NextRotateFilename_eq] at hname2
    have hro2 : ro2 = (ro.Close w).1 ∧ w2 = ((ro.Close w).1.formattedNow (ro.Close w).2).2 := by
      revert hname2
      cases nextLoop (ro.Close w).1 (((ro.Close w).1).formattedNow (ro.Close w).2).2
        (nameParts (((ro.Close w).1).formattedNow (ro.Close w).2).1).1
        (nameParts (((ro.Close w).1).formattedNow (ro.Close w).2).1).2 9999 1
        ((ro.Close w).1.candidate (nameParts (((ro.Close w).1).formattedNow (ro.Close w).2).1).1
          (nameParts (((ro.Close w).1).formattedNow (ro.Close w).2).1).2 0) with
      | error p => intro h; cases h
      | ok name => intro h; cases h; exact ⟨rfl, rfl⟩
    obtain ⟨hro2, hw2⟩ := hro2
    subst hro2
    simp only []
    rw [hn]
    cases hren : w2.rename ro.LogFileName dst with
    | none => intro h; cases h
    | some w3 =>
      simp only [UpdateRotation_eq, OpenLogFile]
      have hn2 : LogFileName { (ro.Close w).1 with
          rotation := some { startTime := w3.clock w3.ticks, bytesWritten := 0 } }
          = ro.LogFileName := by rw [hc]; rfl
      rw [hn2]
      cases hopen : World.openAppend { w3 with ticks := w3.ticks + 1 } ro.LogFileName with
      | none => intro h; cases h
      | some w5 =>
        intro _
        exact ⟨dst, w2, w3, w5, rfl, hw2, hren, hopen⟩

/-- What a successful `Rotate` leaves: the thresholds are kept, the epoch is new,
with a count of zero and the latest reading of the clock as its start, and the log
has grown by the close of the handle (if there was one), one rename of the active
file, and the opening of the new active file. -/
theorem Rotate_ok (ro : rotateOut) (w : World) (h : (ro.Rotate w).value? = some ()) :
    (ro.Rotate w).engine.maxSize = ro.maxSize
      ∧ (ro.Rotate w).engine.maxTime = ro.maxTime
      ∧ (ro.Rotate w).world.clock = w.clock
      ∧ 0 < (ro.Rotate w).world.ticks
      ∧ (ro.Rotate w).engine.rotation
          = some { startTime := w.clock ((ro.Rotate w).world.ticks - 1), bytesWritten := 0 }
      ∧ ∃ dst, (ro.Rotate w).world.log
          = .opened ro.LogFileName :: .renamed ro.LogFileName dst :: (ro.Close w).2.log := by
  obtain ⟨dst, w2, w3, w5, hname, hw2, hren, hopen⟩ := Rotate_ok_steps ro w h
  rw [Rotate_steps ro w w2 w3 w5 dst hname hren hopen]
  obtain ⟨content, _, _, hw3⟩ := rename_some hren
  obtain ⟨_, hw5⟩ := openAppend_some hopen
  obtain ⟨_, hcl, _⟩ := Close_fields ro w
  have h2 : w2.clock = w.clock ∧ w2.log = (ro.Close w).2.log := by
    rw [hw2]
    rcases formattedNow_world (ro.Close w).1 (ro.Close w).2 with e | e <;> rw [e]
    · exact ⟨hcl, rfl⟩
    · exact ⟨hcl, rfl⟩
  obtain ⟨h2c, h2l⟩ := h2
  subst hw5
  subst hw3
  simp only [Res.engine, Res.world]
  refine ⟨trivial, trivial, h2c, Nat.succ_pos _, ?_, dst, ?_⟩
  · simp [h2c]
  · rw [h2l]

/-- With an epoch, `NeedRotate` leaves the engine as it is and reads the clock at
most once. -/
theorem NeedRotate_state (ro : rotateOut) (w : World) (r : rotation)
    (hr : ro.rotation = some r) :
    (ro.NeedRotate w).2.1 = ro
      ∧ ((ro.NeedRotate w).2.2 = w ∨ (ro.NeedRotate w).2.2 = { w with ticks := w.ticks + 1 }) := by
  unfold NeedRotate
  rw [hr]
  simp only [World.now]
  split
  · split
    · exact ⟨rfl, Or.inr rfl⟩
    · split
      · exact ⟨rfl, Or.inr rfl⟩
      · exact ⟨rfl, Or.inr rfl⟩
  · split
    · exact ⟨rfl, Or.inl rfl⟩
    · exact ⟨rfl, Or.inl rfl⟩

/-- With an epoch whose count is above an enabled size threshold, `NeedRotate`
answers true. -/
theorem NeedRotate_over (ro : rotateOut) (w : World) (r : rotation)
    (hr : ro.rotation = some r) (hsize : 0 < ro.maxSize) (hover : ro.maxSize < r.bytesWritten) :
    (ro.NeedRotate w).1 = true := by
  unfold NeedRotate
  rw [hr]
  simp only [World.now]
  split
  · split
    · rfl
    · rw [if_pos ⟨hsize, hover⟩]
  · rw [if_pos ⟨hsize, hover⟩]

/-- With an epoch whose count is not above the size threshold and whose start is
the time the clock shows, `NeedRotate` answers false. -/
theorem NeedRotate_fresh (ro : rotateOut) (w : World) (r : rotation)
    (hr : ro.rotation = some r) (hcount : r.bytesWritten ≤ ro.maxSize)
    (hnow : (w.clock w.ticks).mono = r.startTime.mono) :
    (ro.NeedRotate w).1 = false := by
  unfold NeedRotate
  rw [hr]
  simp only [World.now, Since, hnow, sub_self]
  split
  · rename_i hT
    rw [if_neg (not_lt.mpr (le_of_lt hT)), if_neg (fun h => absurd h.2 (not_lt.mpr hcount))]
  · rw [if_neg (fun h => absurd h.2 (not_lt.mpr hcount))]

/-- The check, when `NeedRotate` answers false. -/
theorem checkRotate_false (ro : rotateOut) (w : World) (h : (ro.NeedRotate w).1 = false) :
    ro.checkRotate w = .ok () (ro.NeedRotate w).2.1 (ro.NeedRotate w).2.2 := by
  unfold checkRotate
  revert h
  cases ro.NeedRotate w with
  | mk b p =>
    cases p with
    | mk ro1 w1 =>
      intro h
      simp only at h
      subst h
      rfl

/-- The check, when `NeedRotate` answers true. -/
theorem checkRotate_true (ro : rotateOut) (w : World) (h : (ro.NeedRotate w).1 = true) :
    ro.checkRotate w = (ro.NeedRotate w).2.1.Rotate (ro.NeedRotate w).2.2 := by
  unfold checkRotate
  revert h
  cases ro.NeedRotate w with
  | mk b p =>
    cases p with
    | mk ro1 w1 =>
      intro h
      simp only at h
      subst h
      rfl

/-- C14: in every state with `maxSize > 0`, (1) `UpdateRotation` leaves an epoch that
starts at the reading of the clock it takes, with a count of zero, and `NeedRotate`
called while the clock still shows that time answers false; (2) a `Rotate` that
returns leaves an epoch with a count of zero that starts at the latest reading of
the clock, and `NeedRotate` called while the clock still shows that time answers
false; (3) when the count of the epoch is above `maxSize` (as at `maxSize + 1`) the
check calls `Rotate`, and when that returns the log has one more rename, and the
following check, with no write in between and the clock still at the start of the
new epoch, leaves the engine and the log as they are; (4) on an engine without an
epoch `NeedRotate` creates the epoch, at the reading of the clock and with a count
of zero, and answers false. -/
theorem checkRotate_rotates_once (ro : rotateOut) (w : World) (hsize : 0 < ro.maxSize) :
    ((ro.UpdateRotation w).1.rotation
        = some { startTime := w.clock w.ticks, bytesWritten := 0 }
      ∧ (((ro.UpdateRotation w).2.clock (ro.UpdateRotation w).2.ticks).mono
            = (w.clock w.ticks).mono →
          ((ro.UpdateRotation w).1.NeedRotate (ro.UpdateRotation w).2).1 = false))
    ∧ ((ro.Rotate w).value? = some () →
        0 < (ro.Rotate w).world.ticks
        ∧ (ro.Rotate w).engine.rotation
            = some { startTime := w.clock ((ro.Rotate w).world.ticks - 1), bytesWritten := 0 }
        ∧ (((ro.Rotate w).world.clock (ro.Rotate w).world.ticks).mono
              = (w.clock ((ro.Rotate w).world.ticks - 1)).mono →
            ((ro.Rotate w).engine.NeedRotate (ro.Rotate w).world).1 = false))
    ∧ (∀ r, ro.rotation = some r → ro.maxSize < r.bytesWritten →
        (ro.NeedRotate w).1 = true
        ∧ ro.checkRotate w = (ro.NeedRotate w).2.1.Rotate (ro.NeedRotate w).2.2
        ∧ ((ro.checkRotate w).value? = some () →
            ((ro.checkRotate w).world.log.filter Effect.isRename).length
                = (w.log.filter Effect.isRename).length + 1
            ∧ (((ro.checkRotate w).world.clock (ro.checkRotate w).world.ticks).mono
                  = (w.clock ((ro.checkRotate w).world.ticks - 1)).mono →
                ∃ w2, (ro.checkRotate w).engine.checkRotate (ro.checkRotate w).world
                    = .ok () (ro.checkRotate w).engine w2
                  ∧ w2.log = (ro.checkRotate w).world.log
                  ∧ w2.files = (ro.checkRotate w).world.files)))
    ∧ (ro.rotation = none →
        (ro.NeedRotate w).1 = false
        ∧ (ro.NeedRotate w).2.1.rotation
            = some { startTime := w.clock w.ticks, bytesWritten := 0 }) := by
  have hfresh : ∀ (e : rotateOut) (v : World) (t : Time), e.maxSize = ro.maxSize →
      e.rotation = some { startTime := t, bytesWritten := 0 } →
      (v.clock v.ticks).mono = t.mono → (e.NeedRotate v).1 = false := by
    intro e v t he hr hnow
    exact NeedRotate_fresh e v _ hr (by rw [he]; exact le_of_lt hsize) hnow
  refine ⟨⟨rfl, fun hnow => hfresh _ _ _ rfl rfl hnow⟩, ?_, ?_, ?_⟩
  · intro hok
    obtain ⟨h1, _, h3, h4, h5, _⟩ := Rotate_ok ro w hok
    refine ⟨h4, h5, fun hnow => hfresh _ _ _ h1 h5 ?_⟩
    rw [hnow]
  · intro r hr hover
    have htrue := NeedRotate_over ro w r hr hsize hover
    have hcheck := checkRotate_true ro w htrue
    refine ⟨htrue, hcheck, ?_⟩
    obtain ⟨hst1, hst2⟩ := NeedRotate_state ro w r hr
    intro hok
    rw [hcheck] at hok ⊢
    rw [hst1] at hok ⊢
    have hw1 : (ro.NeedRotate w).2.2.clock = w.clock
        ∧ (ro.NeedRotate w).2.2.log = w.log := by
      rcases hst2 with e | e <;> rw [e] <;> exact ⟨rfl, rfl⟩
    generalize (ro.NeedRotate w).2.2 = w1 at hok hw1 ⊢
    obtain ⟨hw1c, hw1l⟩ := hw1
    obtain ⟨h1, _, h3, h4, h5, dst, h6⟩ := Rotate_ok ro w1 hok
    constructor
    · rw [h6]
      simp only [List.filter, Effect.isRename]
      rw [Close_log, hw1l]
      rfl
    · intro hnow
      rw [← hw1c] at hnow
      have hfalse := hfresh _ _ _ h1 h5 hnow
      obtain ⟨hs1, hs2⟩ := NeedRotate_state _ (ro.Rotate w1).world _ h5
      refine ⟨((ro.Rotate w1).engine.NeedRotate (ro.Rotate w1).world).2.2, ?_, ?_⟩
      · rw [checkRotate_false _ _ hfalse, hs1]
      · rcases hs2 with e | e <;> rw [e] <;> exact ⟨rfl, rfl⟩
  · intro hnone
    unfold NeedRotate
    rw [hnone]
    exact ⟨rfl, rfl⟩

/-- C14, on the engine with thresholds 10 bytes and 5 nanoseconds whose epoch has
counted 11 bytes, in the world whose clock stands still: the check rotates, which
adds one rename to a log that had none, and the following check returns without a
new entry in the log. -/
theorem checkRotate_rotates_once_witness :
    0 < overfullEngine.maxSize
    ∧ (overfullEngine.checkRotate frozenWorld).value? = some ()
    ∧ ((overfullEngine.checkRotate frozenWorld).world.log.filter Effect.isRename).length
        = (frozenWorld.log.filter Effect.isRename).length + 1
    ∧ ∃ w2, (overfullEngine.checkRotate frozenWorld).engine.checkRotate
          (overfullEngine.checkRotate frozenWorld).world
        = .ok () (overfullEngine.checkRotate frozenWorld).engine w2
      ∧ w2.log = (overfullEngine.checkRotate frozenWorld).world.log
      ∧ w2.files = (overfullEngine.checkRotate frozenWorld).world.files :=
  have hok : (overfullEngine.checkRotate frozenWorld).value? = some () := by decide!
  have h := ((checkRotate_rotates_once overfullEngine frozenWorld (by decide)).2.2.1
    _ rfl (by decide)).2.2 hok
  ⟨by decide, hok, h.1, h.2 rfl⟩

/-! ## The engine: the count of the bytes of an epoch -/

/-- The 64-bit sum of a wrapped value and a value is the wrapped sum. -/
theorem wrap64_add (x y : Int) : wrap64 (wrap64 x + y) = wrap64 (x + y) := by
  unfold wrap64
  omega

/-- A wrapped value is an `int64`. -/
theorem wrap64_range (x : Int) : -2 ^ 63 ≤ wrap64 x ∧ wrap64 x ≤ MaxInt64 := by
  unfold wrap64 MaxInt64
  omega

/-- What `pump` leaves when there is an epoch: the same epoch, its count grown by
the length of the chunk. -/
theorem pump_count (ro : rotateOut) (w : World) (bytes : List UInt8) (r : rotation)
    (hr : ro.rotation = some r) :
    ∃ w2, ro.pump w bytes
      = .ok () { ro with rotation := some { r with
          bytesWritten := wrap64 (r.bytesWritten + bytes.length) } } w2 := by
  unfold pump
  rw [hr]
  exact ⟨_, rfl⟩

/-- With an epoch and the size threshold enabled, a `NeedRotate` that answers false
has found the count at most at the threshold. -/
theorem NeedRotate_false_count (ro : rotateOut) (w : World) (r : rotation)
    (hr : ro.rotation = some r) (hsize : 0 < ro.maxSize)
    (h : (ro.NeedRotate w).1 = false) : r.bytesWritten ≤ ro.maxSize := by
  by_contra hover
  rw [NeedRotate_over ro w r hr hsize (not_le.mp hover)] at h
  cases h

/-- What the check leaves when it returns, with the size threshold enabled: the
same thresholds, and either the same epoch, with a count at most at the threshold,
or a new epoch with a count of zero. -/
theorem checkRotate_count (ro ro1 : rotateOut) (w w1 : World) (r : rotation)
    (hr : ro.rotation = some r) (hsize : 0 < ro.maxSize)
    (h : ro.checkRotate w = .ok () ro1 w1) :
    ro1.maxSize = ro.maxSize
      ∧ ∃ r1, ro1.rotation = some r1 ∧ (r1 = r ∨ r1.bytesWritten = 0)
        ∧ r1.bytesWritten ≤ ro.maxSize := by
  obtain ⟨hs1, _⟩ := NeedRotate_state ro w r hr
  cases hneed : (ro.NeedRotate w).1 with
  | false =>
    rw [checkRotate_false ro w hneed, hs1] at h
    cases h
    exact ⟨rfl, r, hr, Or.inl rfl, NeedRotate_false_count ro w r hr hsize hneed⟩
  | true =>
    rw [checkRotate_true ro w hneed, hs1] at h
    have hok : (ro.Rotate (ro.NeedRotate w).2.2).value? = some () := by rw [h]; rfl
    obtain ⟨h1, _, _, _, h5, _⟩ := Rotate_ok ro _ hok
    rw [h] at h1 h5
    simp only [Res.engine] at h1 h5
    exact ⟨h1, _, h5, Or.inr rfl, le_of_lt hsize⟩

/-- The read results still to come at the head of the loop are the end of the input. -/
theorem Reaches_suffix {ro0 : rotateOut} {w0 : World} {stdin rest : List ReadResult}
    {ro : rotateOut} {w : World} (h : Reaches ro0 w0 stdin rest ro w) :
    ∃ done, stdin = done ++ rest := by
  induction h with
  | start _ => exact ⟨[], rfl⟩
  | @next bytes rest1 _ _ _ _ _ _ _ _ _ ih =>
    obtain ⟨done, hd⟩ := ih
    exact ⟨done ++ [.data bytes], by rw [hd]; simp⟩

/-- The engine without time threshold and with the largest size threshold, on an
input of full buffers: after `k` reads the count is the wrapped `4096 * k`. -/
theorem Reaches_fullChunks (n : Nat) : ∀ k, k ≤ n →
    ∃ ro w, Reaches (baseEngine MaxInt64 0 none) quietWorld (List.replicate n fullChunk)
        (List.replicate (n - k) fullChunk) ro w
      ∧ ro.maxSize = MaxInt64 ∧ ro.maxTime = 0
      ∧ ∃ t, ro.rotation = some { startTime := t, bytesWritten := wrap64 (4096 * (k : Int)) } := by
  intro k
  induction k with
  | zero =>
    intro _
    exact ⟨_, _, Reaches.start rfl, rfl, rfl, _, rfl⟩
  | succ k ih =>
    intro hk
    obtain ⟨ro, w, hreach, hS, hT, t, hr⟩ := ih (by omega)
    have hrest : List.replicate (n - k) fullChunk
        = .data (List.replicate 4096 0) :: List.replicate (n - (k + 1)) fullChunk := by
      have : n - k = (n - (k + 1)) + 1 := by omega
      rw [this, List.replicate_succ]
      rfl
    rw [hrest] at hreach
    have hneed : (ro.NeedRotate w).1 = false := by
      unfold NeedRotate
      rw [hr]
      simp only [hT, lt_self_iff_false, if_false]
      rw [if_neg]
      intro hh
      have := (wrap64_range (4096 * (k : Int))).2
      rw [hS] at hh
      exact absurd hh.2 (not_lt.mpr this)
    obtain ⟨hs1, hs2⟩ := NeedRotate_state ro w _ hr
    have hcheck := checkRotate_false ro w hneed
    rw [hs1] at hcheck
    obtain ⟨w2, hpump⟩ := pump_count ro (ro.NeedRotate w).2.2 (List.replicate 4096 0) _ hr
    refine ⟨_, _, Reaches.next hreach hcheck hpump, hS, hT, t, ?_⟩
    simp only [List.length_replicate]
    rw [wrap64_add]
    congr 3

/-- C20 (the claim as stated fails): with the largest size threshold, `2 ^ 63 - 1`,
and an input of `2 ^ 51` full buffers, `Run` reaches the head of its loop with a
count of `-2 ^ 63`: the 64-bit count has wrapped. -/
theorem Reaches_negative_count :
    0 < (baseEngine MaxInt64 0 none).maxSize
    ∧ ∃ ro w, Reaches (baseEngine MaxInt64 0 none) quietWorld longInput [] ro w
      ∧ ∃ t, ro.rotation = some { startTime := t, bytesWritten := -2 ^ 63 } := by
  refine ⟨by decide, ?_⟩
  obtain ⟨ro, w, hreach, _, _, t, hr⟩ := Reaches_fullChunks (2 ^ 51) (2 ^ 51) (le_refl _)
  rw [Nat.sub_self] at hreach
  refine ⟨ro, w, hreach, t, ?_⟩
  rw [hr]
  have : wrap64 (4096 * ((2 ^ 51 : Nat) : Int)) = -2 ^ 63 := by
    unfold wrap64
    norm_num
  rw [this]

/-- C20 (amended): with `maxSize > 0`, `maxSize + 4096` still an `int64`, and reads
of at most 4096 bytes, in every state in which `Run` arrives at the head of its
loop the threshold is the initial one and there is an epoch whose count is at
least 0 and at most `maxSize + 4096`; the check that follows, when it returns,
leaves either that epoch, with a count at most `maxSize`, or a new epoch with a
count of zero; and the write that follows adds the length of the chunk to the count
of the epoch left by the check. -/
theorem Reaches_count_bounded (ro0 : rotateOut) (w0 : World) (stdin : List ReadResult)
    (hsize : 0 < ro0.maxSize) (hmax : ro0.maxSize + 4096 ≤ MaxInt64)
    (hbuf : ∀ bytes, ReadResult.data bytes ∈ stdin → bytes.length ≤ 4096)
    (rest : List ReadResult) (ro : rotateOut) (w : World)
    (h : Reaches ro0 w0 stdin rest ro w) :
    ro.maxSize = ro0.maxSize
    ∧ ∃ r, ro.rotation = some r ∧ 0 ≤ r.bytesWritten ∧ r.bytesWritten ≤ ro0.maxSize + 4096
      ∧ ∀ ro1 w1, ro.checkRotate w = .ok () ro1 w1 →
          ∃ r1, ro1.rotation = some r1 ∧ (r1 = r ∨ r1.bytesWritten = 0)
            ∧ 0 ≤ r1.bytesWritten ∧ r1.bytesWritten ≤ ro0.maxSize
            ∧ ∀ bytes rest1, rest = .data bytes :: rest1 →
                ∃ w2, ro1.pump w1 bytes
                  = .ok () { ro1 with rotation := some { r1 with
                      bytesWritten := r1.bytesWritten + bytes.length } } w2 := by
  have hinv : ro.maxSize = ro0.maxSize
      ∧ ∃ r, ro.rotation = some r ∧ 0 ≤ r.bytesWritten
        ∧ r.bytesWritten ≤ ro0.maxSize + 4096 := by
    induction h with
    | start hopen =>
      obtain ⟨_, rfl⟩ := OpenLogFile_ok hopen
      exact ⟨rfl, _, rfl, le_refl _, by show (0 : Int) ≤ ro0.maxSize + 4096; omega⟩
    | @next bytes rest ro ro1 ro2 w w1 w2 hreach hc hp ih =>
      obtain ⟨hS, r, hr, h0, _⟩ := ih
      obtain ⟨hS1, r1, hr1, hcase, hle⟩ := checkRotate_count ro ro1 w w1 r hr (by rw [hS]; exact hsize) hc
      obtain ⟨w2b, hp2⟩ := pump_count ro1 w1 bytes r1 hr1
      rw [hp2] at hp
      cases hp
      have h01 : 0 ≤ r1.bytesWritten := by
        rcases hcase with e | e
        · rw [e]; exact h0
        · rw [e]
      obtain ⟨done, hd⟩ := Reaches_suffix hreach
      have hlen : bytes.length ≤ 4096 := hbuf bytes (by rw [hd]; simp)
      refine ⟨by rw [← hS, ← hS1], _, rfl, ?_⟩
      simp only
      rw [hS] at hle
      unfold MaxInt64 at hmax
      rw [wrap64_id _ (by omega) (by omega)]
      constructor <;> omega
  obtain ⟨hS, r, hr, h0, hle⟩ := hinv
  refine ⟨hS, r, hr, h0, hle, ?_⟩
  intro ro1 w1 hc
  obtain ⟨hS1, r1, hr1, hcase, hle1⟩ := checkRotate_count ro ro1 w w1 r hr (by rw [hS]; exact hsize) hc
  have h01 : 0 ≤ r1.bytesWritten := by
    rcases hcase with e | e
    · rw [e]; exact h0
    · rw [e]
  rw [hS] at hle1
  refine ⟨r1, hr1, hcase, h01, hle1, ?_⟩
  intro bytes rest1 hrest
  obtain ⟨done, hd⟩ := Reaches_suffix h
  have hlen : bytes.length ≤ 4096 := hbuf bytes (by rw [hd, hrest]; simp)
  obtain ⟨w2, hp⟩ := pump_count ro1 w1 bytes r1 hr1
  refine ⟨w2, ?_⟩
  rw [hp]
  unfold MaxInt64 at hmax
  rw [wrap64_id _ (by omega) (by omega)]

/-- The reads of `fiveBytes` fit the buffer. -/
theorem fiveBytes_fit (bytes : List UInt8) (h : ReadResult.data bytes ∈ fiveBytes) :
    bytes.length ≤ 4096 := by
  simp only [fiveBytes, List.mem_cons, ReadResult.data.injEq, List.mem_singleton,
    List.not_mem_nil, or_false] at h
  rcases h with rfl | rfl | rfl <;> decide

/-- C20 (amended), on the engine that rotates above one byte, after the first of the
reads of two, two and one bytes. -/
theorem Reaches_count_bounded_witness :
    0 < (baseEngine 1 0 none).maxSize
    ∧ (baseEngine 1 0 none).maxSize + 4096 ≤ MaxInt64
    ∧ (∀ bytes, ReadResult.data bytes ∈ fiveBytes → bytes.length ≤ 4096)
    ∧ ∃ ro w, Reaches (baseEngine 1 0 none) quietWorld fiveBytes [.data [3, 4], .data [5]] ro w
      ∧ ro.maxSize = (baseEngine 1 0 none).maxSize
      ∧ ∃ r, ro.rotation = some r ∧ 0 ≤ r.bytesWritten
        ∧ r.bytesWritten ≤ (baseEngine 1 0 none).maxSize + 4096
        ∧ ∀ ro1 w1, ro.checkRotate w = .ok () ro1 w1 →
            ∃ r1, ro1.rotation = some r1 ∧ (r1 = r ∨ r1.bytesWritten = 0)
              ∧ 0 ≤ r1.bytesWritten ∧ r1.bytesWritten ≤ (baseEngine 1 0 none).maxSize
              ∧ ∀ bytes rest1, [ReadResult.data [3, 4], .data [5]] = .data bytes :: rest1 →
                  ∃ w2, ro1.pump w1 bytes
                    = .ok () { ro1 with rotation := some { r1 with
                        bytesWritten := r1.bytesWritten + bytes.length } } w2 :=
  have hreach : Reaches (baseEngine 1 0 none) quietWorld fiveBytes [.data [3, 4], .data [5]]
      _ _ := Reaches.next (Reaches.start rfl) rfl rfl
  ⟨by decide, by decide, fiveBytes_fit, _, _, hreach,
    Reaches_count_bounded (baseEngine 1 0 none) quietWorld fiveBytes (by decide) (by decide)
      fiveBytes_fit _ _ _ hreach⟩

/-! ## The engine: the rotated files and the input -/

/-- Rounding a quotient that is at least one half changes it by a factor between
`1 - 2 ^ -53` and `1 + 2 ^ -53`. -/
theorem roundNE_rel (num den : Nat) (hn : 0 < num) (hd : 0 < den)
    (hx : (1 : ℚ) / 2 ≤ (num : ℚ) / den) :
    (num : ℚ) / den * (1 - 1 / 2 ^ 53) ≤ (roundMant num den : ℚ) * 2 ^ (ulpExp num den)
      ∧ (roundMant num den : ℚ) * 2 ^ (ulpExp num den)
          ≤ (num : ℚ) / den * (1 + 1 / 2 ^ 53) := by
  have h2pos : (0 : ℚ) < 2 := by norm_num
  have hE : -1 ≤ ilog2 num den := by
    apply ilog2_ge num den hn hd (-1)
    rw [show (2 : ℚ) ^ (-1 : Int) = 1 / 2 by norm_num]
    exact hx
  obtain ⟨_, hge, _, hqE⟩ := ulpExp_spec num den hn hd
  have h52 := hge (by omega)
  obtain ⟨hm1, hm2⟩ := roundMant_spec num den hd
  have hq : (0 : ℚ) < 2 ^ (ulpExp num den) := zpow_pos h2pos _
  have hxy : (num : ℚ) / den = (num : ℚ) / den / 2 ^ (ulpExp num den) * 2 ^ (ulpExp num den) := by
    rw [div_mul_cancel₀ _ (ne_of_gt hq)]
  generalize (num : ℚ) / den / 2 ^ (ulpExp num den) = y at h52 hm1 hm2 hxy
  rw [hxy]
  constructor
  · rw [mul_right_comm]
    apply mul_le_mul_of_nonneg_right _ (le_of_lt hq)
    have : y * (1 - 1 / 2 ^ 53) = y - y / 2 ^ 53 := by ring
    rw [this]
    have h3 : (2 : ℚ) ^ 52 / 2 ^ 53 ≤ y / 2 ^ 53 := div_le_div_of_nonneg_right h52 (by positivity)
    have h4 : (2 : ℚ) ^ 52 / 2 ^ 53 = 1 / 2 := by norm_num
    linarith
  · rw [mul_right_comm]
    apply mul_le_mul_of_nonneg_right _ (le_of_lt hq)
    have : y * (1 + 1 / 2 ^ 53) = y + y / 2 ^ 53 := by ring
    rw [this]
    have h3 : (2 : ℚ) ^ 52 / 2 ^ 53 ≤ y / 2 ^ 53 := div_le_div_of_nonneg_right h52 (by positivity)
    have h4 : (2 : ℚ) ^ 52 / 2 ^ 53 = 1 / 2 := by norm_num
    linarith

/-- Rounding a quotient below one half gives at most one half. -/
theorem roundNE_half (num den : Nat) (hn : 0 < num) (hd : 0 < den)
    (hx : (num : ℚ) / den < 1 / 2) :
    (roundMant num den : ℚ) * 2 ^ (ulpExp num den) ≤ 1 / 2 := by
  have h2pos : (0 : ℚ) < 2 := by norm_num
  have h2ne : (2 : ℚ) ≠ 0 := by norm_num
  have hE : ilog2 num den < -1 := by
    apply ilog2_lt num den hn hd (-1)
    rw [show (2 : ℚ) ^ (-1 : Int) = 1 / 2 by norm_num]
    exact hx
  have hq : ulpExp num den ≤ -54 := by
    unfold ulpExp
    omega
  have hM := roundMant_le num den hn hd
  have hMq : (roundMant num den : ℚ) ≤ 2 ^ (53 : Int) := by
    have : ((roundMant num den : Nat) : ℚ) ≤ ((2 ^ 53 : Nat) : ℚ) := Nat.cast_le.mpr hM
    push_cast at this
    rw [show (53 : Int) = ((53 : Nat) : Int) by norm_num, zpow_natCast]
    exact this
  calc (roundMant num den : ℚ) * 2 ^ (ulpExp num den)
      ≤ 2 ^ (53 : Int) * 2 ^ (-54 : Int) :=
        mul_le_mul hMq (zpow_le_zpow_right₀ (by norm_num) hq)
          (le_of_lt (zpow_pos h2pos _)) (le_of_lt (zpow_pos h2pos _))
    _ = 1 / 2 := by rw [← zpow_add₀ h2ne]; norm_num

/-- A finite result of rounding a positive quotient is the rounded mantissa at the
exponent of the unit in the last place. -/
theorem roundNE_fin_eq (n d : Nat) (hn : 0 < n)
    (h : (roundNE false n d).finiteNonneg = true) :
    roundNE false n d = .fin (roundMant n d) (ulpExp n d) := by
  unfold roundNE at h ⊢
  rw [if_neg (by omega)] at h ⊢
  simp only [] at h ⊢
  split
  · rename_i hbig
    rw [if_pos hbig] at h
    cases h
  · rfl

/-- The double of a positive `int64`: a normal number that differs from the integer
by a factor between `1 - 2 ^ -53` and `1 + 2 ^ -53`. -/
theorem ofInt_pos_rel (u : Int) (hpos : 0 < u) (hhi : u < 2 ^ 63) :
    ∃ (Mu : Nat) (qu : Int), F64.ofInt u = .fin Mu qu
      ∧ 2 ^ 52 ≤ Mu ∧ Mu ≤ 2 ^ 53 ∧ -52 ≤ qu ∧ qu ≤ 10
      ∧ (u : ℚ) * (1 - 1 / 2 ^ 53) ≤ (Mu : ℚ) * 2 ^ qu
      ∧ (Mu : ℚ) * 2 ^ qu ≤ (u : ℚ) * (1 + 1 / 2 ^ 53) := by
  obtain ⟨Mu, qu, hU, h52, h53, hq1, _, hq10⟩ := ofInt_cases u (by omega) hhi (by omega)
  rw [if_neg (by omega)] at hU
  have hn : 0 < u.natAbs := Int.natAbs_pos.mpr (by omega)
  have hcast : ((u.natAbs : Nat) : ℚ) = (u : ℚ) := by
    have : ((u.natAbs : Nat) : Int) = u := Int.natAbs_of_nonneg (le_of_lt hpos)
    have h := congrArg (Int.cast (R := ℚ)) this
    rw [Int.cast_natCast] at h
    exact h
  have hq : ((u.natAbs : Nat) : ℚ) / ((1 : Nat) : ℚ) = (u : ℚ) := by
    rw [Nat.cast_one, div_one, hcast]
  have h1 : (1 : ℚ) ≤ u := by exact_mod_cast hpos
  have hx64 : ((u.natAbs : Nat) : ℚ) / ((1 : Nat) : ℚ) < 2 ^ (64 : Int) := by
    rw [hq]
    have : (u : ℚ) < ((2 ^ 63 : Int) : ℚ) := Int.cast_lt.mpr hhi
    have e : (((2 : Int) ^ 63 : Int) : ℚ) = 2 ^ (63 : Int) := by norm_num
    rw [e] at this
    have h6364 : (2 : ℚ) ^ (63 : Int) < 2 ^ (64 : Int) :=
      zpow_lt_zpow_right₀ (by norm_num) (by norm_num)
    linarith
  obtain ⟨hr, _⟩ := roundNE_small (decide (u < 0)) u.natAbs 1 hn (by norm_num) hx64
  have hdec : decide (u < 0) = false := by
    rw [decide_eq_false_iff_not]
    omega
  rw [hdec] at hr
  simp only [Bool.false_eq_true, if_false] at hr
  have hU2 : F64.ofInt u = .fin (roundMant u.natAbs 1) (ulpExp u.natAbs 1) := by
    unfold F64.ofInt
    rw [hdec, hr]
  rw [hU] at hU2
  injection hU2 with hM hqe
  have hMu : Mu = roundMant u.natAbs 1 := by exact_mod_cast hM
  obtain ⟨hr1, hr2⟩ := roundNE_rel u.natAbs 1 hn (by norm_num) (by rw [hq]; linarith)
  rw [hq, ← hMu, ← hqe] at hr1 hr2
  exact ⟨Mu, qu, hU, h52, h53, hq1, hq10 hpos, hr1, hr2⟩

/-- The bound `math.MaxInt64/float64(unit)` of the guard for a positive unit whose
double is `Mu * 2 ^ qu`: a double that differs from `2 ^ 63 / (Mu * 2 ^ qu)`, which is
at least 1, by a factor between `1 - 2 ^ -53` and `1 + 2 ^ -53`. -/
theorem bound_rel (Mu : Nat) (qu : Int) (h52 : 2 ^ 52 ≤ Mu) (h53 : Mu ≤ 2 ^ 53)
    (hq1 : -52 ≤ qu) (hq2 : qu ≤ 10) :
    ∃ (Mt : Nat) (qt : Int),
      F64.div (F64.ofInt MaxInt64) (.fin Mu qu) = .fin Mt qt
      ∧ (1 : ℚ) ≤ 2 ^ (63 : Int) / (Mu * 2 ^ qu)
      ∧ 2 ^ (63 : Int) / (Mu * 2 ^ qu) * (1 - 1 / 2 ^ 53) ≤ (Mt : ℚ) * 2 ^ qt
      ∧ (Mt : ℚ) * 2 ^ qt ≤ 2 ^ (63 : Int) / (Mu * 2 ^ qu) * (1 + 1 / 2 ^ 53) := by
  have hMu0 : 0 < Mu := lt_of_lt_of_le (by norm_num) h52
  have hMuq : (0 : ℚ) < Mu := by exact_mod_cast hMu0
  have h2pos : (0 : ℚ) < 2 := by norm_num
  have h2ne : (2 : ℚ) ≠ 0 := by norm_num
  have hnum : 0 < 9007199254740992 * 2 ^ (10 - qu).toNat := by positivity
  have hquot : (((9007199254740992 * 2 ^ (10 - qu).toNat : Nat)) : ℚ) / (Mu : ℚ)
      = 2 ^ (63 : Int) / (Mu * 2 ^ qu) := by
    rw [Nat.cast_mul, two_pow_toNat (10 - qu) (by omega)]
    have e1 : (2 : ℚ) ^ (63 : Int) = 9007199254740992 * 2 ^ (10 - qu) * 2 ^ qu := by
      rw [mul_assoc, ← zpow_add₀ h2ne]
      have : (10 - qu + qu) = 10 := by ring
      rw [this]
      norm_num
    rw [e1]
    have hq0 : (2 : ℚ) ^ qu ≠ 0 := ne_of_gt (zpow_pos h2pos _)
    field_simp
    ring
  have hM53 : (Mu : ℚ) ≤ 2 ^ 53 := by exact_mod_cast h53
  have hUpos : (0 : ℚ) < Mu * 2 ^ qu := mul_pos hMuq (zpow_pos h2pos _)
  have hU63 : (Mu : ℚ) * 2 ^ qu ≤ 2 ^ (63 : Int) := by
    calc (Mu : ℚ) * 2 ^ qu ≤ 2 ^ (53 : Int) * 2 ^ (10 : Int) := by
          apply mul_le_mul _ (zpow_le_zpow_right₀ (by norm_num) hq2)
            (le_of_lt (zpow_pos h2pos _)) (le_of_lt (zpow_pos h2pos _))
          rw [show (53 : Int) = ((53 : Nat) : Int) by norm_num, zpow_natCast]
          exact hM53
      _ = 2 ^ (63 : Int) := by rw [← zpow_add₀ h2ne]; norm_num
  have ht1 : (1 : ℚ) ≤ 2 ^ (63 : Int) / (Mu * 2 ^ qu) := by
    rw [le_div_iff₀ hUpos]
    linarith
  obtain ⟨Mt, qt, hb, _, _, _⟩ := bound_pos Mu qu h52 h53 hq1 hq2
  have hb2 : F64.div (F64.ofInt MaxInt64) (.fin Mu qu)
      = roundNE false (9007199254740992 * 2 ^ (10 - qu).toNat) Mu := by
    rw [ofInt_MaxInt64]
    unfold F64.div
    have hne : (Mu : Int) ≠ 0 := by exact_mod_cast (ne_of_gt hMu0)
    have hz : (qu - 10).toNat = 0 := by omega
    simp only [hne, if_false, hz, pow_zero, mul_one, Int.natAbs_ofNat]
    have hs : xor (decide ((9007199254740992 : Int) < 0)) (decide ((Mu : Int) < 0)) = false := by
      have : ¬ ((Mu : Int) < 0) := by omega
      simp [this]
    rw [hs]
    rfl
  have hfin : (roundNE false (9007199254740992 * 2 ^ (10 - qu).toNat) Mu).finiteNonneg
      = true := by
    rw [← hb2, hb]
    simp [F64.finiteNonneg]
  have hr := roundNE_fin_eq _ Mu hnum hfin
  rw [hb2, hr] at hb
  injection hb with hM hqe
  have hMt : roundMant (9007199254740992 * 2 ^ (10 - qu).toNat) Mu = Mt := by exact_mod_cast hM
  obtain ⟨hr1, hr2⟩ := roundNE_rel (9007199254740992 * 2 ^ (10 - qu).toNat) Mu hnum hMu0
    (by rw [hquot]; linarith)
  rw [hquot, hMt, hqe] at hr1 hr2
  refine ⟨Mt, qt, ?_, ht1, hr1, hr2⟩
  rw [hb2, hr, hMt, hqe]

/-- The arithmetic of the guard, below the limit: when the exact product `x * u` is
at most `2 ^ 63 - 4096`, the rounded number `V` is below the rounded bound `b`. -/
theorem guard_margin_low (x u U t b V : ℚ) (hx : 0 ≤ x) (hUpos : 0 < U)
    (hU : U ≤ u * (1 + 1 / 2 ^ 53)) (ht : t * U = 2 ^ 63) (ht1 : 1 ≤ t)
    (hb : t * (1 - 1 / 2 ^ 53) ≤ b) (hV : V ≤ x * (1 + 1 / 2 ^ 53) ∨ V ≤ 1 / 2)
    (hprod : x * u ≤ 2 ^ 63 - 4096) : V < b := by
  rcases hV with hV | hV
  · by_contra hc
    have hbV : b ≤ V := not_lt.mp hc
    have h1 : t * (1 - 1 / 2 ^ 53) ≤ x * (1 + 1 / 2 ^ 53) := le_trans hb (le_trans hbV hV)
    have h2 : t * (1 - 1 / 2 ^ 53) * U ≤ x * (1 + 1 / 2 ^ 53) * U :=
      mul_le_mul_of_nonneg_right h1 (le_of_lt hUpos)
    have h3 : t * (1 - 1 / 2 ^ 53) * U = 2 ^ 63 * (1 - 1 / 2 ^ 53) := by
      rw [mul_right_comm, ht]
    have h4 : x * (1 + 1 / 2 ^ 53) * U ≤ x * (1 + 1 / 2 ^ 53) * (u * (1 + 1 / 2 ^ 53)) :=
      mul_le_mul_of_nonneg_left hU (mul_nonneg hx (by norm_num))
    have h5 : x * (1 + 1 / 2 ^ 53) * (u * (1 + 1 / 2 ^ 53))
        = x * u * ((1 + 1 / 2 ^ 53) * (1 + 1 / 2 ^ 53)) := by ring
    have h6 : x * u * ((1 + 1 / 2 ^ 53) * (1 + 1 / 2 ^ 53))
        ≤ (2 ^ 63 - 4096) * ((1 + 1 / 2 ^ 53) * (1 + 1 / 2 ^ 53)) :=
      mul_le_mul_of_nonneg_right hprod (by norm_num)
    have h7 : ((2 : ℚ) ^ 63 - 4096) * ((1 + 1 / 2 ^ 53) * (1 + 1 / 2 ^ 53))
        < 2 ^ 63 * (1 - 1 / 2 ^ 53) := by norm_num
    rw [h3] at h2
    rw [h5] at h4
    linarith
  · have h1 : (1 : ℚ) * (1 - 1 / 2 ^ 53) ≤ t * (1 - 1 / 2 ^ 53) :=
      mul_le_mul_of_nonneg_right ht1 (by norm_num)
    have h2 : (1 : ℚ) / 2 < 1 * (1 - 1 / 2 ^ 53) := by norm_num
    linarith

/-- The arithmetic of the guard, above the limit: when the exact product `x * u` is
at least `2 ^ 63 + 4096`, the rounded number `V` is at least the rounded bound `b`. -/
theorem guard_margin_high (x u U t b V : ℚ) (hx : 0 ≤ x) (hUpos : 0 < U)
    (hU : u * (1 - 1 / 2 ^ 53) ≤ U) (ht : t * U = 2 ^ 63)
    (hb : b ≤ t * (1 + 1 / 2 ^ 53)) (hV : x * (1 - 1 / 2 ^ 53) ≤ V)
    (hprod : 2 ^ 63 + 4096 ≤ x * u) : b ≤ V := by
  by_contra hc
  have hVb : V < b := not_le.mp hc
  have h1 : x * (1 - 1 / 2 ^ 53) < t * (1 + 1 / 2 ^ 53) :=
    lt_of_le_of_lt hV (lt_of_lt_of_le hVb hb)
  have h2 : x * (1 - 1 / 2 ^ 53) * U < t * (1 + 1 / 2 ^ 53) * U :=
    mul_lt_mul_of_pos_right h1 hUpos
  have h3 : t * (1 + 1 / 2 ^ 53) * U = 2 ^ 63 * (1 + 1 / 2 ^ 53) := by
    rw [mul_right_comm, ht]
  have h4 : x * (1 - 1 / 2 ^ 53) * (u * (1 - 1 / 2 ^ 53)) ≤ x * (1 - 1 / 2 ^ 53) * U :=
    mul_le_mul_of_nonneg_left hU (mul_nonneg hx (by norm_num))
  have h5 : x * (1 - 1 / 2 ^ 53) * (u * (1 - 1 / 2 ^ 53))
      = x * u * ((1 - 1 / 2 ^ 53) * (1 - 1 / 2 ^ 53)) := by ring
  have h6 : (2 ^ 63 + 4096) * ((1 - 1 / 2 ^ 53) * (1 - 1 / 2 ^ 53))
      ≤ x * u * ((1 - 1 / 2 ^ 53) * (1 - 1 / 2 ^ 53)) :=
    mul_le_mul_of_nonneg_right hprod (by norm_num)
  have h7 : (2 : ℚ) ^ 63 * (1 + 1 / 2 ^ 53)
      ≤ (2 ^ 63 + 4096) * ((1 - 1 / 2 ^ 53) * (1 - 1 / 2 ^ 53)) := by norm_num
  rw [h3] at h2
  rw [h5] at h4
  linarith

/-- The guard of `ParseUnitNum` for a token whose number rounds to a finite double
and a positive `int64` multiplier: it lets the token pass when the exact product
`number x multiplier` is at most `2 ^ 63 - 4096`, and it stops the token when the
exact product is at least `2 ^ 63 + 4096`. -/
theorem tooBig_margin (t : Token) (mult : Int) (hpos : 0 < mult) (hhi : mult < 2 ^ 63)
    (hfin : t.nearest.finiteNonneg = true) :
    ((t.mantissa : Int) * mult ≤ (2 ^ 63 - 4096) * 10 ^ t.scale →
        tooBig t.nearest mult = false)
    ∧ ((2 ^ 63 + 4096) * 10 ^ t.scale ≤ (t.mantissa : Int) * mult →
        tooBig t.nearest mult = true) := by
  have h2pos : (0 : ℚ) < 2 := by norm_num
  obtain ⟨Mu, qu, hU, h52, h53, hq1, hq10, hu1, hu2⟩ := ofInt_pos_rel mult hpos hhi
  obtain ⟨Mt, qt, hb, ht1, hb1, hb2⟩ := bound_rel Mu qu h52 h53 hq1 hq10
  have hMu0 : 0 < Mu := lt_of_lt_of_le (by norm_num) h52
  have hMuq : (0 : ℚ) < Mu := by exact_mod_cast hMu0
  have hUpos : (0 : ℚ) < Mu * 2 ^ qu := mul_pos hMuq (zpow_pos h2pos _)
  have htU : 2 ^ (63 : Int) / ((Mu : ℚ) * 2 ^ qu) * (Mu * 2 ^ qu) = 2 ^ 63 := by
    rw [div_mul_cancel₀ _ (ne_of_gt hUpos)]
    norm_num
  have hd : 0 < 10 ^ t.scale := by positivity
  have hdq : (0 : ℚ) < ((10 ^ t.scale : Nat) : ℚ) := by exact_mod_cast hd
  have hmq : (0 : ℚ) < mult := by exact_mod_cast hpos
  have hx0 : (0 : ℚ) ≤ (t.mantissa : ℚ) / ((10 ^ t.scale : Nat) : ℚ) :=
    div_nonneg (Nat.cast_nonneg _) (le_of_lt hdq)
  -- the exact product, over the rationals
  have hprodq : ∀ c : Int, ((t.mantissa : Int) * mult ≤ c * 10 ^ t.scale ↔
      (t.mantissa : ℚ) / ((10 ^ t.scale : Nat) : ℚ) * mult ≤ c)
      ∧ (c * 10 ^ t.scale ≤ (t.mantissa : Int) * mult ↔
      (c : ℚ) ≤ (t.mantissa : ℚ) / ((10 ^ t.scale : Nat) : ℚ) * mult) := by
    intro c
    have e : (t.mantissa : ℚ) / ((10 ^ t.scale : Nat) : ℚ) * mult
        = ((t.mantissa : ℚ) * mult) / ((10 ^ t.scale : Nat) : ℚ) := by ring
    rw [e, div_le_iff₀ hdq, le_div_iff₀ hdq]
    constructor
    · rw [← Int.cast_le (R := ℚ)]
      push_cast
      rfl
    · rw [← Int.cast_le (R := ℚ)]
      push_cast
      rfl
  unfold tooBig
  rw [hU, hb]
  by_cases hm0 : t.mantissa = 0
  · have hn : t.nearest = .fin 0 0 := by
      unfold Token.nearest roundNE
      rw [if_pos hm0]
    rw [hn]
    constructor
    · intro _
      rw [Bool.eq_false_iff]
      intro hge
      rw [ge_fin_iff] at hge
      have hlow := guard_margin_low 0 mult (Mu * 2 ^ qu) _ _ 0 (le_refl _) hUpos hu2 htU
        ht1 hb1 (Or.inl (by norm_num)) (by norm_num)
      rw [Int.cast_natCast] at hge
      simp only [Int.cast_zero, zero_mul] at hge
      linarith
    · intro h
      exfalso
      rw [hm0] at h
      have : (0 : Int) < (2 ^ 63 + 4096) * 10 ^ t.scale := by positivity
      simp only [Nat.cast_zero, zero_mul] at h
      omega
  · have hmpos : 0 < t.mantissa := Nat.pos_of_ne_zero hm0
    have hn : t.nearest = .fin (roundMant t.mantissa (10 ^ t.scale))
        (ulpExp t.mantissa (10 ^ t.scale)) := roundNE_fin_eq _ _ hmpos hfin
    rw [hn]
    constructor
    · intro h
      have hq := ((hprodq (2 ^ 63 - 4096)).1).mp h
      rw [show (((2 ^ 63 - 4096 : Int)) : ℚ) = 2 ^ 63 - 4096 by norm_num] at hq
      rw [Bool.eq_false_iff]
      intro hge
      rw [ge_fin_iff, Int.cast_natCast, Int.cast_natCast] at hge
      have hV : (roundMant t.mantissa (10 ^ t.scale) : ℚ) * 2 ^ ulpExp t.mantissa (10 ^ t.scale)
            ≤ (t.mantissa : ℚ) / ((10 ^ t.scale : Nat) : ℚ) * (1 + 1 / 2 ^ 53)
          ∨ (roundMant t.mantissa (10 ^ t.scale) : ℚ) * 2 ^ ulpExp t.mantissa (10 ^ t.scale)
            ≤ 1 / 2 := by
        rcases le_or_lt ((1 : ℚ) / 2) ((t.mantissa : ℚ) / ((10 ^ t.scale : Nat) : ℚ)) with hc | hc
        · exact Or.inl (roundNE_rel _ _ hmpos hd hc).2
        · exact Or.inr (roundNE_half _ _ hmpos hd hc)
      have hlow := guard_margin_low _ mult (Mu * 2 ^ qu) _ _ _ hx0 hUpos hu2 htU ht1 hb1 hV
        hq
      linarith
    · intro h
      have hq := ((hprodq (2 ^ 63 + 4096)).2).mp h
      rw [show (((2 ^ 63 + 4096 : Int)) : ℚ) = 2 ^ 63 + 4096 by norm_num] at hq
      rw [ge_fin_iff, Int.cast_natCast, Int.cast_natCast]
      have hx1 : (1 : ℚ) / 2 ≤ (t.mantissa : ℚ) / ((10 ^ t.scale : Nat) : ℚ) := by
        by_contra hc
        have hlt : (t.mantissa : ℚ) / ((10 ^ t.scale : Nat) : ℚ) < 1 / 2 := not_le.mp hc
        have hm63 : (mult : ℚ) < 2 ^ 63 := by exact_mod_cast hhi
        have : (t.mantissa : ℚ) / ((10 ^ t.scale : Nat) : ℚ) * mult ≤ 1 / 2 * mult :=
          mul_le_mul_of_nonneg_right (le_of_lt hlt) (le_of_lt hmq)
        linarith
      exact guard_margin_high _ mult (Mu * 2 ^ qu) _ _ _ hx0 hUpos hu1 htU hb2
        (roundNE_rel _ _ hmpos hd hx1).1 hq

/-- C11 (the claim as stated fails): `9223372036854775807b` is one token with the
positive multiplier 1 and the product `2 ^ 63 - 1`, which does not exceed
`2 ^ 63 - 1`, and `ParseUnitNum` reports "Number is too big": the number rounds
to the double `2 ^ 63`. -/
theorem ParseUnitNum_max_too_big :
    maxToken.text = "9223372036854775807b".toList
    ∧ sizeMap.lookup (maxToken.effUnit "b".toList) = some 1
    ∧ maxToken.exactValue 1 = 2 ^ 63 - 1
    ∧ maxToken.exactValue 1 ≤ MaxInt64
    ∧ ParseUnitNum "9223372036854775807b".toList sizeMap "b".toList
        = some (.error (UnitNumParserError "9223372036854775807b".toList
            "9223372036854775807b".toList "Number is too big".toList 0)) := by
  decide!

/-- C11 (amended): on an input that is one well-formed token, other than the literal
`0`, whose unit (or the default unit) is a key of the table of `int64` multipliers
and whose number rounds to a finite double, `ParseUnitNum` reports "Number is too
big" exactly when the float64 guard `n >= MaxInt64/float64(unit)` holds, and
returns the float64 value of the token otherwise.  For a positive multiplier the
guard does not hold when the exact product `number x multiplier` is at most
`2 ^ 63 - 4096`, and it holds when the exact product is at least `2 ^ 63 + 4096`. -/
theorem ParseUnitNum_too_big (unitMap : UnitMap) (defaultUnit : Str) (t : Token)
    (mult : Int) (hint : unitMap.int64) (hwf : t.wf = true)
    (hfin : t.nearest.finiteNonneg = true)
    (hlook : unitMap.lookup (t.effUnit defaultUnit) = some mult)
    (hne : t.text ≠ "0".toList) :
    ParseUnitNum t.text unitMap defaultUnit
        = (if tooBig t.nearest mult then
            some (.error (UnitNumParserError t.text t.text "Number is too big".toList 0))
          else some (.ok ((t.f64Value mult).getD 0)))
    ∧ (0 < mult → (t.mantissa : Int) * mult ≤ (2 ^ 63 - 4096) * 10 ^ t.scale →
        tooBig t.nearest mult = false)
    ∧ (0 < mult → (2 ^ 63 + 4096) * 10 ^ t.scale ≤ (t.mantissa : Int) * mult →
        tooBig t.nearest mult = true) := by
  obtain ⟨hlo, hhi⟩ := lookup_int64 hint hlook
  refine ⟨?_, fun hpos => (tooBig_margin t mult hpos hhi hfin).1,
    fun hpos => (tooBig_margin t mult hpos hhi hfin).2⟩
  unfold ParseUnitNum
  rw [if_neg hne]
  have hstep := parseLoop_token t.text unitMap defaultUnit t.text.length t [] 0 mult hwf rfl
    hfin hlook
  rw [List.append_nil] at hstep
  rw [hstep]
  cases hg : tooBig t.nearest mult with
  | true => rfl
  | false =>
    obtain ⟨_, v, hv, hconv, hv0, hv63⟩ := accepted_value t mult hfin hg hlo hhi
    rw [hconv, hv]
    simp only [Bool.false_eq_true, if_false, Option.getD_some]
    have hno : ¬ wrap64 (MaxInt64 - 0) < v := by
      unfold wrap64 MaxInt64
      omega
    rw [if_neg hno]
    have hlen : t.text.length ≠ 0 := fun h => t.text_ne_nil hwf (List.length_eq_zero.mp h)
    obtain ⟨k, hk⟩ := Nat.exists_eq_succ_of_ne_zero hlen
    rw [hk, parseLoop, if_pos rfl, zero_add, wrap64_id v (by omega) hv63]

/-- C11 (amended), on `9223372036854771712b` with `sizeMap`: the product is
`2 ^ 63 - 4096`, the guard does not hold, and the parse returns that value. -/
theorem ParseUnitNum_too_big_witness :
    sizeMap.int64 ∧ marginToken.wf = true ∧ marginToken.nearest.finiteNonneg = true
    ∧ sizeMap.lookup (marginToken.effUnit "b".toList) = some 1
    ∧ marginToken.text = "9223372036854771712b".toList
    ∧ tooBig marginToken.nearest 1 = false
    ∧ ParseUnitNum marginToken.text sizeMap "b".toList
        = (if tooBig marginToken.nearest 1 then
            some (.error (UnitNumParserError marginToken.text marginToken.text
              "Number is too big".toList 0))
          else some (.ok ((marginToken.f64Value 1).getD 0)))
    ∧ (marginToken.f64Value 1).getD 0 = 2 ^ 63 - 4096 :=
  have h := ParseUnitNum_too_big sizeMap "b".toList marginToken 1 sizeMap_int64 (by decide)
    (by decide!) (by decide) (by decide)
  ⟨sizeMap_int64, by decide, by decide!, by decide, by decide,
    h.2.1 (by decide) (by decide!), h.1, by decide!⟩

end RotateOut
